import Mathlib

/-!
# go-jsonschema: the code generation model (`pkg/codegen/model.go`) and the
schema type names (`pkg/schemas/types.go`)

A shallow embedding of the declaration and type model of the generator and of
the way a `Package` orders and renders its declarations and imports.

Conventions of the embedding.

* A Go `string` is a Lean `String`; text written to the output is a
  `List Char`.
* A Go interface is the record of its methods: a `Decl` is its `Generate`
  method together with the result of the type assertion `.(Named)`.
* A field is an `Option` exactly where the source tests it against `nil`;
  calling a method through such a field when it is `nil` is a run-time panic,
  modelled by `none`.
* A caller-supplied callback `func(*Emitter)` is a function on emitter states.
-/

namespace Codegen

/-! ## Text helpers -/

/-- Go's `<` on strings. Go compares the bytes of the two strings
lexicographically; for UTF-8 text this is the lexicographic order of the code
points. -/
def strLess (a b : String) : Bool := decide (a.toList < b.toList)

/-- The pieces of a text between its newline characters, as
`strings.Split(s, "\n")` returns them. -/
def splitLines : List Char → List (List Char)
  | [] => [[]]
  | c :: cs =>
    match splitLines cs with
    | [] => [[c]]
    | l :: ls => if c = '\n' then [] :: l :: ls else (c :: l) :: ls

/-- One hexadecimal digit, lower case. -/
def hexDigit (n : Nat) : Char :=
  if n < 10 then Char.ofNat (48 + n) else Char.ofNat (87 + n)

/-- What the `%q` verb of Go's `fmt` writes for one character of a string
(`strconv.Quote`): the quote and the backslash are escaped, the control
characters are written as escapes, and so are the characters up to U+00FF
that `strconv.IsPrint` does not take as printable (U+0080 to U+00A0 and the
soft hyphen U+00AD); every other character stands for itself. Beyond U+00FF
`strconv.IsPrint` reads the tables of the package, which are not embedded:
there the characters are taken to be printable. -/
def quoteChar (c : Char) : List Char :=
  if c = '"' then ['\\', '"']
  else if c = '\\' then ['\\', '\\']
  else if c = '\n' then ['\\', 'n']
  else if c = '\t' then ['\\', 't']
  else if c = '\r' then ['\\', 'r']
  else if c.toNat = 7 then ['\\', 'a']
  else if c.toNat = 8 then ['\\', 'b']
  else if c.toNat = 11 then ['\\', 'v']
  else if c.toNat = 12 then ['\\', 'f']
  else if c.toNat < 32 ∨ c.toNat = 127 then
    ['\\', 'x', hexDigit (c.toNat / 16), hexDigit (c.toNat % 16)]
  else if (128 ≤ c.toNat ∧ c.toNat ≤ 160) ∨ c.toNat = 173 then
    ['\\', 'u', '0', '0', hexDigit (c.toNat / 16), hexDigit (c.toNat % 16)]
  else [c]

/-- The `%q` verb of Go's `fmt` on a string: the double-quoted Go literal. -/
def goQuote (s : String) : String :=
  String.mk (['"'] ++ (s.toList.map quoteChar).flatten ++ ['"'])

/-! ## Formatting without operands

`Print` of the emitter takes a format and operands, as `fmt.Fprintf` does.
Where the source passes operands the format is a constant with the verbs
`%s` and `%q`, and the text is put together in place. Where the source passes
a name as the format, with no operands, the text is what `fmt.Sprintf(name)`
returns: `doPrintf` of Go's package `fmt` (`print.go`) with an empty operand
list, embedded here. A verb then has no operand to print: `%%` writes `%`,
every other verb writes `%!v(MISSING)`, or `%!v(BADINDEX)` after an operand
index, and a format that ends within a verb writes `%!(NOVERB)`. -/

namespace Fmt

/-- `tooLarge(x)`, on a number that is not negative. -/
def tooLarge (x : Nat) : Bool := decide (x > 1000000)

/-- The loop of `parsenum` over the digits at the front of `s`, with the
number read so far and `isnum`; `none` when the number is too large. -/
def parsenumLoop : List Char → Nat → Bool → Option (Nat × Bool × List Char)
  | [], num, isnum => some (num, isnum, [])
  | c :: cs, num, isnum =>
    if 48 ≤ c.toNat ∧ c.toNat ≤ 57 then
      if tooLarge num then none else parsenumLoop cs (num * 10 + (c.toNat - 48)) true
    else some (num, isnum, c :: cs)

/-- `parsenum(format, i, end)` with `end` the end of the format: `s` is the
format from `i` on; the result is the number, `isnum` and the format from
`newi` on. On overflow `newi` is `end`. -/
def parsenum (s : List Char) : Nat × Bool × List Char :=
  match parsenumLoop s 0 false with
  | some r => r
  | none => (0, false, [])

/-- `parseArgNumber(format[i:])` for a format that has `[` at `i`: the
format from `i + wid` on, and `ok`. The index it returns is not used when
there are no operands. -/
def parseArgNumber (s : List Char) : List Char × Bool :=
  if s.length < 3 then (s.drop 1, false)
  else
    let digits := (s.drop 1).takeWhile (fun c => c ≠ ']')
    if (s.drop 1).length = digits.length then (s.drop 1, false)
    else
      match parsenumLoop digits 0 false with
      | some (_, true, []) => ((s.drop 1).drop (digits.length + 1), true)
      | _ => ((s.drop 1).drop (digits.length + 1), false)

/-- `(*pp).argNumber(argNum, format, i, 0)`: the format from `newi` on,
`found`, and whether `p.goodArgNum` was set to false (with no operands every
index is out of range). -/
def argNumber (s : List Char) : List Char × Bool × Bool :=
  match s with
  | '[' :: _ => ((parseArgNumber s).1, (parseArgNumber s).2, true)
  | _ => (s, false, false)

/-- The flags of a verb. -/
def isFlag (c : Char) : Bool := c = '#' ∨ c = '0' ∨ c = '+' ∨ c = '-' ∨ c = ' '

/-- The width of a verb, in the format `s` after the flags and the operand
index, with `afterIndex` and whether the index was bad: what is written, the
rest of the format, `afterIndex` and whether the index is bad. -/
def verbWidth (s : List Char) (afterIndex bad : Bool) : List Char × List Char × Bool × Bool :=
  match s with
  | '*' :: r => ("%!(BADWIDTH)".toList, r, false, bad)
  | _ => ([], (parsenum s).2.2, afterIndex, bad || (afterIndex && (parsenum s).2.1))

/-- The precision of a verb, as `verbWidth`. -/
def verbPrecision (s : List Char) (afterIndex bad : Bool) :
    List Char × List Char × Bool × Bool :=
  match s with
  | '.' :: r =>
    match (argNumber r).1 with
    | '*' :: r2 => ("%!(BADPREC)".toList, r2, false, bad || afterIndex || (argNumber r).2.2)
    | r1 => ([], (parsenum r1).2.2, (argNumber r).2.1, bad || afterIndex || (argNumber r).2.2)
  | _ => ([], s, afterIndex, bad)

/-- The end of a verb: the verb character, after one more look for an
operand index when the last item was not one. -/
def verbChar (s : List Char) (afterIndex bad : Bool) : List Char × List Char :=
  let s1 := if afterIndex then s else (argNumber s).1
  let bad1 := if afterIndex then bad else bad || (argNumber s).2.2
  match s1 with
  | [] => ("%!(NOVERB)".toList, [])
  | c :: rest =>
    if c = '%' then (['%'], rest)
    else if bad1 then ("%!".toList ++ c :: "(BADINDEX)".toList, rest)
    else ("%!".toList ++ c :: "(MISSING)".toList, rest)

/-- One turn of the loop of `doPrintf` at a `%`, with no operands: `s` is the
format after the `%`; the result is what is written and the rest of the
format. -/
def verb (s : List Char) : List Char × List Char :=
  let s0 := s.dropWhile isFlag
  let a := argNumber s0
  let w := verbWidth a.1 a.2.1 a.2.2
  let p := verbPrecision w.2.1 w.2.2.1 w.2.2.2
  let v := verbChar p.2.1 p.2.2.1 p.2.2.2
  (w.1 ++ p.1 ++ v.1, v.2)

/-- `(*pp).doPrintf(format, nil)`: text up to a `%` is copied, a `%` starts a
verb. The first argument bounds the number of turns; the length of the format
is enough, since every turn takes at least one character. -/
def doPrintf : Nat → List Char → List Char
  | 0, _ => []
  | _ + 1, [] => []
  | n + 1, c :: cs =>
    if c = '%' then (verb cs).1 ++ doPrintf n (verb cs).2 else c :: doPrintf n cs

/-- `fmt.Sprintf(format)`, with no operands. -/
def Sprintf (format : String) : String :=
  String.mk (doPrintf format.length format.toList)

end Fmt

/-! ## The sort of Go's standard library

`Package.Generate` orders the declarations with `sort.Slice`. Its code is
Go's, not the repository's; it is embedded here as it stands in the package
`sort` since Go 1.19 (`Slice` in `slice.go`, the functions of `zsortfunc.go`,
`xorshift` and `nextPowerOfTwo` in `sort.go`): a pattern-defeating quicksort
that hands ranges of at most 12 elements to insertion sort. The slice is a
`List`; an index outside it reads nothing, so that `Less` is false and `Swap`
changes nothing there. A Go loop is a recursive function whose first argument
counts the turns that are left. -/

namespace GoSort

variable {α : Type}

/-- The call `data.Less(i, j)`: the comparison function of the caller on the
elements now at `i` and `j`. -/
def lessAt (less : α → α → Bool) (data : List α) (i j : Nat) : Bool :=
  match data[i]?, data[j]? with
  | some x, some y => less x y
  | _, _ => false

/-- The call `data.Swap(i, j)`. -/
def swap (data : List α) (i j : Nat) : List α :=
  match data[i]?, data[j]? with
  | some x, some y => (data.set i y).set j x
  | _, _ => data

/-- The loop `for i <= j && p(i) { i++ }`, run for `n = j + 1 - i` places at
most: the first place from `i` on where `p` fails. -/
def scanUp (p : Nat → Bool) : Nat → Nat → Nat
  | 0, i => i
  | n + 1, i => if p i then scanUp p n (i + 1) else i

/-- The loop `for i <= j && p(j) { j-- }`, run for `n = j + 1 - i` places at
most: the first place from `j` down where `p` fails. -/
def scanDown (p : Nat → Bool) : Nat → Nat → Nat
  | 0, j => j
  | n + 1, j => if p j then scanDown p n (j - 1) else j

/-- The inner loop of insertion sort,
`for j := i; j > a && data.Less(j, j-1); j-- { data.Swap(j, j-1) }`. -/
def insertionInner (less : α → α → Bool) (a : Nat) : Nat → List α → List α
  | 0, data => data
  | j + 1, data =>
    if a < j + 1 ∧ lessAt less data (j + 1) j then
      insertionInner less a j (swap data (j + 1) j)
    else data

/-- The outer loop of insertion sort, `for i := a + 1; i < b; i++`, with `n`
iterations left. -/
def insertionOuter (less : α → α → Bool) (a : Nat) : Nat → Nat → List α → List α
  | 0, _, data => data
  | n + 1, i, data => insertionOuter less a n (i + 1) (insertionInner less a i data)

/-- `insertionSort_func(data, a, b)`. -/
def insertionSort_func (less : α → α → Bool) (data : List α) (a b : Nat) : List α :=
  insertionOuter less a (b - (a + 1)) (a + 1) data

/-- `siftDown_func(data, lo, hi, first)`; `root` starts at `lo`, and the
loop runs at most `fuel` times (`root` grows on every turn and stays below
`hi`). -/
def siftDown_func (less : α → α → Bool) (hi first : Nat) : Nat → Nat → List α → List α
  | 0, _, data => data
  | fuel + 1, root, data =>
    let child := 2 * root + 1
    if child ≥ hi then data
    else
      let child1 :=
        if child + 1 < hi ∧ lessAt less data (first + child) (first + child + 1) then child + 1
        else child
      if !lessAt less data (first + root) (first + child1) then data
      else siftDown_func less hi first fuel child1 (swap data (first + root) (first + child1))

/-- The first loop of heap sort, `for i := (hi - 1) / 2; i >= 0; i--`, with
`n` iterations left (`i = n - 1`). -/
def heapBuild (less : α → α → Bool) (hi first : Nat) : Nat → List α → List α
  | 0, data => data
  | i + 1, data => heapBuild less hi first i (siftDown_func less hi first hi i data)

/-- The second loop of heap sort, `for i := hi - 1; i >= 0; i--`, with `n`
iterations left (`i = n - 1`). -/
def heapPop (less : α → α → Bool) (first : Nat) : Nat → List α → List α
  | 0, data => data
  | i + 1, data =>
    heapPop less first i (siftDown_func less i first i 0 (swap data first (first + i)))

/-- `heapSort_func(data, a, b)`. -/
def heapSort_func (less : α → α → Bool) (data : List α) (a b : Nat) : List α :=
  heapPop less a (b - a) (heapBuild less (b - a) a ((b - a - 1) / 2 + 1) data)

/-- The type `sortedHint`. -/
inductive SortedHint where
  | unknownHint
  | increasingHint
  | decreasingHint
deriving DecidableEq, Repr

/-- `order2_func(data, a, b, swaps)`: the two indices in order, and the
counter. -/
def order2_func (less : α → α → Bool) (data : List α) (a b swaps : Nat) : Nat × Nat × Nat :=
  if lessAt less data b a then (b, a, swaps + 1) else (a, b, swaps)

/-- `median_func(data, a, b, c, swaps)`: the index of the median, and the
counter. -/
def median_func (less : α → α → Bool) (data : List α) (a b c swaps : Nat) : Nat × Nat :=
  let r1 := order2_func less data a b swaps
  let r2 := order2_func less data r1.2.1 c r1.2.2
  let r3 := order2_func less data r1.1 r2.1 r2.2.2
  (r3.2.1, r3.2.2)

/-- `medianAdjacent_func(data, a, swaps)`. -/
def medianAdjacent_func (less : α → α → Bool) (data : List α) (a swaps : Nat) : Nat × Nat :=
  median_func less data (a - 1) a (a + 1) swaps

/-- `choosePivot_func(data, a, b)`. -/
def choosePivot_func (less : α → α → Bool) (data : List α) (a b : Nat) : Nat × SortedHint :=
  let l := b - a
  let i := a + l / 4 * 1
  let j := a + l / 4 * 2
  let k := a + l / 4 * 3
  let r :=
    if l ≥ 8 then
      if l ≥ 50 then
        let ri := medianAdjacent_func less data i 0
        let rj := medianAdjacent_func less data j ri.2
        let rk := medianAdjacent_func less data k rj.2
        median_func less data ri.1 rj.1 rk.1 rk.2
      else median_func less data i j k 0
    else (j, 0)
  if r.2 = 0 then (r.1, SortedHint.increasingHint)
  else if r.2 = 12 then (r.1, SortedHint.decreasingHint)
  else (r.1, SortedHint.unknownHint)

/-- The loop of `reverseRange_func`, `for i < j`, run at most `n` times. -/
def reverseLoop : Nat → Nat → Nat → List α → List α
  | 0, _, _, data => data
  | n + 1, i, j, data => if i < j then reverseLoop n (i + 1) (j - 1) (swap data i j) else data

/-- `reverseRange_func(data, a, b)`. -/
def reverseRange_func (data : List α) (a b : Nat) : List α :=
  reverseLoop (b - a) a (b - 1) data

/-- `bits.Len`: the number of bits of `n`; the recursion halves `n` at most
`fuel` times. -/
def bitsLenAux : Nat → Nat → Nat
  | 0, _ => 0
  | fuel + 1, n => if n = 0 then 0 else bitsLenAux fuel (n / 2) + 1

/-- `bits.Len(uint(n))`. -/
def bitsLen (n : Nat) : Nat := bitsLenAux n n

/-- `nextPowerOfTwo(length)`. -/
def nextPowerOfTwo (length : Nat) : Nat := 2 ^ bitsLen length

/-- `(*xorshift).Next` on a 64-bit state, with the shift amounts of the
current releases; the numbers it yields only pick the places that
`breakPatterns_func` swaps. -/
def xorshiftNext (r : Nat) : Nat :=
  let r1 := (r ^^^ (r <<< 13)) % 2 ^ 64
  let r2 := r1 ^^^ (r1 >>> 7)
  (r2 ^^^ (r2 <<< 17)) % 2 ^ 64

/-- The loop of `breakPatterns_func`, `for i := 0; i < 3; i++`, with `n`
iterations left. -/
def breakLoop (a length modulus idx : Nat) : Nat → Nat → Nat → List α → List α
  | 0, _, _, data => data
  | n + 1, i, random, data =>
    let next := xorshiftNext random
    let other := next &&& (modulus - 1)
    let other1 := if other ≥ length then other - length else other
    breakLoop a length modulus idx n (i + 1) next (swap data (idx + i) (a + other1))

/-- `breakPatterns_func(data, a, b)`. -/
def breakPatterns_func (data : List α) (a b : Nat) : List α :=
  let length := b - a
  if length ≥ 8 then
    breakLoop a length (nextPowerOfTwo length) (a + (length / 4) * 2 - 1) 3 0 length data
  else data

/-- The loop `for j := i + 1; j < b; j++` of `partialInsertionSort_func`
that shifts the greater element to the right, with `n` iterations left. -/
def shiftGreater (less : α → α → Bool) : Nat → Nat → List α → List α
  | 0, _, data => data
  | n + 1, j, data =>
    if !lessAt less data j (j - 1) then data
    else shiftGreater less n (j + 1) (swap data j (j - 1))

/-- The loop `for j := 0; j < maxSteps; j++` of
`partialInsertionSort_func`, with `steps` iterations left. The loop that
shifts the smaller element to the left, `for j := i - 1; j >= 1; j--`, is the
inner loop of insertion sort with lower bound 0. -/
def partialInsertionLoop (less : α → α → Bool) (a b : Nat) :
    Nat → Nat → List α → List α × Bool
  | 0, _, data => (data, false)
  | steps + 1, i, data =>
    let i1 := scanUp (fun k => !lessAt less data k (k - 1)) (b - i) i
    if i1 = b then (data, true)
    else if b - a < 50 then (data, false)
    else
      let d1 := swap data i1 (i1 - 1)
      let d2 := if i1 - a ≥ 2 then insertionInner less 0 (i1 - 1) d1 else d1
      let d3 := if b - i1 ≥ 2 then shiftGreater less (b - (i1 + 1)) (i1 + 1) d2 else d2
      partialInsertionLoop less a b steps i1 d3

/-- `partialInsertionSort_func(data, a, b)`: the slice and whether it is
sorted at the end. -/
def partialInsertionSort_func (less : α → α → Bool) (data : List α) (a b : Nat) :
    List α × Bool :=
  partialInsertionLoop less a b 5 (a + 1) data

/-- The endless loop of `partition_func`, run at most `n` times: the slice
and the final `j`. -/
def partitionLoop (less : α → α → Bool) (a : Nat) : Nat → Nat → Nat → List α → List α × Nat
  | 0, _, j, data => (data, j)
  | n + 1, i, j, data =>
    let i1 := scanUp (fun k => lessAt less data k a) (j + 1 - i) i
    let j1 := scanDown (fun k => !lessAt less data k a) (j + 1 - i1) j
    if i1 > j1 then (data, j1)
    else partitionLoop less a n (i1 + 1) (j1 - 1) (swap data i1 j1)

/-- `partition_func(data, a, b, pivot)`: the slice, the new place of the
pivot and whether the slice was already partitioned. -/
def partition_func (less : α → α → Bool) (data : List α) (a b pivot : Nat) :
    List α × Nat × Bool :=
  let d0 := swap data a pivot
  let i := scanUp (fun k => lessAt less d0 k a) (b - 1 + 1 - (a + 1)) (a + 1)
  let j := scanDown (fun k => !lessAt less d0 k a) (b - 1 + 1 - i) (b - 1)
  if i > j then (swap d0 j a, j, true)
  else
    let r := partitionLoop less a (b - a) (i + 1) (j - 1) (swap d0 i j)
    (swap r.1 r.2 a, r.2, false)

/-- The loop of `partitionEqual_func`, run at most `n` times: the slice
and the final `i`. -/
def partitionEqualLoop (less : α → α → Bool) (a : Nat) :
    Nat → Nat → Nat → List α → List α × Nat
  | 0, i, _, data => (data, i)
  | n + 1, i, j, data =>
    let i1 := scanUp (fun k => !lessAt less data a k) (j + 1 - i) i
    let j1 := scanDown (fun k => lessAt less data a k) (j + 1 - i1) j
    if i1 > j1 then (data, i1)
    else partitionEqualLoop less a n (i1 + 1) (j1 - 1) (swap data i1 j1)

/-- `partitionEqual_func(data, a, b, pivot)`: the slice and the new
start. -/
def partitionEqual_func (less : α → α → Bool) (data : List α) (a b pivot : Nat) :
    List α × Nat :=
  partitionEqualLoop less a (b - a) (a + 1) (b - 1) (swap data a pivot)

/-- `pdqsort_func(data, a, b, limit)`. `wasBalanced` and `wasPartitioned`
are the two flags of its loop; a turn of the loop and a recursive call each
take one unit of `fuel` (the range `b - a` shrinks on each of them, so
`b - a + 1` units are enough). -/
def pdqsort_func (less : α → α → Bool) :
    Nat → List α → Nat → Nat → Nat → Bool → Bool → List α
  | 0, data, _, _, _, _, _ => data
  | fuel + 1, data, a, b, limit, wasBalanced, wasPartitioned =>
    let length := b - a
    if length ≤ 12 then insertionSort_func less data a b
    else if limit = 0 then heapSort_func less data a b
    else
      let d1 := if !wasBalanced then breakPatterns_func data a b else data
      let limit1 := if !wasBalanced then limit - 1 else limit
      let ph := choosePivot_func less d1 a b
      let d2 := if ph.2 = SortedHint.decreasingHint then reverseRange_func d1 a b else d1
      let pivot := if ph.2 = SortedHint.decreasingHint then (b - 1) - (ph.1 - a) else ph.1
      let hint := if ph.2 = SortedHint.decreasingHint then SortedHint.increasingHint else ph.2
      let pr :=
        if wasBalanced ∧ wasPartitioned ∧ hint = SortedHint.increasingHint then
          partialInsertionSort_func less d2 a b
        else (d2, false)
      if pr.2 then pr.1
      else if a > 0 ∧ !lessAt less pr.1 (a - 1) pivot then
        let me := partitionEqual_func less pr.1 a b pivot
        pdqsort_func less fuel me.1 me.2 b limit1 wasBalanced wasPartitioned
      else
        let pt := partition_func less pr.1 a b pivot
        let mid := pt.2.1
        let leftLen := mid - a
        let rightLen := b - mid
        let balanceThreshold := length / 8
        if leftLen < rightLen then
          pdqsort_func less fuel (pdqsort_func less fuel pt.1 a mid limit1 true true)
            (mid + 1) b limit1 (decide (leftLen ≥ balanceThreshold)) pt.2.2
        else
          pdqsort_func less fuel (pdqsort_func less fuel pt.1 (mid + 1) b limit1 true true)
            a mid limit1 (decide (rightLen ≥ balanceThreshold)) pt.2.2

/-- `sort.Slice(x, less)`, where the caller's `less(i, j)` compares the
elements of `x` now at `i` and `j`. -/
def Slice (x : List α) (less : α → α → Bool) : List α :=
  pdqsort_func less (x.length + 1) x 0 x.length (bitsLen x.length) true true

end GoSort

/-! ## The Emitter -/

/-- Modelled from the spec: the `Emitter` type (its file is not among the
sources; `model.go` only calls its methods). The spec describes a text sink
with an integer indent level, initially 0, where output that starts a line is
prefixed by indent-level copies of the indentation unit. `out` is the text
written so far and `start` tells that the cursor is at the start of a line. -/
structure Emitter where
  out : List Char := []
  indent : Int := 0
  start : Bool := true

/-- Modelled from the spec: the indentation that line-starting output gets,
one tab per indent level. -/
def Emitter.pad (e : Emitter) : List Char :=
  if e.start then List.replicate e.indent.toNat '\t' else []

/-- Modelled from the spec: `Print(text)` appends text at the cursor, without
a trailing newline. The callers in `model.go` pass a format and arguments;
here `text` is the formatted text. -/
def Emitter.Print (e : Emitter) (text : String) : Emitter :=
  { e with out := e.out ++ e.pad ++ text.toList, start := false }

/-- Modelled from the spec: `Newline()` appends a bare newline. -/
def Emitter.Newline (e : Emitter) : Emitter :=
  { e with out := e.out ++ ['\n'], start := true }

/-- Modelled from the spec: `Println(text)` appends text plus a newline. -/
def Emitter.Println (e : Emitter) (text : String) : Emitter :=
  (e.Print text).Newline

/-- Modelled from the spec: `Indent(delta)` adjusts the indent level. -/
def Emitter.Indent (e : Emitter) (delta : Int) : Emitter :=
  { e with indent := e.indent + delta }

/-- Modelled from the spec: `Comment(text)` writes nothing for the empty text,
and otherwise every line of the text as a single-line comment followed by a
newline. -/
def Emitter.Comment (e : Emitter) (text : String) : Emitter :=
  if text = "" then e
  else (splitLines text.toList).foldl (fun acc l => acc.Println ("// " ++ String.mk l)) e

/-! ## Declarations, imports and packages -/

/-- The interface `Decl`, with the outcome of the type assertion `.(Named)`:
`GetName` is `some n` when the dynamic type also implements `Named` and its
`GetName()` returns `n`, and `none` when it does not. `Generate` returns
`none` when the call panics. -/
structure Decl where
  GetName : Option String
  Generate : Emitter → Option Emitter

/-- The struct `Import`. -/
structure Import where
  Name : String
  QualifiedName : String
deriving DecidableEq, Repr

/-- The struct `Package`. -/
structure Package where
  QualifiedName : String
  Comment : String
  Decls : List Decl
  Imports : List Import

/-- `(*Package).AddDecl`. -/
def Package.AddDecl (p : Package) (t : Decl) : Package :=
  { p with Decls := p.Decls ++ [t] }

/-- `(*Package).hasImport`. -/
def Package.hasImport (p : Package) (q : String) : Bool :=
  p.Imports.any (fun i => i.QualifiedName == q)

/-- `(*Package).AddImport`. -/
def Package.AddImport (p : Package) (qualifiedName name : String) : Package :=
  if !p.hasImport qualifiedName then
    { p with Imports := p.Imports ++ [{ QualifiedName := qualifiedName, Name := name }] }
  else p

/-- The scan behind `strings.LastIndex(s, "/")`: the index of the last
occurrence of `c` at or after position `i`, or `acc` when there is none. -/
def lastIndexFrom (c : Char) : List Char → Nat → Int → Int
  | [], _, acc => acc
  | x :: xs, i, acc => lastIndexFrom c xs (i + 1) (if x = c then (i : Int) else acc)

/-- `strings.LastIndex(s, c)` for a one-character separator: the index of its
last occurrence, or -1. Go counts bytes and this counts characters; the byte
`/` occurs in UTF-8 text only as the character `/`, so the test that the
separator is not last and the text after it are the same. -/
def lastIndex (s : List Char) (c : Char) : Int := lastIndexFrom c s 0 (-1)

/-- `(*Package).Name`. -/
def Package.Name (p : Package) : String :=
  let s := p.QualifiedName.toList
  let i := lastIndex s '/'
  if i ≠ -1 ∧ i < (s.length : Int) - 1 then String.mk (s.drop (i + 1).toNat) else p.QualifiedName

/-- `(*Import).Generate`. -/
def Import.Generate (i : Import) (out : Emitter) : Emitter :=
  if i.Name ≠ "" then out.Println ("import " ++ i.Name ++ " " ++ goQuote i.QualifiedName)
  else out.Println ("import " ++ goQuote i.QualifiedName)

/-! ## Types -/

mutual
/-- The implementations of the interface `Type` in `model.go`. The inner
types of pointers, arrays, maps and fields are required: the source calls
their methods without a `nil` test. -/
inductive GoType where
  | PointerType (elem : GoType)
  | ArrayType (elem : GoType)
  | NamedType (pkg : Option Package) (decl : TypeDecl)
  | PrimitiveType (name : String)
  | CustomNameType (name : String)
  | MapType (key value : GoType)
  | EmptyInterfaceType
  | NullType
  | StructType (fields : List StructField) (requiredJSONFields : List String)
/-- The struct `TypeDecl`; its `Type` may be `nil`. -/
inductive TypeDecl where
  | mk (name : String) (type : Option GoType) (comment : String)
/-- The struct `StructField`. `defaultValue` stands for the `interface{}`
field `DefaultValue`, which no code of the package reads. -/
inductive StructField where
  | mk (name : String) (type : GoType) (comment tags jsonName defaultValue : String)
end

/-- Field `Name` of a `TypeDecl`. -/
def TypeDecl.Name : TypeDecl → String
  | .mk n _ _ => n

/-- Field `Type` of a `TypeDecl`. -/
def TypeDecl.Type : TypeDecl → Option GoType
  | .mk _ t _ => t

/-- Field `Comment` of a `TypeDecl`. -/
def TypeDecl.Comment : TypeDecl → String
  | .mk _ _ c => c

mutual
/-- The method `IsNillable` of every implementation of `Type`. -/
def GoType.IsNillable : GoType → Bool
  | .PointerType _ => true
  | .ArrayType _ => true
  | .NamedType _ d => d.typeIsNillable
  | .PrimitiveType _ => false
  | .CustomNameType _ => false
  | .MapType _ _ => true
  | .EmptyInterfaceType => true
  | .NullType => true
  | .StructType _ _ => false
/-- The body of `NamedType.IsNillable`:
`t.Decl.Type != nil && t.Decl.Type.IsNillable()`. -/
def TypeDecl.typeIsNillable : TypeDecl → Bool
  | .mk _ none _ => false
  | .mk _ (some t) _ => t.IsNillable
end

mutual
/-- The method `Generate` of every implementation of `Type`. `NamedType`,
`PrimitiveType` and `CustomNameType` pass their name to `Print` as the
format, with no operands: what is written is `fmt.Sprintf` of the name. -/
def GoType.Generate : GoType → Emitter → Emitter
  | .PointerType t, out => t.Generate (out.Print "*")
  | .ArrayType t, out => t.Generate (out.Print "[]")
  | .NamedType (some p) d, out =>
    ((out.Print (Fmt.Sprintf p.Name)).Print ".").Print (Fmt.Sprintf d.Name)
  | .NamedType none d, out => out.Print (Fmt.Sprintf d.Name)
  | .PrimitiveType s, out => out.Print (Fmt.Sprintf s)
  | .CustomNameType s, out => out.Print (Fmt.Sprintf s)
  | .MapType k v, out => v.Generate ((k.Generate (out.Print "map[")).Print "]")
  | .EmptyInterfaceType, out => out.Print "interface\x7b\x7d"
  | .NullType, out => out.Print "interface\x7b\x7d"
  | .StructType fs _, out =>
    ((StructField.generateAll fs 0 ((out.Println "struct \x7b").Indent 1)).Indent (-1)).Print "\x7d"
/-- The loop over `s.Fields` in `(*StructType).Generate`; `i` is its counter. -/
def StructField.generateAll : List StructField → Nat → Emitter → Emitter
  | [], _, out => out
  | f :: fs, i, out =>
    StructField.generateAll fs (i + 1) ((f.Generate (if i > 0 then out.Newline else out)).Newline)
/-- `(*StructField).Generate`. -/
def StructField.Generate : StructField → Emitter → Emitter
  | .mk name type comment tags _ _, out =>
    let out1 := type.Generate ((out.Comment comment).Print (name ++ " "))
    if tags ≠ "" then out1.Print (" " ++ "`" ++ tags ++ "`") else out1
end

/-- The text a type writes when its `Generate` starts in the middle of a
line at indent level `lvl`. -/
def GoType.rendering (t : GoType) (lvl : Int) : List Char :=
  (t.Generate { out := [], indent := lvl, start := false }).out

/-! ## Rendering a package -/

/-- The function that `(*Package).Generate` passes to `sort.Slice`: when both
declarations implement `Named` it compares their names, otherwise it is
false. -/
def declLess (x y : Decl) : Bool :=
  match x.GetName with
  | some a =>
    match y.GetName with
    | some b => strLess a b
    | none => false
  | none => false

/-- The slice `sorted` of `(*Package).Generate` after the call of
`sort.Slice`: the declarations in the order in which they are rendered. -/
def Package.sorted (p : Package) : List Decl := GoSort.Slice p.Decls declLess

/-- The loop `for i, t := range sorted` of `(*Package).Generate`. -/
def generateDecls : List Decl → Nat → Emitter → Option Emitter
  | [], _, out => some out
  | t :: ts, i, out =>
    (t.Generate (if i > 0 then out.Newline else out)).bind (generateDecls ts (i + 1))

/-- `(*Package).Generate`. -/
def Package.Generate (p : Package) (out : Emitter) : Option Emitter :=
  let out1 := (out.Comment p.Comment).Println ("package " ++ p.Name)
  let out2 := p.Imports.foldl (fun o i => i.Generate o) out1
  generateDecls p.sorted 0 out2.Newline

/-- The struct `File`. -/
structure File where
  FileName : String
  Package : Package

/-- `(*File).Generate`. -/
def File.Generate (f : File) (out : Emitter) : Option Emitter :=
  f.Package.Generate
    (out.Comment "Code generated by github.com/max-hontar/go-jsonschema, DO NOT EDIT.").Newline

/-! ## The declarations of `model.go` -/

/-- The struct `Var`. `Value` stands for the text that `litter.Sdump`
returns for the field `Value` (the dumper is a library of its own). -/
structure Var where
  Typ : Option GoType
  Name : String
  Value : String

/-- `(*Var).Generate`. -/
def Var.Generate (v : Var) (out : Emitter) : Emitter :=
  let out1 := out.Print ("var " ++ v.Name ++ " ")
  let out2 := match v.Typ with
    | some t => t.Generate out1
    | none => out1
  out2.Print (" = " ++ v.Value)

/-- The struct `Constant`, with `Value` as in `Var`. -/
structure Constant where
  Typ : Option GoType
  Name : String
  Value : String

/-- `(*Constant).Generate`. -/
def Constant.Generate (c : Constant) (out : Emitter) : Emitter :=
  let out1 := out.Print ("const " ++ c.Name ++ " ")
  let out2 := match c.Typ with
    | some t => t.Generate out1
    | none => out1
  out2.Print (" = " ++ c.Value)

/-- The type `Fragment`, a callback on the emitter. -/
def Fragment : Type := Emitter → Emitter

/-- `Fragment.Generate`. -/
def Fragment.Generate (f : Fragment) (out : Emitter) : Emitter := f out

/-- The struct `Method`. -/
structure Method where
  Impl : Emitter → Emitter

/-- `(*Method).Generate`. -/
def Method.Generate (m : Method) (out : Emitter) : Emitter :=
  (m.Impl out.Newline).Newline

/-- `(*TypeDecl).Generate`; the call `td.Type.Generate(out)` panics when the
type is `nil`. -/
def TypeDecl.Generate (td : TypeDecl) (out : Emitter) : Option Emitter :=
  match td.Type with
  | some t => some (t.Generate ((out.Comment td.Comment).Print ("type " ++ td.Name ++ " "))).Newline
  | none => none

/-- A `*Var` as a `Decl`; it implements `Named`. -/
def Var.toDecl (v : Var) : Decl := ⟨some v.Name, fun out => some (v.Generate out)⟩

/-- A `*Constant` as a `Decl`; it implements `Named`. -/
def Constant.toDecl (c : Constant) : Decl := ⟨some c.Name, fun out => some (c.Generate out)⟩

/-- A `*TypeDecl` as a `Decl`; it implements `Named`. -/
def TypeDecl.toDecl (td : TypeDecl) : Decl := ⟨some td.Name, td.Generate⟩

/-- A `Fragment` as a `Decl`; it has no `GetName`. -/
def Fragment.toDecl (f : Fragment) : Decl := ⟨none, fun out => some (f.Generate out)⟩

/-- A `*Method` as a `Decl`; it has no `GetName`. -/
def Method.toDecl (m : Method) : Decl := ⟨none, fun out => some (m.Generate out)⟩

/-- Field `Name` of a `StructField`. -/
def StructField.Name : StructField → String
  | .mk n _ _ _ _ _ => n

/-- A `*StructField` as a `Decl`; it implements `Named`. -/
def StructField.toDecl (f : StructField) : Decl :=
  ⟨some f.Name, fun out => some (f.Generate out)⟩

/-- An `*Import` as a `Decl`; it has no `GetName`. -/
def Import.toDecl (i : Import) : Decl := ⟨none, fun out => some (i.Generate out)⟩

/-- A `Type` as a `Decl`. Of the types only `NamedType` has a `GetName`
method, which returns the name of its declaration. -/
def GoType.toDecl (t : GoType) : Decl :=
  ⟨match t with
    | .NamedType _ d => some d.Name
    | _ => none,
   fun out => some (t.Generate out)⟩

/-! ## Building a package -/

/-- One call on a package under construction. -/
inductive BuildOp where
  | addImport (qualifiedName name : String)
  | addDecl (d : Decl)

/-- The package after one call. -/
def BuildOp.apply (p : Package) : BuildOp → Package
  | .addImport q a => p.AddImport q a
  | .addDecl d => p.AddDecl d

/-- The package after a sequence of calls, first to last. -/
def Package.build (p : Package) (ops : List BuildOp) : Package :=
  ops.foldl BuildOp.apply p

/-- A chain of `NamedType`s over a type: each link is a `NamedType` (with its
package, if any) whose declaration, of the given name and comment, has the
rest of the chain as its type. -/
def namedChain : List (Option Package × String × String) → GoType → GoType
  | [], t => t
  | (pkg, name, comment) :: links, t =>
    GoType.NamedType pkg (TypeDecl.mk name (some (namedChain links t)) comment)

/-! ## Example packages -/

/-- The declaration `type <name> int`. -/
def intDecl (name : String) : Decl :=
  (TypeDecl.mk name (some (GoType.PrimitiveType "int")) "").toDecl

/-- A fragment that writes one comment line. -/
def noteFragment (text : String) : Decl :=
  Fragment.toDecl (fun out => out.Println ("// " ++ text))

/-- The package `pkg` without declarations and imports. -/
def emptyPackage : Package :=
  { QualifiedName := "pkg", Comment := "", Decls := [], Imports := [] }

/-- The package after `AddDecl` of the type declarations `B` and `A`, in this
order. -/
def packageBA : Package := (emptyPackage.AddDecl (intDecl "B")).AddDecl (intDecl "A")

/-- The package after `AddDecl` of the type declaration `B`, a fragment and
the type declaration `A`, in this order. -/
def packageBFragmentA : Package :=
  ((emptyPackage.AddDecl (intDecl "B")).AddDecl (noteFragment "f")).AddDecl (intDecl "A")

/-- The package after `AddDecl` of the fragments `f1` and `f2`, in this
order. -/
def packageTwoFragments : Package :=
  (emptyPackage.AddDecl (noteFragment "f1")).AddDecl (noteFragment "f2")

/-- A package of thirteen declarations: a fragment, then the type
declarations `L`, `K`, ..., `A`, in this order. -/
def packageThirteen : Package :=
  { QualifiedName := "pkg", Comment := "", Imports := [],
    Decls := [noteFragment "f", intDecl "L", intDecl "K", intDecl "J", intDecl "I",
      intDecl "H", intDecl "G", intDecl "F", intDecl "E", intDecl "D", intDecl "C",
      intDecl "B", intDecl "A"] }

/-! ## Auxiliary definitions for the proofs -/

/-- The emitter with `pre` put in front of its text. -/
def Emitter.prepend (pre : List Char) (e : Emitter) : Emitter :=
  { e with out := pre ++ e.out }

namespace GoSort

variable {α : Type}

/-- The comparison function `less` is a strict weak ordering on the elements
that satisfy `S`: what `sort.Slice` asks of its `less`. -/
structure WeakOrderOn (less : α → α → Bool) (S : α → Prop) : Prop where
  irrefl : ∀ x, S x → less x x = false
  trans : ∀ x y z, S x → S y → S z → less x y = true → less y z = true → less x z = true
  negTrans : ∀ x y z, S x → S y → S z →
    less x y = false → less y z = false → less x z = false

/-- No element of `data[lo:hi]` is less than an element before it in that
range. -/
def SortedOn (less : α → α → Bool) (data : List α) (lo hi : Nat) : Prop :=
  ∀ i j, lo ≤ i → i < j → j < hi → lessAt less data j i = false

/-- The slice on the right is reached from the one on the left by `Swap`
calls on indices of the range from `lo` up to `hi`. -/
inductive RangePerm (lo hi : Nat) : List α → List α → Prop where
  | refl (l : List α) : RangePerm lo hi l l
  | step (l l' : List α) (i j : Nat) : RangePerm lo hi l l' →
      lo ≤ i → i < hi → lo ≤ j → j < hi → RangePerm lo hi l (swap l' i j)

/-- The state of the partition loop: everything after `a` and before `i` is
less than the pivot at `a`, nothing after `j` is. -/
def PartInv (less : α → α → Bool) (a b i j : Nat) (d : List α) : Prop :=
  a < i ∧ i ≤ j + 1 ∧ j < b ∧ b ≤ d.length ∧
    (∀ k, a < k → k < i → lessAt less d k a = true) ∧
    (∀ k, j < k → k < b → lessAt less d k a = false)

/-- The state of the loop of `partitionEqual_func`: the pivot at `a` is
less than nothing after `a` and before `i`, and less than everything after
`j`. -/
def PartEqInv (less : α → α → Bool) (a b i j : Nat) (d : List α) : Prop :=
  a < i ∧ i ≤ j + 1 ∧ j < b ∧ b ≤ d.length ∧
    (∀ k, a < k → k < i → lessAt less d a k = false) ∧
    (∀ k, j < k → k < b → lessAt less d a k = true)

/-- The element just before the range, if there is one, is not greater than
any element of the range: what the earlier partitions leave behind. -/
def LeftBound (less : α → α → Bool) (a b : Nat) (d : List α) : Prop :=
  0 < a → ∀ k, a ≤ k → k < b → lessAt less d k (a - 1) = false

/-- The heap property at node `r` of the heap of `hi` nodes that starts at
index `first`: the element of the node is not less than those of its
children. -/
def HeapAt (less : α → α → Bool) (hi first : Nat) (d : List α) (r : Nat) : Prop :=
  ∀ c, c = 2 * r + 1 ∨ c = 2 * r + 2 → c < hi →
    lessAt less d (first + r) (first + c) = false

end GoSort

end Codegen

namespace Codegen

/-! ## Struct types under construction -/

/-- The struct `StructType`. -/
structure StructType where
  Fields : List StructField
  RequiredJSONFields : List String

/-- `(*StructType).AddField`. -/
def StructType.AddField (s : StructType) (f : StructField) : StructType :=
  { s with Fields := s.Fields ++ [f] }

/-- A `*StructType` as a `Type`. -/
def StructType.toType (s : StructType) : GoType :=
  GoType.StructType s.Fields s.RequiredJSONFields

/-- `(*StructType).Generate`. -/
def StructType.Generate (s : StructType) (out : Emitter) : Emitter :=
  s.toType.Generate out

/-- The text a field writes when its `Generate` starts at the start of a
line at indent level `lvl`. -/
def StructField.rendering (f : StructField) (lvl : Int) : List Char :=
  (f.Generate { out := [], indent := lvl, start := true }).out

/-! ## The calls on the emitter -/

/-- One call of a method of the emitter. -/
inductive EmitOp where
  | print (text : String)
  | newline
  | indent (delta : Int)
  | comment (text : String)

/-- The emitter after one call. -/
def EmitOp.run (e : Emitter) : EmitOp → Emitter
  | .print s => e.Print s
  | .newline => e.Newline
  | .indent d => e.Indent d
  | .comment s => e.Comment s

/-- The emitter after a sequence of calls, first to last. -/
def runOps (ops : List EmitOp) (e : Emitter) : Emitter := ops.foldl EmitOp.run e

/-- What a call adds to the indent level. -/
def EmitOp.delta : EmitOp → Int
  | .indent d => d
  | _ => 0

mutual
/-- The calls on the emitter that `Generate` of a type makes, in order
(`Println` is a `Print` and a `Newline`). -/
def GoType.ops : GoType → List EmitOp
  | .PointerType t => .print "*" :: t.ops
  | .ArrayType t => .print "[]" :: t.ops
  | .NamedType (some p) d =>
    [.print (Fmt.Sprintf p.Name), .print ".", .print (Fmt.Sprintf d.Name)]
  | .NamedType none d => [.print (Fmt.Sprintf d.Name)]
  | .PrimitiveType s => [.print (Fmt.Sprintf s)]
  | .CustomNameType s => [.print (Fmt.Sprintf s)]
  | .MapType k v => .print "map[" :: (k.ops ++ .print "]" :: v.ops)
  | .EmptyInterfaceType => [.print "interface\x7b\x7d"]
  | .NullType => [.print "interface\x7b\x7d"]
  | .StructType fs _ =>
    [.print "struct \x7b", .newline, .indent 1] ++
      (StructField.opsAll fs 0 ++ [.indent (-1), .print "\x7d"])
/-- The calls of the loop over the fields in `(*StructType).Generate`. -/
def StructField.opsAll : List StructField → Nat → List EmitOp
  | [], _ => []
  | f :: fs, i =>
    (if i > 0 then [EmitOp.newline] else []) ++
      (f.ops ++ EmitOp.newline :: StructField.opsAll fs (i + 1))
/-- The calls of `(*StructField).Generate`. -/
def StructField.ops : StructField → List EmitOp
  | .mk name type comment tags _ _ =>
    [.comment comment, .print (name ++ " ")] ++
      (type.ops ++ if tags ≠ "" then [.print (" " ++ "`" ++ tags ++ "`")] else [])
end

/-! ## Types without a struct type -/

/-- No struct type occurs in the type (the declaration behind a `NamedType`
is not part of it: only its name is written). -/
def GoType.structFree : GoType → Bool
  | .PointerType t => t.structFree
  | .ArrayType t => t.structFree
  | .MapType k v => k.structFree && v.structFree
  | .StructType _ _ => false
  | _ => true

/-- The names that the caller gave and that `Generate` of a type without
struct types writes: type names, declaration names and short package
names. -/
def GoType.names : GoType → List String
  | .PointerType t => t.names
  | .ArrayType t => t.names
  | .NamedType (some p) d => [p.Name, d.Name]
  | .NamedType none d => [d.Name]
  | .PrimitiveType s => [s]
  | .CustomNameType s => [s]
  | .MapType k v => k.names ++ v.names
  | _ => []

/-- The characters of the fixed parts of a rendered type:
`[]`, `*`, `map[`, `]`, `.`, `interface{}`. -/
def typeSyntaxChars : List Char := "[]*map.interface\x7b\x7d".toList

/-! ## The steps of the loop over the declarations -/

/-- One step of the loop `for i, t := range sorted`: the `Newline` before a
declaration that is not the first, or the `Generate` of a declaration. -/
inductive RenderStep where
  | newline
  | decl (d : Decl)

/-- A step is the separating `Newline`. -/
def RenderStep.isNewline : RenderStep → Bool
  | .newline => true
  | .decl _ => false

/-- The declaration of a step, if it is one. -/
def RenderStep.decl? : RenderStep → Option Decl
  | .newline => none
  | .decl d => some d

/-- The emitter after one step; `none` when the declaration panics. -/
def RenderStep.run (e : Emitter) : RenderStep → Option Emitter
  | .newline => some e.Newline
  | .decl d => d.Generate e

/-- The emitter after a sequence of steps. -/
def runSteps : List RenderStep → Emitter → Option Emitter
  | [], e => some e
  | s :: ss, e => (s.run e).bind (runSteps ss)

/-- The steps for a list of declarations: their `Generate` calls with one
`Newline` between each two. -/
def renderSteps (ds : List Decl) : List RenderStep :=
  (ds.map RenderStep.decl).intersperse RenderStep.newline

/-- The declarations after the first one, each with the `Newline` that
precedes it. -/
def generateRest : List Decl → Emitter → Option Emitter
  | [], e => some e
  | d :: ds, e => (d.Generate e.Newline).bind (generateRest ds)

/-! ## Slices of declarations in memory -/

/-- The nil `Decl`: it implements nothing, and a call of its `Generate`
panics. -/
def nilDecl : Decl := ⟨none, fun _ => none⟩

/-- A slice header `[]Decl`: the address of its backing array and its
length. The slices that occur start at the first element of their array. -/
structure DeclSlice where
  array : Nat
  len : Nat

/-- The elements of a slice, in the memory `m` of backing arrays. -/
def loadSlice (m : List (List Decl)) (s : DeclSlice) : List Decl :=
  (m.getD s.array []).take s.len

/-- `make([]Decl, n)`: a new backing array of `n` nil declarations. -/
def makeSlice (m : List (List Decl)) (n : Nat) : List (List Decl) × DeclSlice :=
  (m ++ [List.replicate n nilDecl], { array := m.length, len := n })

/-- `copy(dst, src)`: the first elements of `src` overwrite those of `dst`,
as many as both slices hold. -/
def copySlice (m : List (List Decl)) (dst src : DeclSlice) : List (List Decl) :=
  m.set dst.array
    ((loadSlice m src).take (min dst.len src.len) ++
      (m.getD dst.array []).drop (min dst.len src.len))

/-- `sort.Slice(x, less)` on a slice in memory: its elements are sorted in
place. -/
def sortSliceInPlace (m : List (List Decl)) (x : DeclSlice) (less : Decl → Decl → Bool) :
    List (List Decl) :=
  m.set x.array (GoSort.Slice (loadSlice m x) less ++ (m.getD x.array []).drop x.len)

/-- A `Package` as it lies in memory: `Decls` is a slice header. -/
structure PackageRef where
  QualifiedName : String
  Comment : String
  Decls : DeclSlice
  Imports : List Import

/-- The package that a `PackageRef` stands for in the memory `m`. -/
def PackageRef.load (m : List (List Decl)) (p : PackageRef) : Package :=
  { QualifiedName := p.QualifiedName, Comment := p.Comment,
    Decls := loadSlice m p.Decls, Imports := p.Imports }

/-- `(*Package).Generate` on a package in memory: the memory after the call
and the emitter. The slice `sorted` is made, filled by `copy` and sorted in
place; no field of the package is assigned. -/
def PackageRef.Generate (p : PackageRef) (m : List (List Decl)) (out : Emitter) :
    List (List Decl) × Option Emitter :=
  let out1 := (out.Comment p.Comment).Println ("package " ++ (p.load m).Name)
  let out2 := p.Imports.foldl (fun o i => i.Generate o) out1
  let made := makeSlice m p.Decls.len
  let m2 := copySlice made.1 made.2 p.Decls
  let m3 := sortSliceInPlace m2 made.2 declLess
  (m3, generateDecls (loadSlice m3 made.2) 0 out2.Newline)

/-- A `File` as it lies in memory. -/
structure FileRef where
  FileName : String
  Package : PackageRef

/-- The file that a `FileRef` stands for in the memory `m`. -/
def FileRef.load (m : List (List Decl)) (f : FileRef) : File :=
  { FileName := f.FileName, Package := f.Package.load m }

/-- `(*File).Generate` on a file in memory. -/
def FileRef.Generate (f : FileRef) (m : List (List Decl)) (out : Emitter) :
    List (List Decl) × Option Emitter :=
  f.Package.Generate m
    (out.Comment "Code generated by github.com/max-hontar/go-jsonschema, DO NOT EDIT.").Newline

/-! ## More examples -/

/-- The struct type with the fields `Name string` and `Age *int`, the
second with a tag. -/
def structNameAge : GoType :=
  GoType.StructType
    [StructField.mk "Name" (GoType.PrimitiveType "string") "" "" "" "",
      StructField.mk "Age" (GoType.PointerType (GoType.PrimitiveType "int")) ""
        "json:\"age\"" "" ""] []

/-- The file `out` with the package `pkg`, the import of `fmt` and the type
declaration `Foo` of the primitive type `string`. -/
def fileFoo : File :=
  { FileName := "out",
    Package := (emptyPackage.AddImport "fmt" "").AddDecl
      (TypeDecl.mk "Foo" (some (GoType.PrimitiveType "string")) "").toDecl }

/-- The variable `var <name> int = <value>` as a declaration. -/
def intVar (name value : String) : Decl :=
  ({ Typ := some (GoType.PrimitiveType "int"), Name := name, Value := value } : Var).toDecl

/-- The package with the variables `a` and `b`. -/
def packageTwoVars : Package :=
  (emptyPackage.AddDecl (intVar "a" "1")).AddDecl (intVar "b" "2")

/-- The package with a fragment that writes `// f` without a newline and the
type declaration `A`. -/
def packageOpenFragment : Package :=
  (emptyPackage.AddDecl (Fragment.toDecl (fun out => out.Print "// f"))).AddDecl (intDecl "A")

end Codegen

/-! # The schema type names (`pkg/schemas/types.go`) -/

namespace Schemas

/-- The constant `TypeNameString`. -/
def TypeNameString : String := "string"
/-- The constant `TypeNameArray`. -/
def TypeNameArray : String := "array"
/-- The constant `TypeNameNumber`. -/
def TypeNameNumber : String := "number"
/-- The constant `TypeNameInteger`. -/
def TypeNameInteger : String := "integer"
/-- The constant `TypeNameObject`. -/
def TypeNameObject : String := "object"
/-- The constant `TypeNameBoolean`. -/
def TypeNameBoolean : String := "boolean"
/-- The constant `TypeNameNull`. -/
def TypeNameNull : String := "null"
/-- The constant `TypeNameParent`. -/
def TypeNameParent : String := "parent"
/-- The constant `TypeNameNested`. -/
def TypeNameNested : String := "nested"

/-- `IsPrimitiveType`: the `switch` with one `case` of six values and the
`default`. -/
def IsPrimitiveType (t : String) : Bool :=
  if t = TypeNameString ∨ t = TypeNameNumber ∨ t = TypeNameInteger ∨ t = TypeNameBoolean ∨
      t = TypeNameNull ∨ t = TypeNameParent then true
  else false

end Schemas

namespace Codegen

/-! ## More auxiliary definitions for the proofs -/

/-- The indent level returns to its start after the calls and is never below
its start after the first `k` of them, whatever `k`. -/
def Balanced (ops : List EmitOp) : Prop :=
  (ops.map EmitOp.delta).sum = 0 ∧ ∀ k, 0 ≤ ((ops.take k).map EmitOp.delta).sum

/-- The slice lies in the memory `m`: its array is there and holds at least
as many elements as the slice is long. -/
def DeclSlice.ValidIn (m : List (List Decl)) (s : DeclSlice) : Prop :=
  s.array < m.length ∧ s.len ≤ (m.getD s.array []).length

end Codegen

namespace Codegen

/-! ## Examples in memory -/

/-- A struct type with one field that has a comment. -/
def structWithComment : GoType :=
  GoType.StructType [StructField.mk "Name" (GoType.PrimitiveType "string") "the name" "" "" ""] []

/-- A memory with one array, which holds the type declarations `B` and `A`. -/
def memoryBA : List (List Decl) := [[intDecl "B", intDecl "A"]]

/-- The file `out` whose package `pkg` has the array of `memoryBA` as its
declarations. -/
def fileRefBA : FileRef :=
  { FileName := "out",
    Package := { QualifiedName := "pkg", Comment := "", Decls := { array := 0, len := 2 },
                 Imports := [] } }

end Codegen

namespace Codegen

/-! ## The lines of the imports -/

/-- The line that `(*Import).Generate` writes after the indentation: the
word `import`, the alias and a space when the alias is not empty, the path
as `%q` formats it, and a newline. -/
def Import.line (i : Import) : List Char :=
  "import ".toList ++ (if i.Name ≠ "" then i.Name.toList ++ [' '] else []) ++
    (goQuote i.QualifiedName).toList ++ ['\n']

/-- A printable ASCII character other than the double quote and the
backslash: `%q` writes it as it is. -/
def plainChar (c : Char) : Bool :=
  decide (32 ≤ c.toNat ∧ c.toNat < 127 ∧ c ≠ '"' ∧ c ≠ '\\')

end Codegen

namespace Codegen

/-- The text a declaration writes on a fresh emitter (nothing when it
panics). -/
def declText (d : Decl) : List Char := ((d.Generate {}).map Emitter.out).getD []

end Codegen

namespace Codegen


/-! ## Imports -/

theorem hasImport_iff (p : Package) (q : String) :
    p.hasImport q = true ↔ ∃ i ∈ p.Imports, i.QualifiedName = q := by
  simp [Package.hasImport, List.any_eq_true]

theorem hasImport_eq_false_iff (p : Package) (q : String) :
    p.hasImport q = false ↔ ∀ i ∈ p.Imports, i.QualifiedName ≠ q := by
  rw [← Bool.not_eq_true, hasImport_iff]
  simp

theorem AddImport_of_mem (p : Package) (q a : String)
    (h : ∃ i ∈ p.Imports, i.QualifiedName = q) : p.AddImport q a = p := by
  have := (hasImport_iff p q).2 h
  simp [Package.AddImport, this]

theorem AddImport_of_not_mem (p : Package) (q a : String)
    (h : ∀ i ∈ p.Imports, i.QualifiedName ≠ q) :
    p.AddImport q a = { p with Imports := p.Imports ++ [{ Name := a, QualifiedName := q }] } := by
  have := (hasImport_eq_false_iff p q).2 h
  simp [Package.AddImport, this]

/-- The paths of the imports of a package, in order. -/
theorem AddImport_paths_nodup (p : Package) (q a : String)
    (h : (p.Imports.map Import.QualifiedName).Nodup) :
    ((p.AddImport q a).Imports.map Import.QualifiedName).Nodup := by
  by_cases hq : ∃ i ∈ p.Imports, i.QualifiedName = q
  · rw [AddImport_of_mem p q a hq]; exact h
  · have hq' : ∀ i ∈ p.Imports, i.QualifiedName ≠ q := by
      intro i hi e; exact hq ⟨i, hi, e⟩
    rw [AddImport_of_not_mem p q a hq']
    simp only [List.map_append, List.map_cons, List.map_nil]
    rw [List.nodup_append]
    refine ⟨h, List.nodup_singleton _, ?_⟩
    intro x hx hx'
    simp only [List.mem_singleton] at hx'
    subst hx'
    obtain ⟨i, hi, e⟩ := List.mem_map.1 hx
    exact hq' i hi e

theorem AddImport_mem_paths (p : Package) (q a : String) :
    q ∈ (p.AddImport q a).Imports.map Import.QualifiedName := by
  by_cases hq : ∃ i ∈ p.Imports, i.QualifiedName = q
  · rw [AddImport_of_mem p q a hq]
    obtain ⟨i, hi, e⟩ := hq
    exact List.mem_map.2 ⟨i, hi, e⟩
  · have hq' : ∀ i ∈ p.Imports, i.QualifiedName ≠ q := by
      intro i hi e; exact hq ⟨i, hi, e⟩
    rw [AddImport_of_not_mem p q a hq']
    simp

theorem AddImport_paths_mono (p : Package) (q a x : String)
    (h : x ∈ p.Imports.map Import.QualifiedName) :
    x ∈ (p.AddImport q a).Imports.map Import.QualifiedName := by
  by_cases hq : ∃ i ∈ p.Imports, i.QualifiedName = q
  · rw [AddImport_of_mem p q a hq]; exact h
  · have hq' : ∀ i ∈ p.Imports, i.QualifiedName ≠ q := by
      intro i hi e; exact hq ⟨i, hi, e⟩
    rw [AddImport_of_not_mem p q a hq']
    simp only [List.map_append, List.mem_append]
    exact Or.inl h

theorem apply_paths_nodup (p : Package) (op : BuildOp)
    (h : (p.Imports.map Import.QualifiedName).Nodup) :
    ((op.apply p).Imports.map Import.QualifiedName).Nodup := by
  cases op with
  | addImport q a => exact AddImport_paths_nodup p q a h
  | addDecl d => exact h

theorem apply_paths_mono (p : Package) (op : BuildOp) (x : String)
    (h : x ∈ p.Imports.map Import.QualifiedName) :
    x ∈ (op.apply p).Imports.map Import.QualifiedName := by
  cases op with
  | addImport q a => exact AddImport_paths_mono p q a x h
  | addDecl d => exact h

theorem build_paths_nodup (ops : List BuildOp) (p : Package)
    (h : (p.Imports.map Import.QualifiedName).Nodup) :
    ((p.build ops).Imports.map Import.QualifiedName).Nodup := by
  induction ops generalizing p with
  | nil => exact h
  | cons op ops ih => exact ih (op.apply p) (apply_paths_nodup p op h)

theorem build_paths_mono (ops : List BuildOp) (p : Package) (x : String)
    (h : x ∈ p.Imports.map Import.QualifiedName) :
    x ∈ (p.build ops).Imports.map Import.QualifiedName := by
  induction ops generalizing p with
  | nil => exact h
  | cons op ops ih => exact ih (op.apply p) (apply_paths_mono p op x h)

theorem build_mem_paths (ops : List BuildOp) (p : Package) (q a : String)
    (h : BuildOp.addImport q a ∈ ops) :
    q ∈ (p.build ops).Imports.map Import.QualifiedName := by
  induction ops generalizing p with
  | nil => cases h
  | cons op ops ih =>
    rcases List.mem_cons.1 h with e | h'
    · subst e
      exact build_paths_mono ops _ q (AddImport_mem_paths p q a)
    · exact ih (op.apply p) h'

/-! ## What the emitter primitives write -/

theorem Print_out (e : Emitter) (s : String) : (e.Print s).out = e.out ++ e.pad ++ s.toList := rfl

theorem Println_out (e : Emitter) (s : String) :
    (e.Println s).out = e.out ++ e.pad ++ s.toList ++ ['\n'] := rfl

theorem Println_start (e : Emitter) (s : String) : (e.Println s).start = true := rfl

theorem Println_indent (e : Emitter) (s : String) : (e.Println s).indent = e.indent := rfl

theorem Import_Generate_start (i : Import) (e : Emitter) : (i.Generate e).start = true := by
  unfold Import.Generate; split <;> rfl

theorem Import_Generate_indent (i : Import) (e : Emitter) : (i.Generate e).indent = e.indent := by
  unfold Import.Generate; split <;> rfl

/-- The line an import writes at the start of a line at indent level `lvl`. -/
theorem Import_Generate_out (i : Import) (e : Emitter) (h : e.start = true) :
    (i.Generate e).out =
      e.out ++ (i.Generate { out := [], indent := e.indent, start := true }).out := by
  unfold Import.Generate
  split <;> simp [Println_out, Emitter.pad, h]

theorem imports_foldl_out (l : List Import) (e : Emitter) (h : e.start = true) :
    (l.foldl (fun o i => i.Generate o) e).out =
      e.out ++ (l.map (fun i =>
        (i.Generate { out := [], indent := e.indent, start := true }).out)).flatten := by
  induction l generalizing e with
  | nil => simp
  | cons i l ih =>
    simp only [List.foldl_cons, List.map_cons, List.flatten_cons]
    rw [ih (i.Generate e) (Import_Generate_start i e), Import_Generate_out i e h,
      Import_Generate_indent, List.append_assoc]


/-! ## The short name of a package -/

theorem lastIndexFrom_not_mem (c : Char) (s : List Char) (i : Nat) (acc : Int) (h : c ∉ s) :
    lastIndexFrom c s i acc = acc := by
  induction s generalizing i acc with
  | nil => rfl
  | cons x xs ih =>
    have hx : x ≠ c := fun e => h (by simp [e])
    have hxs : c ∉ xs := fun m => h (List.mem_cons_of_mem _ m)
    simp [lastIndexFrom, hx, ih _ _ hxs]

theorem lastIndexFrom_split (c : Char) (pre suf : List Char) (i : Nat) (acc : Int)
    (h : c ∉ suf) : lastIndexFrom c (pre ++ c :: suf) i acc = ((i + pre.length : Nat) : Int) := by
  induction pre generalizing i acc with
  | nil => simp [lastIndexFrom, lastIndexFrom_not_mem c suf _ _ h]
  | cons x xs ih =>
    show lastIndexFrom c (xs ++ c :: suf) (i + 1) _ = _
    rw [ih]
    congr 1
    simp only [List.length_cons]
    omega

theorem lastIndex_not_mem (c : Char) (s : List Char) (h : c ∉ s) : lastIndex s c = -1 :=
  lastIndexFrom_not_mem c s 0 (-1) h

theorem lastIndex_split (c : Char) (pre suf : List Char) (h : c ∉ suf) :
    lastIndex (pre ++ c :: suf) c = (pre.length : Int) := by
  unfold lastIndex
  rw [lastIndexFrom_split c pre suf 0 (-1) h]
  simp

theorem Name_unfold (p : Package) :
    p.Name = if lastIndex p.QualifiedName.toList '/' ≠ -1 ∧
        lastIndex p.QualifiedName.toList '/' < (p.QualifiedName.toList.length : Int) - 1 then
      String.mk (p.QualifiedName.toList.drop (lastIndex p.QualifiedName.toList '/' + 1).toNat)
    else p.QualifiedName := rfl

theorem Name_of_no_slash (p : Package) (h : '/' ∉ p.QualifiedName.toList) :
    p.Name = p.QualifiedName := by
  rw [Name_unfold, lastIndex_not_mem _ _ h]
  simp

theorem Name_of_split (p : Package) (pre suf : List Char)
    (hs : p.QualifiedName.toList = pre ++ '/' :: suf) (h : '/' ∉ suf) :
    p.Name = if suf = [] then p.QualifiedName else String.mk suf := by
  have hl : lastIndex p.QualifiedName.toList '/' = (pre.length : Int) := by
    rw [hs]; exact lastIndex_split _ _ _ h
  have hlen : (p.QualifiedName.toList.length : Int) = pre.length + 1 + suf.length := by
    rw [hs]; simp only [List.length_append, List.length_cons]; push_cast; omega
  rw [Name_unfold, hl, hlen]
  by_cases hsuf : suf = []
  · subst hsuf
    simp
  · have hpos : 0 < suf.length := List.length_pos.2 hsuf
    have h1 : ((pre.length : Int) ≠ -1 ∧
        (pre.length : Int) < (pre.length : Int) + 1 + suf.length - 1) := by
      constructor <;> omega
    rw [if_pos h1, if_neg hsuf]
    congr 1
    have h2 : ((pre.length : Int) + 1).toNat = pre.length + 1 := by omega
    rw [h2, hs]
    simp


/-! ## What a type writes -/



@[simp] theorem prepend_pad (pre : List Char) (e : Emitter) : (e.prepend pre).pad = e.pad := rfl

@[simp] theorem Print_prepend (pre : List Char) (e : Emitter) (s : String) :
    (e.prepend pre).Print s = (e.Print s).prepend pre := by
  simp [Emitter.Print, Emitter.prepend, Emitter.pad]

@[simp] theorem Newline_prepend (pre : List Char) (e : Emitter) :
    (e.prepend pre).Newline = e.Newline.prepend pre := by
  simp [Emitter.Newline, Emitter.prepend]

@[simp] theorem Println_prepend (pre : List Char) (e : Emitter) (s : String) :
    (e.prepend pre).Println s = (e.Println s).prepend pre := by
  simp [Emitter.Println]

@[simp] theorem Indent_prepend (pre : List Char) (e : Emitter) (n : Int) :
    (e.prepend pre).Indent n = (e.Indent n).prepend pre := by
  simp [Emitter.Indent, Emitter.prepend]

theorem foldl_Println_prepend (ls : List (List Char)) (pre : List Char) (e : Emitter) :
    ls.foldl (fun acc l => acc.Println ("// " ++ String.mk l)) (e.prepend pre) =
      (ls.foldl (fun acc l => acc.Println ("// " ++ String.mk l)) e).prepend pre := by
  induction ls generalizing e with
  | nil => rfl
  | cons l ls ih => simp only [List.foldl_cons, Println_prepend, ih]

@[simp] theorem Comment_prepend (pre : List Char) (e : Emitter) (s : String) :
    (e.prepend pre).Comment s = (e.Comment s).prepend pre := by
  unfold Emitter.Comment
  split
  · rfl
  · exact foldl_Println_prepend _ _ _

mutual
theorem GoType_Generate_prepend : ∀ (t : GoType) (pre : List Char) (e : Emitter),
    t.Generate (e.prepend pre) = (t.Generate e).prepend pre
  | .PointerType t, pre, e => by
    simp only [GoType.Generate, Print_prepend]; exact GoType_Generate_prepend t pre _
  | .ArrayType t, pre, e => by
    simp only [GoType.Generate, Print_prepend]; exact GoType_Generate_prepend t pre _
  | .NamedType (some p) d, pre, e => by simp only [GoType.Generate, Print_prepend]
  | .NamedType none d, pre, e => by simp only [GoType.Generate, Print_prepend]
  | .PrimitiveType s, pre, e => by simp only [GoType.Generate, Print_prepend]
  | .CustomNameType s, pre, e => by simp only [GoType.Generate, Print_prepend]
  | .MapType k v, pre, e => by
    simp only [GoType.Generate, Print_prepend]
    rw [GoType_Generate_prepend k pre, Print_prepend, GoType_Generate_prepend v pre]
  | .EmptyInterfaceType, pre, e => by simp only [GoType.Generate, Print_prepend]
  | .NullType, pre, e => by simp only [GoType.Generate, Print_prepend]
  | .StructType fs r, pre, e => by
    simp only [GoType.Generate, Println_prepend, Indent_prepend]
    rw [StructField_generateAll_prepend fs 0 pre, Indent_prepend, Print_prepend]
theorem StructField_generateAll_prepend : ∀ (fs : List StructField) (i : Nat) (pre : List Char)
    (e : Emitter), StructField.generateAll fs i (e.prepend pre) =
      (StructField.generateAll fs i e).prepend pre
  | [], i, pre, e => by simp only [StructField.generateAll]
  | f :: fs, i, pre, e => by
    simp only [StructField.generateAll]
    split
    · rw [Newline_prepend, StructField_Generate_prepend f pre, Newline_prepend,
        StructField_generateAll_prepend fs (i + 1) pre]
    · rw [StructField_Generate_prepend f pre, Newline_prepend,
        StructField_generateAll_prepend fs (i + 1) pre]
theorem StructField_Generate_prepend : ∀ (f : StructField) (pre : List Char) (e : Emitter),
    f.Generate (e.prepend pre) = (f.Generate e).prepend pre
  | .mk name type comment tags j d, pre, e => by
    simp only [StructField.Generate, Comment_prepend, Print_prepend]
    rw [GoType_Generate_prepend type pre]
    split
    · rw [Print_prepend]
    · rfl
end

/-- Every type starts its text with a `Print`, so starting at the start of a
line is starting after the indentation. -/
theorem Print_start (e : Emitter) (s : String) :
    e.Print s = ({ out := e.out ++ e.pad, indent := e.indent, start := false } : Emitter).Print s := by
  simp [Emitter.Print, Emitter.pad]

theorem GoType_Generate_start : ∀ (t : GoType) (e : Emitter),
    t.Generate e = t.Generate { out := e.out ++ e.pad, indent := e.indent, start := false }
  | .PointerType t, e => by simp only [GoType.Generate]; rw [Print_start]
  | .ArrayType t, e => by simp only [GoType.Generate]; rw [Print_start]
  | .NamedType (some p) d, e => by simp only [GoType.Generate]; rw [Print_start e]
  | .NamedType none d, e => by simp only [GoType.Generate]; rw [Print_start]
  | .PrimitiveType s, e => by simp only [GoType.Generate]; rw [Print_start]
  | .CustomNameType s, e => by simp only [GoType.Generate]; rw [Print_start]
  | .MapType k v, e => by simp only [GoType.Generate]; rw [Print_start e]
  | .EmptyInterfaceType, e => by simp only [GoType.Generate]; rw [Print_start]
  | .NullType, e => by simp only [GoType.Generate]; rw [Print_start]
  | .StructType fs r, e => by simp only [GoType.Generate, Emitter.Println]; rw [Print_start e]

theorem GoType_Generate_out (t : GoType) (e : Emitter) :
    (t.Generate e).out = e.out ++ e.pad ++ t.rendering e.indent := by
  rw [GoType_Generate_start t e]
  have := GoType_Generate_prepend t (e.out ++ e.pad) { out := [], indent := e.indent, start := false }
  simp only [Emitter.prepend, List.append_nil] at this
  rw [this]
  rfl



/-! ## Nillability -/

theorem namedChain_IsNillable (links : List (Option Package × String × String)) (t : GoType) :
    (namedChain links t).IsNillable = t.IsNillable := by
  induction links with
  | nil => rfl
  | cons l links ih =>
    obtain ⟨pkg, name, comment⟩ := l
    simp only [namedChain, GoType.IsNillable, TypeDecl.typeIsNillable]
    exact ih

theorem NamedType_IsNillable_iff (pkg : Option Package) (d : TypeDecl) :
    (GoType.NamedType pkg d).IsNillable = true ↔ ∃ t, d.Type = some t ∧ t.IsNillable = true := by
  obtain ⟨n, t, c⟩ := d
  cases t with
  | none => simp [GoType.IsNillable, TypeDecl.typeIsNillable, TypeDecl.Type]
  | some t => simp [GoType.IsNillable, TypeDecl.typeIsNillable, TypeDecl.Type]




/-! ## The indent level and the line start after a type -/

@[simp] theorem Print_indent (e : Emitter) (s : String) : (e.Print s).indent = e.indent := rfl

@[simp] theorem Print_start_false (e : Emitter) (s : String) : (e.Print s).start = false := rfl

@[simp] theorem Newline_indent (e : Emitter) : e.Newline.indent = e.indent := rfl

@[simp] theorem Newline_start (e : Emitter) : e.Newline.start = true := rfl

@[simp] theorem Indent_indent (e : Emitter) (n : Int) : (e.Indent n).indent = e.indent + n := rfl

theorem foldl_Println_indent (ls : List (List Char)) (e : Emitter) :
    (ls.foldl (fun acc l => acc.Println ("// " ++ String.mk l)) e).indent = e.indent := by
  induction ls generalizing e with
  | nil => rfl
  | cons l ls ih => simp only [List.foldl_cons, ih, Println_indent]

@[simp] theorem Comment_indent (e : Emitter) (s : String) : (e.Comment s).indent = e.indent := by
  unfold Emitter.Comment
  split
  · rfl
  · exact foldl_Println_indent _ _

mutual
theorem GoType_Generate_indent : ∀ (t : GoType) (e : Emitter), (t.Generate e).indent = e.indent
  | .PointerType t, e => by
    simp only [GoType.Generate]; rw [GoType_Generate_indent t]; rfl
  | .ArrayType t, e => by
    simp only [GoType.Generate]; rw [GoType_Generate_indent t]; rfl
  | .NamedType (some p) d, e => rfl
  | .NamedType none d, e => rfl
  | .PrimitiveType s, e => rfl
  | .CustomNameType s, e => rfl
  | .MapType k v, e => by
    simp only [GoType.Generate]
    rw [GoType_Generate_indent v, Print_indent, GoType_Generate_indent k]; rfl
  | .EmptyInterfaceType, e => rfl
  | .NullType, e => rfl
  | .StructType fs r, e => by
    simp only [GoType.Generate, Print_indent, Indent_indent]
    rw [StructField_generateAll_indent fs 0]
    simp only [Indent_indent, Println_indent]
    omega
theorem StructField_generateAll_indent : ∀ (fs : List StructField) (i : Nat) (e : Emitter),
    (StructField.generateAll fs i e).indent = e.indent
  | [], i, e => by simp only [StructField.generateAll]
  | f :: fs, i, e => by
    simp only [StructField.generateAll]
    rw [StructField_generateAll_indent fs (i + 1), Newline_indent,
      StructField_Generate_indent f]
    split <;> rfl
theorem StructField_Generate_indent : ∀ (f : StructField) (e : Emitter),
    (f.Generate e).indent = e.indent
  | .mk name type comment tags j d, e => by
    simp only [StructField.Generate]
    split
    · rw [Print_indent, GoType_Generate_indent type, Print_indent, Comment_indent]
    · rw [GoType_Generate_indent type, Print_indent, Comment_indent]
end

theorem GoType_Generate_start_false : ∀ (t : GoType) (e : Emitter), (t.Generate e).start = false
  | .PointerType t, e => by simp only [GoType.Generate]; exact GoType_Generate_start_false t _
  | .ArrayType t, e => by simp only [GoType.Generate]; exact GoType_Generate_start_false t _
  | .NamedType (some p) d, e => rfl
  | .NamedType none d, e => rfl
  | .PrimitiveType s, e => rfl
  | .CustomNameType s, e => rfl
  | .MapType k v, e => by simp only [GoType.Generate]; exact GoType_Generate_start_false v _
  | .EmptyInterfaceType, e => rfl
  | .NullType, e => rfl
  | .StructType fs r, e => rfl

end Codegen

namespace Codegen

namespace GoSort

variable {α : Type}

/-! ## Swaps -/

theorem swap_length (l : List α) (i j : Nat) : (swap l i j).length = l.length := by
  unfold swap
  split <;> simp

theorem swap_of_length_le_left (l : List α) (i j : Nat) (h : l.length ≤ i) : swap l i j = l := by
  unfold swap
  rw [List.getElem?_eq_none h]

theorem swap_of_length_le_right (l : List α) (i j : Nat) (h : l.length ≤ j) : swap l i j = l := by
  unfold swap
  rw [List.getElem?_eq_none h]
  split
  · rename_i heq; cases heq
  · rfl

theorem swap_eq_set (l : List α) (i j : Nat) (hi : i < l.length) (hj : j < l.length) :
    swap l i j = (l.set i l[j]).set j l[i] := by
  unfold swap
  rw [List.getElem?_eq_getElem hi, List.getElem?_eq_getElem hj]

theorem getElem?_swap (l : List α) (i j k : Nat) (hi : i < l.length) (hj : j < l.length) :
    (swap l i j)[k]? = if k = j then l[i]? else if k = i then l[j]? else l[k]? := by
  rw [swap_eq_set l i j hi hj]
  by_cases hkj : k = j
  · subst hkj
    simp [List.getElem?_set, hi, hj]
  · by_cases hki : k = i
    · subst hki
      rw [if_neg hkj, if_pos rfl, List.getElem?_set_ne (Ne.symm hkj)]
      simp [List.getElem?_set, hi, hj]
    · rw [if_neg hkj, if_neg hki, List.getElem?_set_ne (Ne.symm hkj),
        List.getElem?_set_ne (Ne.symm hki)]

theorem swap_self (l : List α) (i : Nat) : swap l i i = l := by
  by_cases hi : i < l.length
  · apply List.ext_getElem?
    intro k
    rw [getElem?_swap l i i k hi hi]
    by_cases hk : k = i
    · simp [hk]
    · simp [hk]
  · exact swap_of_length_le_left l i i (by omega)

theorem getElem?_swap_of_ne (l : List α) (i j k : Nat) (hki : k ≠ i) (hkj : k ≠ j) :
    (swap l i j)[k]? = l[k]? := by
  by_cases hi : i < l.length
  · by_cases hj : j < l.length
    · rw [getElem?_swap l i j k hi hj, if_neg hkj, if_neg hki]
    · rw [swap_of_length_le_right l i j (by omega)]
  · rw [swap_of_length_le_left l i j (by omega)]

theorem cons_set_perm (x y : α) : ∀ (l : List α) (j : Nat), l[j]? = some y →
    (y :: l.set j x).Perm (x :: l)
  | [], j, h => by simp at h
  | z :: l, 0, h => by
    simp only [List.getElem?_cons_zero, Option.some.injEq] at h
    subst h
    simp only [List.set_cons_zero]
    exact List.Perm.swap _ _ _
  | z :: l, j + 1, h => by
    simp only [List.getElem?_cons_succ] at h
    simp only [List.set_cons_succ]
    exact ((List.Perm.swap z y _).trans ((cons_set_perm x y l j h).cons z)).trans
      (List.Perm.swap x z l)

theorem swap_perm_aux : ∀ (l : List α) (i d : Nat), i + d + 1 < l.length →
    (swap l i (i + d + 1)).Perm l
  | [], i, d, h => by simp at h
  | x :: l, 0, d, h => by
    have hd : d < l.length := by simpa using h
    rw [swap_eq_set _ _ _ (by simp) h]
    simp only [Nat.zero_add, List.getElem_cons_succ, List.set_cons_zero, List.set_cons_succ,
      List.getElem_cons_zero]
    exact cons_set_perm x l[d] l d (List.getElem?_eq_getElem hd)
  | x :: l, i + 1, d, h => by
    have h' : i + d + 1 < l.length := by simp at h; omega
    have e : i + 1 + d + 1 = (i + d + 1) + 1 := by omega
    have ih := swap_perm_aux l i d h'
    rw [swap_eq_set _ _ _ (by omega) h'] at ih
    rw [swap_eq_set _ _ _ (by simp; omega) h]
    simp only [e, List.getElem_cons_succ, List.set_cons_succ]
    exact ih.cons x

theorem swap_comm (l : List α) (i j : Nat) : swap l i j = swap l j i := by
  by_cases hi : i < l.length
  · by_cases hj : j < l.length
    · apply List.ext_getElem?
      intro k
      rw [getElem?_swap l i j k hi hj, getElem?_swap l j i k hj hi]
      by_cases hkj : k = j
      · by_cases hki : k = i
        · subst hkj; subst hki; simp
        · subst hkj; simp [hki]
      · by_cases hki : k = i
        · subst hki; simp [hkj]
        · simp [hkj, hki]
    · rw [swap_of_length_le_right l i j (by omega), swap_of_length_le_left l j i (by omega)]
  · rw [swap_of_length_le_left l i j (by omega), swap_of_length_le_right l j i (by omega)]

theorem swap_perm (l : List α) (i j : Nat) : (swap l i j).Perm l := by
  by_cases hi : i < l.length
  · by_cases hj : j < l.length
    · rcases Nat.lt_trichotomy i j with h | h | h
      · obtain ⟨d, rfl⟩ : ∃ d, j = i + d + 1 := ⟨j - i - 1, by omega⟩
        exact swap_perm_aux l i d hj
      · subst h; rw [swap_self]
      · obtain ⟨d, rfl⟩ : ∃ d, i = j + d + 1 := ⟨i - j - 1, by omega⟩
        rw [swap_comm]
        exact swap_perm_aux l j d hi
    · rw [swap_of_length_le_right l i j (by omega)]
  · rw [swap_of_length_le_left l i j (by omega)]


theorem mem_swap (l : List α) (i j : Nat) (x : α) : x ∈ swap l i j ↔ x ∈ l :=
  (swap_perm l i j).mem_iff

/-! ## Comparisons by index -/

theorem lessAt_eq (less : α → α → Bool) (data : List α) (i j : Nat)
    (hi : i < data.length) (hj : j < data.length) :
    lessAt less data i j = less data[i] data[j] := by
  unfold lessAt
  rw [List.getElem?_eq_getElem hi, List.getElem?_eq_getElem hj]

theorem lessAt_lt_left (less : α → α → Bool) (data : List α) (i j : Nat)
    (h : lessAt less data i j = true) : i < data.length := by
  by_contra hn
  unfold lessAt at h
  rw [List.getElem?_eq_none (by omega)] at h
  simp at h

theorem lessAt_lt_right (less : α → α → Bool) (data : List α) (i j : Nat)
    (h : lessAt less data i j = true) : j < data.length := by
  by_contra hn
  unfold lessAt at h
  have hnone : data[j]? = none := List.getElem?_eq_none (by omega)
  rw [hnone] at h
  split at h
  · rename_i heq; cases heq
  · simp at h

theorem lessAt_swap (less : α → α → Bool) (data : List α) (i j p q : Nat)
    (hi : i < data.length) (hj : j < data.length) :
    lessAt less (swap data i j) p q =
      lessAt less data (if p = j then i else if p = i then j else p)
        (if q = j then i else if q = i then j else q) := by
  have key : ∀ k, (swap data i j)[k]? =
      data[if k = j then i else if k = i then j else k]? := by
    intro k
    rw [getElem?_swap data i j k hi hj]
    split_ifs <;> rfl
  unfold lessAt
  rw [key p, key q]

section Order

variable {less : α → α → Bool} {S : α → Prop}

theorem lessAt_irrefl (hO : WeakOrderOn less S) (data : List α) (hS : ∀ x ∈ data, S x)
    (i : Nat) : lessAt less data i i = false := by
  by_cases hi : i < data.length
  · rw [lessAt_eq less data i i hi hi]
    exact hO.irrefl _ (hS _ (List.getElem_mem hi))
  · unfold lessAt
    rw [List.getElem?_eq_none (by omega)]

theorem lessAt_trans (hO : WeakOrderOn less S) (data : List α) (hS : ∀ x ∈ data, S x)
    {i j k : Nat} (h1 : lessAt less data i j = true) (h2 : lessAt less data j k = true) :
    lessAt less data i k = true := by
  have hi := lessAt_lt_left less data i j h1
  have hj := lessAt_lt_right less data i j h1
  have hk := lessAt_lt_right less data j k h2
  rw [lessAt_eq less data _ _ hi hj] at h1
  rw [lessAt_eq less data _ _ hj hk] at h2
  rw [lessAt_eq less data _ _ hi hk]
  exact hO.trans _ _ _ (hS _ (List.getElem_mem hi)) (hS _ (List.getElem_mem hj))
    (hS _ (List.getElem_mem hk)) h1 h2

theorem lessAt_negTrans (hO : WeakOrderOn less S) (data : List α) (hS : ∀ x ∈ data, S x)
    {i j k : Nat} (hj : j < data.length) (h1 : lessAt less data i j = false)
    (h2 : lessAt less data j k = false) : lessAt less data i k = false := by
  by_cases hi : i < data.length
  · by_cases hk : k < data.length
    · rw [lessAt_eq less data _ _ hi hj] at h1
      rw [lessAt_eq less data _ _ hj hk] at h2
      rw [lessAt_eq less data _ _ hi hk]
      exact hO.negTrans _ _ _ (hS _ (List.getElem_mem hi)) (hS _ (List.getElem_mem hj))
        (hS _ (List.getElem_mem hk)) h1 h2
    · cases h : lessAt less data i k
      · rfl
      · exact absurd (lessAt_lt_right less data i k h) hk
  · cases h : lessAt less data i k
    · rfl
    · exact absurd (lessAt_lt_left less data i k h) hi

theorem lessAt_asymm (hO : WeakOrderOn less S) (data : List α) (hS : ∀ x ∈ data, S x)
    {i j : Nat} (h : lessAt less data i j = true) : lessAt less data j i = false := by
  cases h' : lessAt less data j i
  · rfl
  · have := lessAt_trans hO data hS h h'
    rw [lessAt_irrefl hO data hS i] at this
    cases this

/-- From `x < y` and `¬ z < y` follows `x < z`. -/
theorem lessAt_of_lt_of_not_lt (hO : WeakOrderOn less S) (data : List α)
    (hS : ∀ x ∈ data, S x) {i j k : Nat} (hk : k < data.length)
    (h1 : lessAt less data i j = true) (h2 : lessAt less data k j = false) :
    lessAt less data i k = true := by
  cases h : lessAt less data i k
  · have := lessAt_negTrans hO data hS hk h h2
    rw [h1] at this
    cases this
  · rfl

/-- From `¬ y < x` and `y < z` follows `x < z`. -/
theorem lessAt_of_not_lt_of_lt (hO : WeakOrderOn less S) (data : List α)
    (hS : ∀ x ∈ data, S x) {i j k : Nat} (hi : i < data.length)
    (h1 : lessAt less data j i = false) (h2 : lessAt less data j k = true) :
    lessAt less data i k = true := by
  cases h : lessAt less data i k
  · have := lessAt_negTrans hO data hS hi h1 h
    rw [h2] at this
    cases this
  · rfl

end Order

/-! ## Permutations inside a range -/

theorem RangePerm.length_eq {lo hi : Nat} {l l' : List α} (h : RangePerm lo hi l l') :
    l'.length = l.length := by
  induction h with
  | refl => rfl
  | step l' i j _ _ _ _ _ ih => rw [swap_length, ih]

theorem RangePerm.perm {lo hi : Nat} {l l' : List α} (h : RangePerm lo hi l l') :
    l'.Perm l := by
  induction h with
  | refl => exact List.Perm.refl _
  | step l' i j _ _ _ _ _ ih => exact (swap_perm l' i j).trans ih

theorem RangePerm.outside {lo hi : Nat} {l l' : List α} (h : RangePerm lo hi l l')
    (k : Nat) (hk : k < lo ∨ hi ≤ k) : l'[k]? = l[k]? := by
  induction h with
  | refl => rfl
  | step l' i j _ _ _ _ _ ih =>
    rw [getElem?_swap_of_ne l' i j k (by omega) (by omega), ih]

theorem RangePerm.mono {lo hi lo' hi' : Nat} {l l' : List α} (h : RangePerm lo hi l l')
    (hlo : lo' ≤ lo) (hhi : hi ≤ hi') : RangePerm lo' hi' l l' := by
  induction h with
  | refl => exact RangePerm.refl _
  | step l' i j _ h1 h2 h3 h4 ih =>
    exact RangePerm.step _ l' i j ih (by omega) (by omega) (by omega) (by omega)

theorem RangePerm.trans {lo hi : Nat} {l l' l'' : List α} (h : RangePerm lo hi l l')
    (h' : RangePerm lo hi l' l'') : RangePerm lo hi l l'' := by
  induction h' with
  | refl => exact h
  | step m i j _ h1 h2 h3 h4 ih => exact RangePerm.step _ m i j ih h1 h2 h3 h4

theorem RangePerm.swap {lo hi : Nat} (l : List α) (i j : Nat) (h1 : lo ≤ i) (h2 : i < hi)
    (h3 : lo ≤ j) (h4 : j < hi) : RangePerm lo hi l (GoSort.swap l i j) :=
  RangePerm.step l l i j (RangePerm.refl l) h1 h2 h3 h4

/-- Every element of the range after the swaps was in the range before. -/
theorem RangePerm.source {lo hi : Nat} {l l' : List α} (h : RangePerm lo hi l l')
    (k : Nat) (hk1 : lo ≤ k) (hk2 : k < hi) :
    ∃ k', lo ≤ k' ∧ k' < hi ∧ l'[k]? = l[k']? := by
  induction h generalizing k with
  | refl => exact ⟨k, hk1, hk2, rfl⟩
  | step l' i j _ h1 h2 h3 h4 ih =>
    by_cases hi' : i < l'.length
    · by_cases hj' : j < l'.length
      · rw [getElem?_swap l' i j k hi' hj']
        by_cases hkj : k = j
        · rw [if_pos hkj]; exact ih i h1 h2
        · rw [if_neg hkj]
          by_cases hki : k = i
          · rw [if_pos hki]; exact ih j h3 h4
          · rw [if_neg hki]; exact ih k hk1 hk2
      · rw [swap_of_length_le_right l' i j (by omega)]; exact ih k hk1 hk2
    · rw [swap_of_length_le_left l' i j (by omega)]; exact ih k hk1 hk2

theorem RangePerm.forall_mem {lo hi : Nat} {l l' : List α} (h : RangePerm lo hi l l')
    {S : α → Prop} (hS : ∀ x ∈ l, S x) : ∀ x ∈ l', S x :=
  fun x hx => hS x (h.perm.mem_iff.1 hx)

end GoSort

end Codegen

namespace Codegen

namespace GoSort

variable {α : Type} {less : α → α → Bool} {S : α → Prop}

/-! ## Insertion sort -/

theorem lessAt_swap_adj_other (data : List α) (j p q : Nat) (hj : j + 1 < data.length)
    (hp1 : p ≠ j) (hp2 : p ≠ j + 1) (hq1 : q ≠ j) (hq2 : q ≠ j + 1) :
    lessAt less (swap data (j + 1) j) p q = lessAt less data p q := by
  rw [lessAt_swap less data (j + 1) j p q hj (by omega), if_neg hp1, if_neg hp2, if_neg hq1,
    if_neg hq2]

theorem insertionInner_spec (hO : WeakOrderOn less S) (a0 a top : Nat) :
    ∀ (j : Nat) (data : List α), a0 ≤ a → a ≤ j → j ≤ top → top < data.length →
      (∀ x ∈ data, S x) →
      (a0 < a → ∀ k, a ≤ k → k ≤ top → lessAt less data k (a - 1) = false) →
      SortedOn less data a j →
      (∀ p q, j < p → p < q → q ≤ top → lessAt less data q p = false) →
      (∀ p q, a ≤ p → p < j → j < q → q ≤ top → lessAt less data q p = false) →
      (∀ q, j < q → q ≤ top → lessAt less data q j = false) →
      RangePerm a (top + 1) data (insertionInner less a0 j data) ∧
        SortedOn less (insertionInner less a0 j data) a (top + 1)
  | 0, data, _, ha, _, _, _, _, _, h2, _, h4 => by
    refine ⟨RangePerm.refl _, ?_⟩
    intro p q hp hpq hq
    by_cases hp0 : p = 0
    · subst hp0; exact h4 q (by omega) (by omega)
    · exact h2 p q (by omega) hpq (by omega)
  | j + 1, data, ha0, ha, hjt, htop, hS, hpre, h1, h2, h3, h4 => by
    unfold insertionInner
    by_cases hc : a0 < j + 1 ∧ lessAt less data (j + 1) j = true
    · rw [if_pos hc]
      have haj : a ≤ j := by
        by_contra hn
        have heq : a = j + 1 := by omega
        have := hpre (by omega) (j + 1) (by omega) hjt
        rw [heq] at this
        rw [show j + 1 - 1 = j by omega] at this
        rw [hc.2] at this
        cases this
      have hj1 : j + 1 < data.length := by omega
      have hlen : (swap data (j + 1) j).length = data.length := swap_length _ _ _
      have ih := insertionInner_spec hO a0 a top j (swap data (j + 1) j) ha0 haj (by omega)
        (by omega) (fun x hx => hS x ((mem_swap _ _ _ _).1 hx)) ?_ ?_ ?_ ?_ ?_
      · exact ⟨(RangePerm.swap data (j + 1) j (by omega) (by omega) (by omega) (by omega)).trans
          ih.1, ih.2⟩
      · intro h k hk1 hk2
        rw [lessAt_swap less data (j + 1) j k (a - 1) hj1 (by omega)]
        rw [if_neg (show a - 1 ≠ j by omega), if_neg (show a - 1 ≠ j + 1 by omega)]
        split_ifs
        · exact hpre h _ (by omega) (by omega)
        · exact hpre h _ (by omega) (by omega)
        · exact hpre h _ hk1 hk2
      · intro p q hp hpq hq
        rw [lessAt_swap_adj_other data j q p hj1 (by omega) (by omega) (by omega) (by omega)]
        exact h1 p q hp hpq (by omega)
      · intro p q hp hpq hq
        rw [lessAt_swap less data (j + 1) j q p hj1 (by omega)]
        rw [if_neg (show q ≠ j by omega), if_neg (show q ≠ j + 1 by omega),
          if_neg (show p ≠ j by omega)]
        by_cases hpj : p = j + 1
        · rw [if_pos hpj]
          exact h3 j q haj (by omega) (by omega) hq
        · rw [if_neg hpj]
          exact h2 p q (by omega) hpq hq
      · intro p q hp hpj hjq hq
        rw [lessAt_swap less data (j + 1) j q p hj1 (by omega)]
        rw [if_neg (show q ≠ j by omega), if_neg (show p ≠ j by omega),
          if_neg (show p ≠ j + 1 by omega)]
        by_cases hqj : q = j + 1
        · rw [if_pos hqj]
          exact h1 p j hp hpj (by omega)
        · rw [if_neg hqj]
          exact h3 p q hp (by omega) (by omega) hq
      · intro q hjq hq
        rw [lessAt_swap less data (j + 1) j q j hj1 (by omega)]
        rw [if_neg (show q ≠ j by omega), if_pos rfl]
        by_cases hqj : q = j + 1
        · rw [if_pos hqj]
          exact lessAt_asymm hO data hS hc.2
        · rw [if_neg hqj]
          exact h4 q (by omega) hq
    · rw [if_neg hc]
      refine ⟨RangePerm.refl _, ?_⟩
      intro p q hp hpq hq
      by_cases hq1 : q < j + 1
      · exact h1 p q hp hpq hq1
      · by_cases hp1 : j + 1 < p
        · exact h2 p q hp1 hpq (by omega)
        · by_cases hp2 : p = j + 1
          · subst hp2; exact h4 q hpq (by omega)
          · by_cases hq2 : q = j + 1
            · subst hq2
              have hlt : lessAt less data (j + 1) j = false := by
                cases h : lessAt less data (j + 1) j
                · rfl
                · exact absurd ⟨by omega, h⟩ hc
              by_cases hpj : p = j
              · subst hpj; exact hlt
              · exact lessAt_negTrans hO data hS (by omega) hlt (h1 p j hp (by omega) (by omega))
            · exact h3 p q hp (by omega) (by omega) (by omega)

theorem insertionOuter_spec (hO : WeakOrderOn less S) (a : Nat) :
    ∀ (n i : Nat) (data : List α), a < i → i + n ≤ data.length → (∀ x ∈ data, S x) →
      SortedOn less data a i →
      RangePerm a (i + n) data (insertionOuter less a n i data) ∧
        SortedOn less (insertionOuter less a n i data) a (i + n)
  | 0, i, data, _, _, _, h => ⟨RangePerm.refl _, h⟩
  | n + 1, i, data, hai, hlen, hS, h => by
    unfold insertionOuter
    have h1 := insertionInner_spec hO a a i i data (Nat.le_refl a) (by omega) (Nat.le_refl i)
      (by omega) hS (fun hh => absurd hh (Nat.lt_irrefl a)) h
      (fun p q hp hpq hq => by omega) (fun p q _ hp hq hq' => by omega)
      (fun q hq hq' => by omega)
    have h2 := insertionOuter_spec hO a n (i + 1) (insertionInner less a i data) (by omega)
      (by rw [h1.1.length_eq]; omega) (h1.1.forall_mem hS) h1.2
    have e : i + 1 + n = i + (n + 1) := by omega
    rw [e] at h2
    exact ⟨(h1.1.mono (Nat.le_refl a) (by omega)).trans h2.1, h2.2⟩

theorem insertionSort_func_spec (hO : WeakOrderOn less S) (data : List α) (a b : Nat)
    (hb : b ≤ data.length) (hS : ∀ x ∈ data, S x) :
    RangePerm a b data (insertionSort_func less data a b) ∧
      SortedOn less (insertionSort_func less data a b) a b := by
  unfold insertionSort_func
  by_cases hab : a + 1 < b
  · have h := insertionOuter_spec hO a (b - (a + 1)) (a + 1) data (by omega) (by omega) hS
      (fun p q hp hpq hq => by omega)
    have e : a + 1 + (b - (a + 1)) = b := by omega
    rw [e] at h
    exact h
  · have e : b - (a + 1) = 0 := by omega
    rw [e]
    exact ⟨RangePerm.refl _, fun p q hp hpq hq => by omega⟩

end GoSort

end Codegen

namespace Codegen

namespace GoSort

variable {α : Type} {less : α → α → Bool}

/-! ## The two scans -/

theorem scanUp_spec (p : Nat → Bool) : ∀ (n i : Nat),
    i ≤ scanUp p n i ∧ scanUp p n i ≤ i + n ∧
      (∀ k, i ≤ k → k < scanUp p n i → p k = true) ∧
      (scanUp p n i < i + n → p (scanUp p n i) = false)
  | 0, i => ⟨Nat.le_refl _, Nat.le_refl _, fun k h1 h2 => by
      simp only [scanUp] at h2; omega, fun h => by simp only [scanUp] at h; omega⟩
  | n + 1, i => by
    unfold scanUp
    by_cases hp : p i = true
    · rw [if_pos hp]
      obtain ⟨h1, h2, h3, h4⟩ := scanUp_spec p n (i + 1)
      refine ⟨by omega, by omega, fun k hk1 hk2 => ?_, fun h => h4 (by omega)⟩
      by_cases hk : k = i
      · subst hk; exact hp
      · exact h3 k (by omega) hk2
    · rw [if_neg hp]
      exact ⟨Nat.le_refl _, by omega, fun k h1 h2 => by omega, fun _ => by simpa using hp⟩

theorem scanDown_spec (p : Nat → Bool) : ∀ (n j : Nat), n ≤ j →
    scanDown p n j ≤ j ∧ j ≤ scanDown p n j + n ∧
      (∀ k, scanDown p n j < k → k ≤ j → p k = true) ∧
      (j < scanDown p n j + n → p (scanDown p n j) = false)
  | 0, j, _ => ⟨Nat.le_refl _, Nat.le_refl _, fun k h1 h2 => by
      simp only [scanDown] at h1; omega, fun h => by simp only [scanDown] at h; omega⟩
  | n + 1, j, hn => by
    unfold scanDown
    by_cases hp : p j = true
    · rw [if_pos hp]
      obtain ⟨h1, h2, h3, h4⟩ := scanDown_spec p n (j - 1) (by omega)
      refine ⟨by omega, by omega, fun k hk1 hk2 => ?_, fun h => h4 (by omega)⟩
      by_cases hk : k = j
      · subst hk; exact hp
      · exact h3 k hk1 (by omega)
    · rw [if_neg hp]
      exact ⟨Nat.le_refl _, by omega, fun k h1 h2 => by omega, fun _ => by simpa using hp⟩

/-! ## Partition -/

theorem partition_round (a b i j : Nat) (d : List α) (h : PartInv less a b i j d) :
    let i1 := scanUp (fun k => lessAt less d k a) (j + 1 - i) i
    let j1 := scanDown (fun k => !lessAt less d k a) (j + 1 - i1) j
    (i1 > j1 → a ≤ j1 ∧ j1 < b ∧ (∀ k, a < k → k ≤ j1 → lessAt less d k a = true) ∧
      (∀ k, j1 < k → k < b → lessAt less d k a = false)) ∧
    (i1 ≤ j1 → i ≤ i1 ∧ j1 ≤ j ∧ i1 < j1 ∧
      PartInv less a b (i1 + 1) (j1 - 1) (swap d i1 j1)) := by
  intro i1 j1
  obtain ⟨hai, hij, hjb, hbl, hL, hR⟩ := h
  obtain ⟨u1, u2, u3, u4⟩ := scanUp_spec (fun k => lessAt less d k a) (j + 1 - i) i
  have hi1 : i ≤ i1 := u1
  have hi2 : i1 ≤ j + 1 := by show scanUp _ _ _ ≤ _; omega
  obtain ⟨v1, v2, v3, v4⟩ := scanDown_spec (fun k => !lessAt less d k a) (j + 1 - i1) j
    (by omega)
  have hj1 : j1 ≤ j := v1
  have hj2 : i1 ≤ j1 + 1 := by
    have : j ≤ j1 + (j + 1 - i1) := v2
    omega
  have hLeft : ∀ k, a < k → k < i1 → lessAt less d k a = true := by
    intro k hk1 hk2
    by_cases hk : k < i
    · exact hL k hk1 hk
    · exact u3 k (by omega) hk2
  have hRight : ∀ k, j1 < k → k < b → lessAt less d k a = false := by
    intro k hk1 hk2
    by_cases hk : j < k
    · exact hR k hk hk2
    · have := v3 k hk1 (by omega)
      simpa using this
  refine ⟨fun hgt => ⟨by omega, by omega, fun k hk1 hk2 => hLeft k hk1 (by omega), hRight⟩,
    fun hle => ?_⟩
  have hPi : lessAt less d i1 a = false := u4 (by show scanUp _ _ _ < _; omega)
  have hPj : lessAt less d j1 a = true := by
    have := v4 (by show j < scanDown _ _ _ + _; omega)
    simpa using this
  have hne : i1 ≠ j1 := by
    intro e
    rw [e, hPj] at hPi
    cases hPi
  have hi1l : i1 < d.length := by omega
  have hj1l : j1 < d.length := by omega
  refine ⟨hi1, hj1, by omega, by omega, by omega, by omega, by rw [swap_length]; exact hbl,
    fun k hk1 hk2 => ?_, fun k hk1 hk2 => ?_⟩
  · rw [lessAt_swap less d i1 j1 k a hi1l hj1l, if_neg (show a ≠ j1 by omega),
      if_neg (show a ≠ i1 by omega), if_neg (show k ≠ j1 by omega)]
    by_cases hk : k = i1
    · rw [if_pos hk]; exact hPj
    · rw [if_neg hk]; exact hLeft k hk1 (by omega)
  · rw [lessAt_swap less d i1 j1 k a hi1l hj1l, if_neg (show a ≠ j1 by omega),
      if_neg (show a ≠ i1 by omega)]
    by_cases hk : k = j1
    · rw [if_pos hk]; exact hPi
    · rw [if_neg hk, if_neg (show k ≠ i1 by omega)]; exact hRight k (by omega) hk2

theorem partitionLoop_spec (a b : Nat) : ∀ (n i j : Nat) (d : List α), j + 2 - i ≤ n →
    PartInv less a b i j d →
    RangePerm (a + 1) b d (partitionLoop less a n i j d).1 ∧
      a ≤ (partitionLoop less a n i j d).2 ∧ (partitionLoop less a n i j d).2 < b ∧
      (∀ k, a < k → k ≤ (partitionLoop less a n i j d).2 →
        lessAt less (partitionLoop less a n i j d).1 k a = true) ∧
      (∀ k, (partitionLoop less a n i j d).2 < k → k < b →
        lessAt less (partitionLoop less a n i j d).1 k a = false)
  | 0, i, j, d, hn, h => by
    obtain ⟨hai, hij, _⟩ := h
    omega
  | n + 1, i, j, d, hn, h => by
    have hr := partition_round a b i j d h
    simp only at hr
    unfold partitionLoop
    simp only
    by_cases hgt : scanUp (fun k => lessAt less d k a) (j + 1 - i) i >
        scanDown (fun k => !lessAt less d k a)
          (j + 1 - scanUp (fun k => lessAt less d k a) (j + 1 - i) i) j
    · rw [if_pos hgt]
      obtain ⟨h1, h2, h3, h4⟩ := hr.1 hgt
      exact ⟨RangePerm.refl _, h1, h2, h3, h4⟩
    · rw [if_neg hgt]
      obtain ⟨h1, h2, h3, h4⟩ := hr.2 (by omega)
      have hb := h.2.2.1
      have ha := h.1
      have ih := partitionLoop_spec a b n _ _ _ (by omega) h4
      exact ⟨(RangePerm.swap d _ _ (by omega) (by omega) (by omega) (by omega)).trans ih.1,
        ih.2⟩

theorem partition_func_spec (less : α → α → Bool) (data : List α) (a b pivot : Nat)
    (hap : a ≤ pivot) (hpb : pivot < b) (hb : b ≤ data.length) :
    RangePerm a b data (partition_func less data a b pivot).1 ∧
      a ≤ (partition_func less data a b pivot).2.1 ∧
      (partition_func less data a b pivot).2.1 < b ∧
      (∀ k, a ≤ k → k < (partition_func less data a b pivot).2.1 →
        lessAt less (partition_func less data a b pivot).1 k
          (partition_func less data a b pivot).2.1 = true) ∧
      (∀ k, (partition_func less data a b pivot).2.1 < k → k < b →
        lessAt less (partition_func less data a b pivot).1 k
          (partition_func less data a b pivot).2.1 = false) := by
  have hlen0 : (swap data a pivot).length = data.length := swap_length _ _ _
  have hinv : PartInv less a b (a + 1) (b - 1) (swap data a pivot) :=
    ⟨by omega, by omega, by omega, by omega, fun k h1 h2 => by omega,
      fun k h1 h2 => by omega⟩
  have hr := partition_round a b (a + 1) (b - 1) (swap data a pivot) hinv
  simp only at hr
  have hp0 : RangePerm a b data (swap data a pivot) :=
    RangePerm.swap data a pivot (Nat.le_refl a) (by omega) hap hpb
  -- the final swap of the pivot into its place
  have fin : ∀ (d : List α) (j : Nat), RangePerm a b (swap data a pivot) d → a ≤ j → j < b →
      (∀ k, a < k → k ≤ j → lessAt less d k a = true) →
      (∀ k, j < k → k < b → lessAt less d k a = false) →
      RangePerm a b data (swap d j a) ∧
        (∀ k, a ≤ k → k < j → lessAt less (swap d j a) k j = true) ∧
        (∀ k, j < k → k < b → lessAt less (swap d j a) k j = false) := by
    intro d j hp haj hjb hL hR
    have hdl : d.length = data.length := by rw [hp.length_eq, hlen0]
    refine ⟨(hp0.trans hp).trans (RangePerm.swap d j a haj hjb (Nat.le_refl a) (by omega)),
      fun k hk1 hk2 => ?_, fun k hk1 hk2 => ?_⟩
    · rw [lessAt_swap less d j a k j (by omega) (by omega)]
      by_cases hja : j = a
      · omega
      · rw [if_neg hja, if_pos rfl, if_neg (show k ≠ j by omega)]
        by_cases hka : k = a
        · rw [if_pos hka]; exact hL j (by omega) (Nat.le_refl j)
        · rw [if_neg hka]; exact hL k (by omega) (by omega)
    · by_cases hja : j = a
      · subst hja
        rw [swap_self]
        exact hR k hk1 hk2
      · rw [lessAt_swap less d j a k j (by omega) (by omega), if_neg hja, if_pos rfl,
          if_neg (show k ≠ a by omega), if_neg (show k ≠ j by omega)]
        exact hR k hk1 hk2
  unfold partition_func
  simp only
  by_cases hgt : scanUp (fun k => lessAt less (swap data a pivot) k a) (b - 1 + 1 - (a + 1))
      (a + 1) > scanDown (fun k => !lessAt less (swap data a pivot) k a) (b - 1 + 1 -
        scanUp (fun k => lessAt less (swap data a pivot) k a) (b - 1 + 1 - (a + 1)) (a + 1))
        (b - 1)
  · rw [if_pos hgt]
    obtain ⟨h1, h2, h3, h4⟩ := hr.1 hgt
    obtain ⟨f1, f2, f3⟩ := fin _ _ (RangePerm.refl _) h1 h2 h3 h4
    exact ⟨f1, h1, h2, f2, f3⟩
  · rw [if_neg hgt]
    obtain ⟨h1, h2, h3, h4⟩ := hr.2 (by omega)
    obtain ⟨l1, l2, l3, l4, l5⟩ := partitionLoop_spec a b (b - a) _ _ _ (by omega) h4
    obtain ⟨f1, f2, f3⟩ := fin _ _
      ((RangePerm.swap (swap data a pivot) _ _ (by omega) (by omega) (by omega)
        (by omega)).trans (l1.mono (by omega) (Nat.le_refl b))) l2 l3 l4 l5
    exact ⟨f1, l2, l3, f2, f3⟩

end GoSort

end Codegen

namespace Codegen

namespace GoSort

variable {α : Type} {less : α → α → Bool} {S : α → Prop}

/-! ## Comparisons after swaps inside a range -/

theorem lessAt_congr (less : α → α → Bool) (d d' : List α) (i j i' j' : Nat)
    (hi : d'[i]? = d[i']?) (hj : d'[j]? = d[j']?) :
    lessAt less d' i j = lessAt less d i' j' := by
  unfold lessAt
  rw [hi, hj]

/-- A comparison between two places outside the range is not changed. -/
theorem RangePerm.lessAt_outside {lo hi : Nat} {d d' : List α} (h : RangePerm lo hi d d')
    (i j : Nat) (hi' : i < lo ∨ hi ≤ i) (hj' : j < lo ∨ hi ≤ j) :
    lessAt less d' i j = lessAt less d i j :=
  lessAt_congr less d d' i j i j (h.outside i hi') (h.outside j hj')

/-- What holds of every place of the range against a place outside still
holds after the swaps. -/
theorem RangePerm.forall_left {lo hi : Nat} {d d' : List α} (h : RangePerm lo hi d d')
    (c : Nat) (hc : c < lo ∨ hi ≤ c) (v : Bool)
    (hall : ∀ k, lo ≤ k → k < hi → lessAt less d k c = v) :
    ∀ k, lo ≤ k → k < hi → lessAt less d' k c = v := by
  intro k hk1 hk2
  obtain ⟨k', h1, h2, h3⟩ := h.source k hk1 hk2
  rw [lessAt_congr less d d' k c k' c h3 (h.outside c hc)]
  exact hall k' h1 h2

theorem RangePerm.forall_right {lo hi : Nat} {d d' : List α} (h : RangePerm lo hi d d')
    (c : Nat) (hc : c < lo ∨ hi ≤ c) (v : Bool)
    (hall : ∀ k, lo ≤ k → k < hi → lessAt less d c k = v) :
    ∀ k, lo ≤ k → k < hi → lessAt less d' c k = v := by
  intro k hk1 hk2
  obtain ⟨k', h1, h2, h3⟩ := h.source k hk1 hk2
  rw [lessAt_congr less d d' c k c k' (h.outside c hc) h3]
  exact hall k' h1 h2

theorem LeftBound.rangePerm {a b : Nat} {d d' : List α} (h : LeftBound less a b d)
    (hp : RangePerm a b d d') : LeftBound less a b d' := by
  intro ha
  exact hp.forall_left (a - 1) (by omega) false (h ha)

/-- Swaps inside a part of the range keep the bound of the whole range. -/
theorem LeftBound.rangePerm_sub {a b lo hi : Nat} {d d' : List α} (h : LeftBound less a b d)
    (hp : RangePerm lo hi d d') (hlo : a ≤ lo) (hhi : hi ≤ b) : LeftBound less a b d' :=
  h.rangePerm (hp.mono hlo hhi)

theorem LeftBound.sub {a b b' : Nat} {d : List α} (h : LeftBound less a b d) (hb : b' ≤ b) :
    LeftBound less a b' d :=
  fun ha k hk1 hk2 => h ha k hk1 (by omega)

theorem SortedOn.rangePerm_outside {lo hi a b : Nat} {d d' : List α}
    (h : SortedOn less d a b) (hp : RangePerm lo hi d d') (hd : b ≤ lo ∨ hi ≤ a) :
    SortedOn less d' a b := by
  intro i j hi' hij hj
  rw [hp.lessAt_outside j i (by omega) (by omega)]
  exact h i j hi' hij hj

/-! ## Partition of the elements equal to the pivot -/

theorem partitionEqual_round (a b i j : Nat) (d : List α) (h : PartEqInv less a b i j d) :
    let i1 := scanUp (fun k => !lessAt less d a k) (j + 1 - i) i
    let j1 := scanDown (fun k => lessAt less d a k) (j + 1 - i1) j
    (i1 > j1 → a < i1 ∧ i1 ≤ b ∧ (∀ k, a < k → k < i1 → lessAt less d a k = false) ∧
      (∀ k, i1 ≤ k → k < b → lessAt less d a k = true)) ∧
    (i1 ≤ j1 → i ≤ i1 ∧ j1 ≤ j ∧ i1 < j1 ∧
      PartEqInv less a b (i1 + 1) (j1 - 1) (swap d i1 j1)) := by
  intro i1 j1
  obtain ⟨hai, hij, hjb, hbl, hL, hR⟩ := h
  obtain ⟨u1, u2, u3, u4⟩ := scanUp_spec (fun k => !lessAt less d a k) (j + 1 - i) i
  have hi1 : i ≤ i1 := u1
  have hi2 : i1 ≤ j + 1 := by show scanUp _ _ _ ≤ _; omega
  obtain ⟨v1, v2, v3, v4⟩ := scanDown_spec (fun k => lessAt less d a k) (j + 1 - i1) j
    (by omega)
  have hj1 : j1 ≤ j := v1
  have hj2 : i1 ≤ j1 + 1 := by
    have : j ≤ j1 + (j + 1 - i1) := v2
    omega
  have hLeft : ∀ k, a < k → k < i1 → lessAt less d a k = false := by
    intro k hk1 hk2
    by_cases hk : k < i
    · exact hL k hk1 hk
    · have := u3 k (by omega) hk2
      simpa using this
  have hRight : ∀ k, j1 < k → k < b → lessAt less d a k = true := by
    intro k hk1 hk2
    by_cases hk : j < k
    · exact hR k hk hk2
    · exact v3 k hk1 (by omega)
  refine ⟨fun hgt => ⟨by omega, by omega, hLeft, fun k hk1 hk2 => hRight k (by omega) hk2⟩,
    fun hle => ?_⟩
  have hPi : lessAt less d a i1 = true := by
    have := u4 (by show scanUp _ _ _ < _; omega)
    simpa using this
  have hPj : lessAt less d a j1 = false := v4 (by show j < scanDown _ _ _ + _; omega)
  have hne : i1 ≠ j1 := by
    intro e
    rw [e, hPj] at hPi
    cases hPi
  have hi1l : i1 < d.length := by omega
  have hj1l : j1 < d.length := by omega
  refine ⟨hi1, hj1, by omega, by omega, by omega, by omega, by rw [swap_length]; exact hbl,
    fun k hk1 hk2 => ?_, fun k hk1 hk2 => ?_⟩
  · rw [lessAt_swap less d i1 j1 a k hi1l hj1l, if_neg (show a ≠ j1 by omega),
      if_neg (show a ≠ i1 by omega), if_neg (show k ≠ j1 by omega)]
    by_cases hk : k = i1
    · rw [if_pos hk]; exact hPj
    · rw [if_neg hk]; exact hLeft k hk1 (by omega)
  · rw [lessAt_swap less d i1 j1 a k hi1l hj1l, if_neg (show a ≠ j1 by omega),
      if_neg (show a ≠ i1 by omega)]
    by_cases hk : k = j1
    · rw [if_pos hk]; exact hPi
    · rw [if_neg hk, if_neg (show k ≠ i1 by omega)]; exact hRight k (by omega) hk2

theorem partitionEqualLoop_spec (a b : Nat) : ∀ (n i j : Nat) (d : List α), j + 2 - i ≤ n →
    PartEqInv less a b i j d →
    RangePerm (a + 1) b d (partitionEqualLoop less a n i j d).1 ∧
      a < (partitionEqualLoop less a n i j d).2 ∧ (partitionEqualLoop less a n i j d).2 ≤ b ∧
      (∀ k, a < k → k < (partitionEqualLoop less a n i j d).2 →
        lessAt less (partitionEqualLoop less a n i j d).1 a k = false) ∧
      (∀ k, (partitionEqualLoop less a n i j d).2 ≤ k → k < b →
        lessAt less (partitionEqualLoop less a n i j d).1 a k = true)
  | 0, i, j, d, hn, h => by
    obtain ⟨hai, hij, _⟩ := h
    omega
  | n + 1, i, j, d, hn, h => by
    have hr := partitionEqual_round a b i j d h
    simp only at hr
    unfold partitionEqualLoop
    simp only
    by_cases hgt : scanUp (fun k => !lessAt less d a k) (j + 1 - i) i >
        scanDown (fun k => lessAt less d a k)
          (j + 1 - scanUp (fun k => !lessAt less d a k) (j + 1 - i) i) j
    · rw [if_pos hgt]
      obtain ⟨h1, h2, h3, h4⟩ := hr.1 hgt
      exact ⟨RangePerm.refl _, h1, h2, h3, h4⟩
    · rw [if_neg hgt]
      obtain ⟨h1, h2, h3, h4⟩ := hr.2 (by omega)
      have hb := h.2.2.1
      have ha := h.1
      have ih := partitionEqualLoop_spec a b n _ _ _ (by omega) h4
      exact ⟨(RangePerm.swap d _ _ (by omega) (by omega) (by omega) (by omega)).trans ih.1,
        ih.2⟩

/-- `partitionEqual_func` when no element of the range is less than the
element before the range and that element is not less than the pivot: the
places before the new start hold elements that are all equivalent to the
pivot, and every element from the new start on is greater. -/
theorem partitionEqual_func_spec (hO : WeakOrderOn less S) (data : List α)
    (a b pivot : Nat) (ha : 0 < a) (hap : a ≤ pivot) (hpb : pivot < b) (hb : b ≤ data.length)
    (hS : ∀ x ∈ data, S x) (hbound : LeftBound less a b data)
    (hpiv : lessAt less data (a - 1) pivot = false) :
    RangePerm a b data (partitionEqual_func less data a b pivot).1 ∧
      a < (partitionEqual_func less data a b pivot).2 ∧
      (partitionEqual_func less data a b pivot).2 ≤ b ∧
      SortedOn less (partitionEqual_func less data a b pivot).1 a
        (partitionEqual_func less data a b pivot).2 ∧
      (∀ i k, a ≤ i → i < (partitionEqual_func less data a b pivot).2 →
        (partitionEqual_func less data a b pivot).2 ≤ k → k < b →
        lessAt less (partitionEqual_func less data a b pivot).1 k i = false) := by
  have hp0 : RangePerm a b data (swap data a pivot) :=
    RangePerm.swap data a pivot (Nat.le_refl a) (by omega) hap hpb
  have hinv : PartEqInv less a b (a + 1) (b - 1) (swap data a pivot) :=
    ⟨by omega, by omega, by omega, by rw [swap_length]; omega, fun k h1 h2 => by omega,
      fun k h1 h2 => by omega⟩
  obtain ⟨l1, l2, l3, l4, l5⟩ :=
    partitionEqualLoop_spec a b (b - a) (a + 1) (b - 1) (swap data a pivot) (by omega) hinv
  unfold partitionEqual_func
  generalize partitionEqualLoop less a (b - a) (a + 1) (b - 1) (swap data a pivot) = r
    at l1 l2 l3 l4 l5 ⊢
  have hp : RangePerm a b data r.1 := hp0.trans (l1.mono (by omega) (Nat.le_refl b))
  have hS' := hp.forall_mem hS
  have hlen := hp.length_eq
  have hbound' : LeftBound less a b r.1 := hbound.rangePerm hp
  -- the pivot, now at `a`, is not greater than the element before the range
  have hpa : lessAt less r.1 (a - 1) a = false := by
    have e1 : lessAt less r.1 (a - 1) a = lessAt less (swap data a pivot) (a - 1) a :=
      RangePerm.lessAt_outside l1 (a - 1) a (by omega) (by omega)
    rw [e1, lessAt_swap less data a pivot (a - 1) a (by omega) (by omega)]
    rw [if_neg (show a - 1 ≠ pivot by omega), if_neg (show a - 1 ≠ a by omega)]
    by_cases hpe : a = pivot
    · rw [if_pos hpe]
      have h2 := hpiv
      rw [← hpe] at h2
      exact h2
    · rw [if_neg hpe, if_pos rfl]; exact hpiv
  -- so nothing in the range is less than the pivot
  have hge : ∀ k, a ≤ k → k < b → lessAt less r.1 k a = false := by
    intro k hk1 hk2
    exact lessAt_negTrans hO _ hS' (by omega) (hbound' ha k hk1 hk2) hpa
  have hle : ∀ k, a ≤ k → k < r.2 → lessAt less r.1 a k = false := by
    intro k hk1 hk2
    by_cases hka : k = a
    · rw [hka]; exact lessAt_irrefl hO _ hS' a
    · exact l4 k (by omega) hk2
  refine ⟨hp, l2, l3, fun i j hi hij hj => ?_, fun i k hi1 hi2 hk1 hk2 => ?_⟩
  · exact lessAt_negTrans hO _ hS' (show a < _ by omega) (hge j (by omega) (by omega))
      (hle i hi (by omega))
  · cases hki : lessAt less r.1 k i
    · rfl
    · have h1 := lessAt_of_lt_of_not_lt hO _ hS' (show a < _ by omega) hki (hle i hi1 hi2)
      rw [hge k (by omega) hk2] at h1
      cases h1

end GoSort

end Codegen

namespace Codegen

namespace GoSort

variable {α : Type} {less : α → α → Bool} {S : α → Prop}

/-! ## Heap sort -/

theorem siftDown_spec (hO : WeakOrderOn less S) (hi first lo : Nat) :
    ∀ (fuel root : Nat) (d : List α), hi ≤ root + fuel → lo ≤ root →
      first + hi ≤ d.length → (∀ x ∈ d, S x) →
      (∀ r, lo ≤ r → r < hi → r ≠ root → HeapAt less hi first d r) →
      (∀ c, c = 2 * root + 1 ∨ c = 2 * root + 2 → c < hi →
        ∀ g, lo ≤ g → root = 2 * g + 1 ∨ root = 2 * g + 2 →
          lessAt less d (first + g) (first + c) = false) →
      RangePerm (first + lo) (first + hi) d (siftDown_func less hi first fuel root d) ∧
        ∀ r, lo ≤ r → r < hi →
          HeapAt less hi first (siftDown_func less hi first fuel root d) r
  | 0, root, d, hf, _, _, _, h1, _ => by
    refine ⟨RangePerm.refl _, fun r hr1 hr2 => ?_⟩
    exact h1 r hr1 hr2 (by omega)
  | fuel + 1, root, d, hf, hlo, hlen, hS, h1, h2 => by
    unfold siftDown_func
    simp only
    by_cases hch : 2 * root + 1 ≥ hi
    · rw [if_pos hch]
      refine ⟨RangePerm.refl _, fun r hr1 hr2 => ?_⟩
      by_cases hr : r = root
      · subst hr
        intro c hc hc'
        omega
      · exact h1 r hr1 hr2 hr
    · rw [if_neg hch]
      -- the greater child
      have hc1 : ∃ c1, (if 2 * root + 1 + 1 < hi ∧
            lessAt less d (first + (2 * root + 1)) (first + (2 * root + 1) + 1) = true
          then 2 * root + 1 + 1 else 2 * root + 1) = c1 ∧
          (c1 = 2 * root + 1 ∨ c1 = 2 * root + 2) ∧ c1 < hi ∧
          ∀ c, c = 2 * root + 1 ∨ c = 2 * root + 2 → c < hi →
            lessAt less d (first + c1) (first + c) = false := by
        by_cases hcond : 2 * root + 1 + 1 < hi ∧
            lessAt less d (first + (2 * root + 1)) (first + (2 * root + 1) + 1) = true
        · refine ⟨2 * root + 2, by rw [if_pos hcond], Or.inr rfl, by omega, fun c hc hc' => ?_⟩
          rcases hc with e | e
          · subst e
            have := lessAt_asymm hO d hS hcond.2
            rw [show first + (2 * root + 1) + 1 = first + (2 * root + 2) by omega] at this
            exact this
          · subst e
            exact lessAt_irrefl hO d hS _
        · refine ⟨2 * root + 1, by rw [if_neg hcond], Or.inl rfl, by omega, fun c hc hc' => ?_⟩
          rcases hc with e | e
          · subst e
            exact lessAt_irrefl hO d hS _
          · subst e
            cases hv : lessAt less d (first + (2 * root + 1)) (first + (2 * root + 2))
            · rfl
            · exfalso
              apply hcond
              refine ⟨by omega, ?_⟩
              rw [show first + (2 * root + 1) + 1 = first + (2 * root + 2) by omega]
              exact hv
      obtain ⟨c1, hc1e, hc1c, hc1lt, hc1max⟩ := hc1
      rw [hc1e]
      by_cases hcmp : lessAt less d (first + root) (first + c1) = true
      · have hnot : ¬ ((!lessAt less d (first + root) (first + c1)) = true) := by
          rw [hcmp]; simp
        rw [if_neg hnot]
        have hrl : first + root < d.length := by omega
        have hcl : first + c1 < d.length := by omega
        have ih := siftDown_spec hO hi first lo fuel c1
          (swap d (first + root) (first + c1)) (by omega) (by omega)
          (by rw [swap_length]; exact hlen) (fun x hx => hS x ((mem_swap _ _ _ _).1 hx)) ?_ ?_
        · exact ⟨(RangePerm.swap d _ _ (by omega) (by omega) (by omega) (by omega)).trans ih.1,
            ih.2⟩
        · intro r hr1 hr2 hr c hc hc'
          rw [lessAt_swap less d (first + root) (first + c1) _ _ hrl hcl]
          by_cases hrr : r = root
          · subst hrr
            rw [if_neg (show first + r ≠ first + c1 by omega), if_pos rfl]
            by_cases hcc : c = c1
            · subst hcc
              rw [if_pos rfl]
              exact lessAt_asymm hO d hS hcmp
            · rw [if_neg (show first + c ≠ first + c1 by omega),
                if_neg (show first + c ≠ first + r by omega)]
              exact hc1max c hc hc'
          · rw [if_neg (show first + r ≠ first + c1 by omega),
              if_neg (show first + r ≠ first + root by omega),
              if_neg (show first + c ≠ first + c1 by omega)]
            by_cases hcr : c = root
            · rw [if_pos (show first + c = first + root by omega)]
              exact h2 c1 hc1c hc1lt r hr1 (by omega)
            · rw [if_neg (show first + c ≠ first + root by omega)]
              exact h1 r hr1 hr2 hrr c hc hc'
        · intro c hc hc' g hg hgc
          have hg' : g = root := by omega
          subst hg'
          rw [lessAt_swap less d (first + g) (first + c1) _ _ hrl hcl]
          rw [if_neg (show first + g ≠ first + c1 by omega), if_pos rfl,
            if_neg (show first + c ≠ first + c1 by omega),
            if_neg (show first + c ≠ first + g by omega)]
          exact h1 c1 (by omega) hc1lt (by omega) c hc hc'
      · have hcmp' : lessAt less d (first + root) (first + c1) = false := by
          cases h : lessAt less d (first + root) (first + c1)
          · rfl
          · exact absurd h hcmp
        have hyes : (!lessAt less d (first + root) (first + c1)) = true := by
          rw [hcmp']; rfl
        rw [if_pos hyes]
        refine ⟨RangePerm.refl _, fun r hr1 hr2 => ?_⟩
        by_cases hr : r = root
        · subst hr
          intro c hc hc'
          exact lessAt_negTrans hO d hS (by omega) hcmp' (hc1max c hc hc')
        · exact h1 r hr1 hr2 hr

theorem heapBuild_spec (hO : WeakOrderOn less S) (hi first : Nat) :
    ∀ (m : Nat) (d : List α), first + hi ≤ d.length → (∀ x ∈ d, S x) →
      (∀ r, m ≤ r → r < hi → HeapAt less hi first d r) →
      RangePerm first (first + hi) d (heapBuild less hi first m d) ∧
        ∀ r, r < hi → HeapAt less hi first (heapBuild less hi first m d) r
  | 0, d, _, _, h => ⟨RangePerm.refl _, fun r hr => h r (Nat.zero_le r) hr⟩
  | i + 1, d, hlen, hS, h => by
    unfold heapBuild
    have h1 := siftDown_spec hO hi first i hi i d (by omega) (Nat.le_refl i) hlen hS
      (fun r hr1 hr2 hr3 => h r (by omega) hr2)
      (fun c _ _ g hg hgc => by omega)
    have h2 := heapBuild_spec hO hi first i (siftDown_func less hi first hi i d)
      (by rw [h1.1.length_eq]; exact hlen) (h1.1.forall_mem hS) h1.2
    exact ⟨(h1.1.mono (by omega) (Nat.le_refl _)).trans h2.1, h2.2⟩

/-- The root of a heap is not less than any of its nodes. -/
theorem heap_root_max (hO : WeakOrderOn less S) (hi first : Nat) (d : List α)
    (hlen : first + hi ≤ d.length) (hS : ∀ x ∈ d, S x)
    (h : ∀ r, r < hi → HeapAt less hi first d r) :
    ∀ r, r < hi → lessAt less d first (first + r) = false := by
  intro r
  induction r using Nat.strong_induction_on with
  | _ r ih =>
    intro hr
    by_cases h0 : r = 0
    · subst h0
      exact lessAt_irrefl hO d hS _
    · have hg : (r - 1) / 2 < r := by omega
      have hpar := h ((r - 1) / 2) (by omega) r (by omega) hr
      exact lessAt_negTrans hO d hS (show first + (r - 1) / 2 < d.length by omega)
        (ih _ hg (by omega)) hpar

theorem heapPop_spec (hO : WeakOrderOn less S) (first hi0 : Nat) :
    ∀ (m : Nat) (d : List α), m ≤ hi0 → first + hi0 ≤ d.length → (∀ x ∈ d, S x) →
      (∀ r, r < m → HeapAt less m first d r) →
      SortedOn less d (first + m) (first + hi0) →
      (∀ k q, first ≤ k → k < first + m → first + m ≤ q → q < first + hi0 →
        lessAt less d q k = false) →
      RangePerm first (first + hi0) d (heapPop less first m d) ∧
        SortedOn less (heapPop less first m d) first (first + hi0)
  | 0, d, _, _, _, _, hT, _ => ⟨RangePerm.refl _, hT⟩
  | i + 1, d, hm, hlen, hS, hH, hT, hC => by
    unfold heapPop
    have hmax := heap_root_max hO (i + 1) first d (by omega) hS hH
    have hfl : first < d.length := by omega
    have hil : first + i < d.length := by omega
    have hS1 : ∀ x ∈ swap d first (first + i), S x := fun x hx => hS x ((mem_swap _ _ _ _).1 hx)
    have hlen1 : (swap d first (first + i)).length = d.length := swap_length _ _ _
    -- the tail, one longer, is sorted
    have hT1 : SortedOn less (swap d first (first + i)) (first + i) (first + hi0) := by
      intro p q hp hpq hq
      rw [lessAt_swap less d first (first + i) q p hfl hil]
      rw [if_neg (show q ≠ first + i by omega), if_neg (show q ≠ first by omega)]
      by_cases hpi : p = first + i
      · rw [if_pos hpi]
        exact hC first q (Nat.le_refl _) (by omega) (by omega) hq
      · rw [if_neg hpi, if_neg (show p ≠ first by omega)]
        exact hT p q (by omega) hpq hq
    -- the heap, one shorter, is below the tail
    have hC1 : ∀ k q, first ≤ k → k < first + i → first + i ≤ q → q < first + hi0 →
        lessAt less (swap d first (first + i)) q k = false := by
      intro k q hk1 hk2 hq1 hq2
      rw [lessAt_swap less d first (first + i) q k hfl hil]
      rw [if_neg (show k ≠ first + i by omega)]
      by_cases hqi : q = first + i
      · rw [if_pos hqi]
        by_cases hk : k = first
        · rw [if_pos hk]
          exact hmax i (by omega)
        · rw [if_neg hk]
          have := hmax (k - first) (by omega)
          rw [show first + (k - first) = k by omega] at this
          exact this
      · rw [if_neg hqi, if_neg (show q ≠ first by omega)]
        by_cases hk : k = first
        · rw [if_pos hk]
          exact hC (first + i) q (by omega) (by omega) (by omega) hq2
        · rw [if_neg hk]
          exact hC k q hk1 (by omega) (by omega) hq2
    have h1 := siftDown_spec hO i first 0 i 0 (swap d first (first + i)) (by omega)
      (Nat.le_refl 0) (by omega) hS1
      (fun r _ hr2 hr3 c hc hc' => by
        rw [lessAt_swap less d first (first + i) _ _ hfl hil]
        rw [if_neg (show first + r ≠ first + i by omega),
          if_neg (show first + r ≠ first by omega),
          if_neg (show first + c ≠ first + i by omega),
          if_neg (show first + c ≠ first by omega)]
        exact hH r (by omega) c hc (by omega))
      (fun c _ _ g _ hgc => by omega)
    rw [Nat.add_zero] at h1
    have h2 := heapPop_spec hO first hi0 i (siftDown_func less i first i 0
      (swap d first (first + i))) (by omega) (by rw [h1.1.length_eq, hlen1]; exact hlen)
      (h1.1.forall_mem hS1) (fun r hr => h1.2 r (Nat.zero_le r) hr)
      (hT1.rangePerm_outside h1.1 (Or.inr (Nat.le_refl _)))
      (fun k q hk1 hk2 hq1 hq2 =>
        h1.1.forall_right q (by omega) false
          (fun k' hk1' hk2' => hC1 k' q hk1' hk2' hq1 hq2) k hk1 hk2)
    exact ⟨((RangePerm.swap d first (first + i) (Nat.le_refl _) (by omega) (by omega)
      (by omega)).trans (h1.1.mono (Nat.le_refl _) (by omega))).trans h2.1, h2.2⟩

theorem heapSort_func_spec (hO : WeakOrderOn less S) (data : List α) (a b : Nat)
    (hab : a ≤ b) (hb : b ≤ data.length) (hS : ∀ x ∈ data, S x) :
    RangePerm a b data (heapSort_func less data a b) ∧
      SortedOn less (heapSort_func less data a b) a b := by
  unfold heapSort_func
  have h1 := heapBuild_spec hO (b - a) a ((b - a - 1) / 2 + 1) data (by omega) hS
    (fun r hr1 hr2 c hc hc' => by omega)
  have h2 := heapPop_spec hO a (b - a) (b - a)
    (heapBuild less (b - a) a ((b - a - 1) / 2 + 1) data) (Nat.le_refl _)
    (by rw [h1.1.length_eq]; omega) (h1.1.forall_mem hS) h1.2
    (fun p q hp hpq hq => by omega) (fun k q _ hk2 hq1 hq2 => by omega)
  rw [show a + (b - a) = b by omega] at h1 h2
  exact ⟨h1.1.trans h2.1, h2.2⟩

end GoSort

end Codegen

namespace Codegen

namespace GoSort

variable {α : Type} {less : α → α → Bool} {S : α → Prop}

/-! ## Reversal and pattern breaking -/

theorem reverseLoop_rangePerm (a b : Nat) : ∀ (n i j : Nat) (d : List α), a ≤ i → j < b →
    RangePerm a b d (reverseLoop n i j d)
  | 0, _, _, d, _, _ => RangePerm.refl _
  | n + 1, i, j, d, hi, hj => by
    unfold reverseLoop
    by_cases h : i < j
    · rw [if_pos h]
      exact (RangePerm.swap d i j hi (by omega) (by omega) hj).trans
        (reverseLoop_rangePerm a b n (i + 1) (j - 1) _ (by omega) (by omega))
    · rw [if_neg h]
      exact RangePerm.refl _

theorem reverseRange_func_rangePerm (data : List α) (a b : Nat) (hab : a < b) :
    RangePerm a b data (reverseRange_func data a b) :=
  reverseLoop_rangePerm a b (b - a) a (b - 1) data (Nat.le_refl a) (by omega)

theorem bitsLenAux_zero (fuel : Nat) : bitsLenAux fuel 0 = 0 := by
  cases fuel <;> simp [bitsLenAux]

theorem two_pow_bitsLenAux_le : ∀ (fuel n : Nat), n ≤ fuel → 1 ≤ n →
    2 ^ bitsLenAux fuel n ≤ 2 * n
  | 0, n, h1, h2 => by omega
  | fuel + 1, n, h1, h2 => by
    unfold bitsLenAux
    rw [if_neg (show n ≠ 0 by omega), Nat.pow_succ]
    by_cases h : n / 2 = 0
    · rw [h, bitsLenAux_zero]
      omega
    · have ih := two_pow_bitsLenAux_le fuel (n / 2) (by omega) (by omega)
      omega

theorem nextPowerOfTwo_le (n : Nat) (h : 1 ≤ n) : nextPowerOfTwo n ≤ 2 * n :=
  two_pow_bitsLenAux_le n n (Nat.le_refl n) h

theorem bitsLenAux_pos : ∀ (fuel n : Nat), n ≤ fuel → 1 ≤ n → 0 < bitsLenAux fuel n
  | 0, n, h1, h2 => by omega
  | fuel + 1, n, h1, h2 => by
    unfold bitsLenAux
    rw [if_neg (show n ≠ 0 by omega)]
    omega

theorem bitsLen_pos (n : Nat) (h : 1 ≤ n) : 0 < bitsLen n :=
  bitsLenAux_pos n n (Nat.le_refl n) h

theorem breakLoop_rangePerm (a b length modulus idx : Nat) (hm : modulus ≤ 2 * length)
    (hm0 : 0 < modulus) (hl : a + length = b) (hidx1 : a ≤ idx) (hidx2 : idx + 2 < b) :
    ∀ (n i random : Nat) (d : List α), i + n ≤ 3 →
      RangePerm a b d (breakLoop a length modulus idx n i random d)
  | 0, _, _, d, _ => RangePerm.refl _
  | n + 1, i, random, d, hin => by
    unfold breakLoop
    simp only
    have hother : xorshiftNext random &&& (modulus - 1) ≤ modulus - 1 := Nat.and_le_right
    refine (RangePerm.swap d _ _ ?_ ?_ ?_ ?_).trans
      (breakLoop_rangePerm a b length modulus idx hm hm0 hl hidx1 hidx2 n (i + 1) _ _ (by omega))
    · omega
    · omega
    · omega
    · split <;> omega

theorem breakPatterns_func_rangePerm (data : List α) (a b : Nat) (hab : a ≤ b) :
    RangePerm a b data (breakPatterns_func data a b) := by
  unfold breakPatterns_func
  simp only
  by_cases h : b - a ≥ 8
  · rw [if_pos h]
    have hpos : 0 < nextPowerOfTwo (b - a) := by
      unfold nextPowerOfTwo
      exact Nat.two_pow_pos _
    exact breakLoop_rangePerm a b (b - a) (nextPowerOfTwo (b - a)) (a + (b - a) / 4 * 2 - 1)
      (nextPowerOfTwo_le _ (by omega)) hpos (by omega) (by omega) (by omega) 3 0 _ data
      (by omega)
  · rw [if_neg h]
    exact RangePerm.refl _

/-! ## The choice of the pivot -/

theorem order2_func_cases (less : α → α → Bool) (data : List α) (a b s : Nat) :
    ((order2_func less data a b s).1 = a ∧ (order2_func less data a b s).2.1 = b) ∨
    ((order2_func less data a b s).1 = b ∧ (order2_func less data a b s).2.1 = a) := by
  unfold order2_func
  split
  · exact Or.inr ⟨rfl, rfl⟩
  · exact Or.inl ⟨rfl, rfl⟩

theorem median_func_mem (less : α → α → Bool) (data : List α) (a b c s : Nat) :
    (median_func less data a b c s).1 = a ∨ (median_func less data a b c s).1 = b ∨
      (median_func less data a b c s).1 = c := by
  unfold median_func
  simp only
  have h1 := order2_func_cases less data a b s
  generalize order2_func less data a b s = r1 at h1 ⊢
  have h2 := order2_func_cases less data r1.2.1 c r1.2.2
  generalize order2_func less data r1.2.1 c r1.2.2 = r2 at h2 ⊢
  have h3 := order2_func_cases less data r1.1 r2.1 r2.2.2
  generalize order2_func less data r1.1 r2.1 r2.2.2 = r3 at h3 ⊢
  omega

theorem median_func_bounds (less : α → α → Bool) (data : List α) (a b c s lo hi : Nat)
    (ha : lo ≤ a ∧ a < hi) (hb : lo ≤ b ∧ b < hi) (hc : lo ≤ c ∧ c < hi) :
    lo ≤ (median_func less data a b c s).1 ∧ (median_func less data a b c s).1 < hi := by
  rcases median_func_mem less data a b c s with h | h | h <;> rw [h] <;> assumption

theorem choosePivot_func_bounds (less : α → α → Bool) (data : List α) (a b : Nat)
    (h : 12 < b - a) :
    a ≤ (choosePivot_func less data a b).1 ∧ (choosePivot_func less data a b).1 < b := by
  have key : ∀ r : Nat × Nat, (a ≤ r.1 ∧ r.1 < b) →
      a ≤ (if r.2 = 0 then (r.1, SortedHint.increasingHint)
        else if r.2 = 12 then (r.1, SortedHint.decreasingHint)
        else (r.1, SortedHint.unknownHint)).1 ∧
      (if r.2 = 0 then (r.1, SortedHint.increasingHint)
        else if r.2 = 12 then (r.1, SortedHint.decreasingHint)
        else (r.1, SortedHint.unknownHint)).1 < b := by
    intro r hr
    split
    · exact hr
    · split <;> exact hr
  unfold choosePivot_func
  simp only
  apply key
  rw [if_pos (show b - a ≥ 8 by omega)]
  by_cases h50 : b - a ≥ 50
  · rw [if_pos h50]
    apply median_func_bounds
    · exact median_func_bounds less data _ _ _ _ a b (by omega) (by omega) (by omega)
    · exact median_func_bounds less data _ _ _ _ a b (by omega) (by omega) (by omega)
    · exact median_func_bounds less data _ _ _ _ a b (by omega) (by omega) (by omega)
  · rw [if_neg h50]
    exact median_func_bounds less data _ _ _ _ a b (by omega) (by omega) (by omega)

/-! ## Partial insertion sort -/

theorem shiftGreater_rangePerm (lo hi : Nat) : ∀ (n j : Nat) (d : List α), lo < j →
    j + n ≤ hi → RangePerm lo hi d (shiftGreater less n j d)
  | 0, _, d, _, _ => RangePerm.refl _
  | n + 1, j, d, hj, hn => by
    unfold shiftGreater
    split
    · exact RangePerm.refl _
    · exact (RangePerm.swap d j (j - 1) (by omega) (by omega) (by omega) (by omega)).trans
        (shiftGreater_rangePerm lo hi n (j + 1) _ (by omega) (by omega))

theorem sortedOn_extend (hO : WeakOrderOn less S) (d : List α) (hS : ∀ x ∈ d, S x) (a i : Nat) :
    ∀ m, i + m ≤ d.length → SortedOn less d a i →
      (∀ k, i ≤ k → k < i + m → lessAt less d k (k - 1) = false) → SortedOn less d a (i + m)
  | 0, _, h, _ => h
  | m + 1, hlen, h, hadj => by
    have ih := sortedOn_extend hO d hS a i m (by omega) h (fun k h1 h2 => hadj k h1 (by omega))
    intro p q hp hpq hq
    by_cases hq' : q < i + m
    · exact ih p q hp hpq hq'
    · have hqe : q = i + m := by omega
      by_cases hqi : q < i
      · exact h p q hp hpq hqi
      · have h1 := hadj q (by omega) (by omega)
        by_cases hpe : p = q - 1
        · rw [hpe]; exact h1
        · have h2 : lessAt less d (q - 1) p = false := by
            by_cases hq1 : q - 1 < i + m
            · exact ih p (q - 1) hp (by omega) hq1
            · omega
          exact lessAt_negTrans hO d hS (by omega) h1 h2

theorem partialInsertionLoop_spec (hO : WeakOrderOn less S) (a b : Nat) :
    ∀ (steps i : Nat) (d : List α), a < i → i ≤ b → b ≤ d.length → (∀ x ∈ d, S x) →
      LeftBound less a b d → SortedOn less d a i →
      RangePerm a b d (partialInsertionLoop less a b steps i d).1 ∧
        ((partialInsertionLoop less a b steps i d).2 = true →
          SortedOn less (partialInsertionLoop less a b steps i d).1 a b)
  | 0, i, d, _, _, _, _, _, _ => ⟨RangePerm.refl _, fun h => by simp [partialInsertionLoop] at h⟩
  | steps + 1, i, d, hai, hib, hlen, hS, hB, hsorted => by
    unfold partialInsertionLoop
    simp only
    obtain ⟨u1, u2, u3, u4⟩ := scanUp_spec (fun k => !lessAt less d k (k - 1)) (b - i) i
    generalize scanUp (fun k => !lessAt less d k (k - 1)) (b - i) i = i1 at u1 u2 u3 u4 ⊢
    have hs1 : SortedOn less d a i1 := by
      have := sortedOn_extend hO d hS a i (i1 - i) (by omega) hsorted
        (fun k h1 h2 => by
          have := u3 k h1 (by omega)
          simpa using this)
      rw [show i + (i1 - i) = i1 by omega] at this
      exact this
    by_cases he : i1 = b
    · rw [if_pos he]
      exact ⟨RangePerm.refl _, fun _ => he ▸ hs1⟩
    · rw [if_neg he]
      by_cases h50 : b - a < 50
      · rw [if_pos h50]
        exact ⟨RangePerm.refl _, fun h => by simp at h⟩
      · rw [if_neg h50]
        have hp1 : RangePerm a b d (swap d i1 (i1 - 1)) :=
          RangePerm.swap d i1 (i1 - 1) (by omega) (by omega) (by omega) (by omega)
        have hS1 := hp1.forall_mem hS
        have hl1 : (swap d i1 (i1 - 1)).length = d.length := swap_length _ _ _
        have hB1 : LeftBound less a b (swap d i1 (i1 - 1)) := hB.rangePerm hp1
        -- the smaller element goes left into the sorted prefix
        have hd2 : ∃ d2, (if i1 - a ≥ 2 then insertionInner less 0 (i1 - 1) (swap d i1 (i1 - 1))
            else swap d i1 (i1 - 1)) = d2 ∧ RangePerm a b (swap d i1 (i1 - 1)) d2 ∧
            SortedOn less d2 a i1 := by
          have hpre : SortedOn less (swap d i1 (i1 - 1)) a (i1 - 1) := by
            intro p q hp hpq hq
            rw [lessAt_swap less d i1 (i1 - 1) q p (by omega) (by omega),
              if_neg (show q ≠ i1 - 1 by omega), if_neg (show q ≠ i1 by omega),
              if_neg (show p ≠ i1 - 1 by omega), if_neg (show p ≠ i1 by omega)]
            exact hs1 p q hp hpq (by omega)
          by_cases h2 : i1 - a ≥ 2
          · rw [if_pos h2]
            have := insertionInner_spec hO 0 a (i1 - 1) (i1 - 1) (swap d i1 (i1 - 1))
              (Nat.zero_le a) (by omega) (Nat.le_refl _) (by omega) hS1
              (fun ha k hk1 hk2 => hB1 ha k hk1 (by omega)) hpre
              (fun p q hp hpq hq => by omega) (fun p q _ hp hq hq' => by omega)
              (fun q hq hq' => by omega)
            rw [show i1 - 1 + 1 = i1 by omega] at this
            exact ⟨_, rfl, this.1.mono (Nat.le_refl a) (by omega), this.2⟩
          · rw [if_neg h2]
            exact ⟨_, rfl, RangePerm.refl _, fun p q hp hpq hq => by omega⟩
        obtain ⟨d2, hd2e, hp2, hs2⟩ := hd2
        rw [hd2e]
        -- the greater element goes right
        have hd3 : ∃ d3, (if b - i1 ≥ 2 then shiftGreater less (b - (i1 + 1)) (i1 + 1) d2
            else d2) = d3 ∧ RangePerm i1 b d2 d3 := by
          by_cases h2 : b - i1 ≥ 2
          · rw [if_pos h2]
            exact ⟨_, rfl, shiftGreater_rangePerm i1 b _ _ d2 (by omega) (by omega)⟩
          · rw [if_neg h2]
            exact ⟨_, rfl, RangePerm.refl _⟩
        obtain ⟨d3, hd3e, hp3⟩ := hd3
        rw [hd3e]
        have hp : RangePerm a b d d3 := (hp1.trans hp2).trans (hp3.mono (by omega) (Nat.le_refl b))
        have ih := partialInsertionLoop_spec hO a b steps i1 d3 (by omega) (by omega)
          (by rw [hp.length_eq]; exact hlen) (hp.forall_mem hS) (hB.rangePerm hp)
          (hs2.rangePerm_outside hp3 (Or.inl (Nat.le_refl _)))
        exact ⟨hp.trans ih.1, ih.2⟩

theorem partialInsertionSort_func_spec (hO : WeakOrderOn less S) (data : List α)
    (a b : Nat) (hab : a < b) (hb : b ≤ data.length) (hS : ∀ x ∈ data, S x)
    (hB : LeftBound less a b data) :
    RangePerm a b data (partialInsertionSort_func less data a b).1 ∧
      ((partialInsertionSort_func less data a b).2 = true →
        SortedOn less (partialInsertionSort_func less data a b).1 a b) :=
  partialInsertionLoop_spec hO a b 5 (a + 1) data (by omega) (by omega) hb hS hB
    (fun p q hp hpq hq => by omega)

end GoSort

end Codegen

namespace Codegen

namespace GoSort

variable {α : Type} {less : α → α → Bool} {S : α → Prop}

/-! ## The quicksort loop -/

/-- A range is sorted when its two parts around `mid` are sorted, nothing
before `mid` is greater than the element at `mid` and nothing after it is
less. -/
theorem sortedOn_of_parts (hO : WeakOrderOn less S) (d : List α) (hS : ∀ x ∈ d, S x)
    (a mid b : Nat) (hmid : mid < d.length)
    (h1 : SortedOn less d a mid) (h2 : SortedOn less d (mid + 1) b)
    (hL : ∀ k, a ≤ k → k < mid → lessAt less d mid k = false)
    (hR : ∀ k, mid < k → k < b → lessAt less d k mid = false) : SortedOn less d a b := by
  intro p q hp hpq hq
  by_cases hq1 : q < mid
  · exact h1 p q hp hpq hq1
  · by_cases hp1 : mid < p
    · exact h2 p q (by omega) hpq hq
    · by_cases hqm : q = mid
      · subst hqm; exact hL p hp (by omega)
      · by_cases hpm : p = mid
        · subst hpm; exact hR q (by omega) hq
        · exact lessAt_negTrans hO d hS hmid (hR q (by omega) hq) (hL p hp (by omega))

theorem pdqsort_func_spec (hO : WeakOrderOn less S) :
    ∀ (fuel : Nat) (data : List α) (a b limit : Nat) (wb wp : Bool), a ≤ b →
      b ≤ data.length → b - a < fuel → (∀ x ∈ data, S x) → LeftBound less a b data →
      RangePerm a b data (pdqsort_func less fuel data a b limit wb wp) ∧
        SortedOn less (pdqsort_func less fuel data a b limit wb wp) a b
  | 0, data, a, b, limit, wb, wp, _, _, hf, _, _ => by omega
  | fuel + 1, data, a, b, limit, wb, wp, hab, hb, hf, hS, hB => by
    unfold pdqsort_func
    simp only
    by_cases h12 : b - a ≤ 12
    · rw [if_pos h12]
      exact insertionSort_func_spec hO data a b hb hS
    rw [if_neg h12]
    by_cases hl : limit = 0
    · rw [if_pos hl]
      exact heapSort_func_spec hO data a b hab hb hS
    rw [if_neg hl]
    -- the slice after the patterns are broken
    have hd1 : RangePerm a b data
        (if (!wb) = true then breakPatterns_func data a b else data) := by
      split
      · exact breakPatterns_func_rangePerm data a b hab
      · exact RangePerm.refl _
    generalize (if (!wb) = true then breakPatterns_func data a b else data) = d1 at hd1 ⊢
    generalize (if (!wb) = true then limit - 1 else limit) = limit1
    -- the pivot
    have hph := choosePivot_func_bounds less d1 a b (by omega)
    generalize choosePivot_func less d1 a b = ph at hph ⊢
    have hd2 : RangePerm a b d1
        (if ph.2 = SortedHint.decreasingHint then reverseRange_func d1 a b else d1) := by
      split
      · exact reverseRange_func_rangePerm d1 a b (by omega)
      · exact RangePerm.refl _
    generalize (if ph.2 = SortedHint.decreasingHint then reverseRange_func d1 a b else d1)
      = d2 at hd2 ⊢
    have hpiv : a ≤ (if ph.2 = SortedHint.decreasingHint then b - 1 - (ph.1 - a) else ph.1) ∧
        (if ph.2 = SortedHint.decreasingHint then b - 1 - (ph.1 - a) else ph.1) < b := by
      split <;> omega
    generalize (if ph.2 = SortedHint.decreasingHint then b - 1 - (ph.1 - a) else ph.1)
      = pivot at hpiv ⊢
    generalize (if ph.2 = SortedHint.decreasingHint then SortedHint.increasingHint else ph.2)
      = hint
    have hp02 : RangePerm a b data d2 := hd1.trans hd2
    have hS2 := hp02.forall_mem hS
    have hl2 : d2.length = data.length := hp02.length_eq
    have hB2 : LeftBound less a b d2 := hB.rangePerm hp02
    -- the attempt to finish by a few insertions
    have hpr : RangePerm a b d2
          (if wb = true ∧ wp = true ∧ hint = SortedHint.increasingHint then
            partialInsertionSort_func less d2 a b else (d2, false)).1 ∧
        ((if wb = true ∧ wp = true ∧ hint = SortedHint.increasingHint then
            partialInsertionSort_func less d2 a b else (d2, false)).2 = true →
          SortedOn less (if wb = true ∧ wp = true ∧ hint = SortedHint.increasingHint then
            partialInsertionSort_func less d2 a b else (d2, false)).1 a b) := by
      split
      · exact partialInsertionSort_func_spec hO d2 a b (by omega) (by omega) hS2 hB2
      · exact ⟨RangePerm.refl _, fun h => by simp at h⟩
    generalize (if wb = true ∧ wp = true ∧ hint = SortedHint.increasingHint then
      partialInsertionSort_func less d2 a b else (d2, false)) = pr at hpr ⊢
    have hp0r : RangePerm a b data pr.1 := hp02.trans hpr.1
    have hSr := hp0r.forall_mem hS
    have hlr : pr.1.length = data.length := hp0r.length_eq
    have hBr : LeftBound less a b pr.1 := hB.rangePerm hp0r
    by_cases hdone : pr.2 = true
    · rw [if_pos hdone]
      exact ⟨hp0r, hpr.2 hdone⟩
    rw [if_neg hdone]
    by_cases heq : a > 0 ∧ (!lessAt less pr.1 (a - 1) pivot) = true
    · rw [if_pos heq]
      have hnl : lessAt less pr.1 (a - 1) pivot = false := by
        have := heq.2
        simpa using this
      obtain ⟨e1, e2, e3, e4, e5⟩ := partitionEqual_func_spec hO pr.1 a b pivot heq.1
        hpiv.1 hpiv.2 (by omega) hSr hBr hnl
      generalize partitionEqual_func less pr.1 a b pivot = me at e1 e2 e3 e4 e5 ⊢
      have hpm : RangePerm a b data me.1 := hp0r.trans e1
      have ih := pdqsort_func_spec hO fuel me.1 me.2 b limit1 wb wp e3
        (by rw [hpm.length_eq]; exact hb) (by omega) (hpm.forall_mem hS)
        (fun _ k hk1 hk2 => e5 (me.2 - 1) k (by omega) (by omega) hk1 hk2)
      refine ⟨hpm.trans (ih.1.mono (by omega) (Nat.le_refl b)), ?_⟩
      intro p q hp hpq hq
      by_cases hq1 : q < me.2
      · exact (e4.rangePerm_outside ih.1 (Or.inl (Nat.le_refl _))) p q hp hpq hq1
      · by_cases hp1 : me.2 ≤ p
        · exact ih.2 p q hp1 hpq hq
        · exact ih.1.forall_left p (by omega) false
            (fun k hk1 hk2 => e5 p k hp (by omega) hk1 hk2) q (by omega) hq
    rw [if_neg heq]
    obtain ⟨t1, t2, t3, t4, t5⟩ := partition_func_spec less pr.1 a b pivot hpiv.1
      hpiv.2 (by omega)
    generalize partition_func less pr.1 a b pivot = pt at t1 t2 t3 t4 t5 ⊢
    have hpt : RangePerm a b data pt.1 := hp0r.trans t1
    have hSt := hpt.forall_mem hS
    have hlt : pt.1.length = data.length := hpt.length_eq
    have hBt : LeftBound less a b pt.1 := hB.rangePerm hpt
    have hL : ∀ k, a ≤ k → k < pt.2.1 → lessAt less pt.1 pt.2.1 k = false :=
      fun k hk1 hk2 => lessAt_asymm hO pt.1 hSt (t4 k hk1 hk2)
    by_cases hside : pt.2.1 - a < b - pt.2.1
    · rw [if_pos hside]
      have ih1 := pdqsort_func_spec hO fuel pt.1 a pt.2.1 limit1 true true t2 (by omega)
        (by omega) hSt (hBt.sub (by omega))
      generalize pdqsort_func less fuel pt.1 a pt.2.1 limit1 true true = r1 at ih1 ⊢
      have hS1 := ih1.1.forall_mem hSt
      have hl1 : r1.length = pt.1.length := ih1.1.length_eq
      have hR1 : ∀ k, pt.2.1 < k → k < b → lessAt less r1 k pt.2.1 = false := by
        intro k hk1 hk2
        rw [ih1.1.lessAt_outside k pt.2.1 (by omega) (by omega)]
        exact t5 k hk1 hk2
      have hL1 : ∀ k, a ≤ k → k < pt.2.1 → lessAt less r1 pt.2.1 k = false :=
        ih1.1.forall_right pt.2.1 (by omega) false hL
      have ih2 := pdqsort_func_spec hO fuel r1 (pt.2.1 + 1) b limit1
        (decide (pt.2.1 - a ≥ (b - a) / 8)) pt.2.2 (by omega) (by omega) (by omega) hS1
        (fun _ k hk1 hk2 => by
          rw [show pt.2.1 + 1 - 1 = pt.2.1 by omega]
          exact hR1 k (by omega) hk2)
      generalize pdqsort_func less fuel r1 (pt.2.1 + 1) b limit1
        (decide (pt.2.1 - a ≥ (b - a) / 8)) pt.2.2 = r2 at ih2 ⊢
      refine ⟨(hpt.trans (ih1.1.mono (Nat.le_refl a) (by omega))).trans
        (ih2.1.mono (by omega) (Nat.le_refl b)), ?_⟩
      apply sortedOn_of_parts hO r2 (ih2.1.forall_mem hS1) a pt.2.1 b
        (by rw [ih2.1.length_eq]; omega)
        (ih1.2.rangePerm_outside ih2.1 (Or.inl (by omega))) ih2.2
      · intro k hk1 hk2
        rw [ih2.1.lessAt_outside pt.2.1 k (by omega) (by omega)]
        exact hL1 k hk1 hk2
      · intro k hk1 hk2
        exact ih2.1.forall_left pt.2.1 (by omega) false
          (fun k' hk1' hk2' => hR1 k' (by omega) hk2') k (by omega) hk2
    · rw [if_neg hside]
      have ih1 := pdqsort_func_spec hO fuel pt.1 (pt.2.1 + 1) b limit1 true true (by omega)
        (by omega) (by omega) hSt
        (fun _ k hk1 hk2 => by
          rw [show pt.2.1 + 1 - 1 = pt.2.1 by omega]
          exact t5 k (by omega) hk2)
      generalize pdqsort_func less fuel pt.1 (pt.2.1 + 1) b limit1 true true = r1 at ih1 ⊢
      have hS1 := ih1.1.forall_mem hSt
      have hl1 : r1.length = pt.1.length := ih1.1.length_eq
      have hR1 : ∀ k, pt.2.1 < k → k < b → lessAt less r1 k pt.2.1 = false :=
        fun k hk1 hk2 => ih1.1.forall_left pt.2.1 (by omega) false
          (fun k' hk1' hk2' => t5 k' (by omega) hk2') k (by omega) hk2
      have hL1 : ∀ k, a ≤ k → k < pt.2.1 → lessAt less r1 pt.2.1 k = false := by
        intro k hk1 hk2
        rw [ih1.1.lessAt_outside pt.2.1 k (by omega) (by omega)]
        exact hL k hk1 hk2
      have ih2 := pdqsort_func_spec hO fuel r1 a pt.2.1 limit1
        (decide (b - pt.2.1 ≥ (b - a) / 8)) pt.2.2 t2 (by omega) (by omega) hS1
        ((hBt.rangePerm_sub ih1.1 (by omega) (Nat.le_refl b)).sub (by omega))
      generalize pdqsort_func less fuel r1 a pt.2.1 limit1
        (decide (b - pt.2.1 ≥ (b - a) / 8)) pt.2.2 = r2 at ih2 ⊢
      refine ⟨(hpt.trans (ih1.1.mono (by omega) (Nat.le_refl b))).trans
        (ih2.1.mono (Nat.le_refl a) (by omega)), ?_⟩
      apply sortedOn_of_parts hO r2 (ih2.1.forall_mem hS1) a pt.2.1 b
        (by rw [ih2.1.length_eq]; omega) ih2.2
        (ih1.2.rangePerm_outside ih2.1 (Or.inr (by omega)))
      · exact ih2.1.forall_right pt.2.1 (by omega) false hL1
      · intro k hk1 hk2
        rw [ih2.1.lessAt_outside k pt.2.1 (by omega) (by omega)]
        exact hR1 k hk1 hk2


end GoSort

end Codegen

namespace Codegen

namespace GoSort

variable {α : Type} {less : α → α → Bool} {S : α → Prop}

/-! ## `sort.Slice` -/

/-- When `less` is a strict weak ordering on the elements of the slice,
`sort.Slice` rearranges the slice so that no element is less than an element
before it. -/
theorem Slice_perm_sorted (hO : WeakOrderOn less S) (x : List α) (hS : ∀ e ∈ x, S e) :
    (Slice x less).Perm x ∧ (Slice x less).Pairwise (fun u v => less v u = false) := by
  have h : RangePerm 0 x.length x (Slice x less) ∧ SortedOn less (Slice x less) 0 x.length :=
    pdqsort_func_spec hO (x.length + 1) x 0 x.length (bitsLen x.length) true true
      (Nat.zero_le _) (Nat.le_refl _) (by omega) hS (fun h0 => by omega)
  refine ⟨h.1.perm, ?_⟩
  rw [List.pairwise_iff_getElem]
  intro i j hi hj hij
  have hlen : (Slice x less).length = x.length := h.1.length_eq
  have := h.2 i j (Nat.zero_le i) hij (by omega)
  rw [lessAt_eq less _ j i hj hi] at this
  exact this

/-! ## A comparison that is never true -/

theorem lessAt_of_never (x : List α) (h : ∀ u ∈ x, ∀ v ∈ x, less u v = false) (i j : Nat) :
    lessAt less x i j = false := by
  cases hv : lessAt less x i j
  · rfl
  · have hi := lessAt_lt_left less x i j hv
    have hj := lessAt_lt_right less x i j hv
    rw [lessAt_eq less x i j hi hj, h _ (List.getElem_mem hi) _ (List.getElem_mem hj)] at hv
    cases hv

theorem insertionInner_of_never (x : List α) (h : ∀ i j, lessAt less x i j = false) (a j : Nat) :
    insertionInner less a j x = x := by
  cases j with
  | zero => rfl
  | succ j => simp [insertionInner, h]

theorem insertionOuter_of_never (x : List α) (h : ∀ i j, lessAt less x i j = false) (a : Nat) :
    ∀ n i, insertionOuter less a n i x = x
  | 0, _ => rfl
  | n + 1, i => by
    unfold insertionOuter
    rw [insertionInner_of_never x h, insertionOuter_of_never x h a n (i + 1)]

theorem scanUp_of_always (p : Nat → Bool) (hp : ∀ k, p k = true) :
    ∀ n i, scanUp p n i = i + n
  | 0, _ => rfl
  | n + 1, i => by
    unfold scanUp
    rw [if_pos (hp i), scanUp_of_always p hp n (i + 1)]
    omega

theorem order2_func_of_never (x : List α) (h : ∀ i j, lessAt less x i j = false)
    (a b s : Nat) : order2_func less x a b s = (a, b, s) := by
  simp [order2_func, h]

theorem median_func_of_never (x : List α) (h : ∀ i j, lessAt less x i j = false)
    (a b c s : Nat) : median_func less x a b c s = (b, s) := by
  simp [median_func, order2_func_of_never x h]

theorem choosePivot_func_of_never (x : List α) (h : ∀ i j, lessAt less x i j = false)
    (a b : Nat) : (choosePivot_func less x a b).2 = SortedHint.increasingHint := by
  unfold choosePivot_func
  simp only [medianAdjacent_func, median_func_of_never x h]
  split_ifs <;> simp_all

/-- When `less` is false on all pairs of elements of the slice, `sort.Slice`
leaves the slice as it is. -/
theorem Slice_of_never (x : List α) (h : ∀ u ∈ x, ∀ v ∈ x, less u v = false) :
    Slice x less = x := by
  have hl := lessAt_of_never x h
  unfold Slice pdqsort_func
  simp only
  by_cases h12 : x.length - 0 ≤ 12
  · rw [if_pos h12]
    exact insertionOuter_of_never x hl 0 _ _
  · rw [if_neg h12]
    have hlim : bitsLen x.length ≠ 0 := by
      have := bitsLen_pos x.length (by omega)
      omega
    rw [if_neg hlim]
    simp only [Bool.not_true, Bool.false_eq_true, if_false, choosePivot_func_of_never x hl,
      SortedHint.decreasingHint, reduceCtorEq, and_self, if_true]
    have : partialInsertionSort_func less x 0 x.length = (x, true) := by
      unfold partialInsertionSort_func partialInsertionLoop
      simp only
      rw [scanUp_of_always _ (fun k => by simp [hl])]
      rw [if_pos (by omega)]
    simp [this]

end GoSort

end Codegen

namespace Codegen

/-! ## The loop over the declarations -/

theorem generateDecls_pos : ∀ (ds : List Decl) (i : Nat) (e : Emitter), i > 0 →
    generateDecls ds i e = generateRest ds e
  | [], _, _, _ => rfl
  | d :: ds, i, e, h => by
    simp only [generateDecls, generateRest, if_pos h]
    congr 1
    funext e1
    exact generateDecls_pos ds (i + 1) e1 (by omega)

theorem generateDecls_cons (d : Decl) (ds : List Decl) (e : Emitter) :
    generateDecls (d :: ds) 0 e = (d.Generate e).bind (generateRest ds) := by
  simp only [generateDecls]
  rw [if_neg (by omega)]
  congr 1
  funext e1
  exact generateDecls_pos ds 1 e1 (by omega)

theorem renderSteps_cons_cons (d d1 : Decl) (ds : List Decl) :
    renderSteps (d :: d1 :: ds) =
      RenderStep.decl d :: RenderStep.newline :: renderSteps (d1 :: ds) := by
  simp [renderSteps, List.intersperse]

theorem runSteps_renderSteps : ∀ (ds : List Decl) (d : Decl) (e : Emitter),
    runSteps (renderSteps (d :: ds)) e = (d.Generate e).bind (generateRest ds)
  | [], d, e => by
    simp only [renderSteps, List.map, List.intersperse, runSteps, RenderStep.run, generateRest]
  | d1 :: ds, d, e => by
    rw [renderSteps_cons_cons]
    simp only [runSteps, RenderStep.run, generateRest]
    congr 1
    funext e1
    exact runSteps_renderSteps ds d1 e1.Newline

theorem generateDecls_eq_runSteps (ds : List Decl) (e : Emitter) :
    generateDecls ds 0 e = runSteps (renderSteps ds) e := by
  cases ds with
  | nil => rfl
  | cons d ds => rw [generateDecls_cons, runSteps_renderSteps]

theorem renderSteps_decls : ∀ ds : List Decl,
    (renderSteps ds).filterMap RenderStep.decl? = ds
  | [] => rfl
  | [d] => rfl
  | d :: d1 :: ds => by
    rw [renderSteps_cons_cons]
    simp only [List.filterMap_cons, RenderStep.decl?]
    rw [renderSteps_decls (d1 :: ds)]

theorem renderSteps_newlines : ∀ ds : List Decl,
    (renderSteps ds).countP RenderStep.isNewline = ds.length - 1
  | [] => rfl
  | [d] => rfl
  | d :: d1 :: ds => by
    rw [renderSteps_cons_cons]
    simp only [List.countP_cons, RenderStep.isNewline]
    rw [renderSteps_newlines (d1 :: ds)]
    simp

/-- `Generate` of a package is the run of the steps of its sorted
declarations, after the package clause, the imports and the newline that
follows them. -/
theorem Package_Generate_eq_runSteps (p : Package) (e : Emitter) :
    p.Generate e = runSteps (renderSteps p.sorted)
      (p.Imports.foldl (fun o i => i.Generate o)
        ((e.Comment p.Comment).Println ("package " ++ p.Name))).Newline := by
  rw [← generateDecls_eq_runSteps]
  rfl

end Codegen

namespace Codegen

/-! ## The order of the declarations -/

theorem strLess_iff (a b : String) : strLess a b = true ↔ a < b := by
  unfold strLess
  rw [decide_eq_true_iff]
  exact String.lt_iff_toList_lt.symm

theorem strLess_eq_false_iff (a b : String) : strLess a b = false ↔ b ≤ a := by
  rw [← not_lt, ← strLess_iff]
  simp

theorem declLess_of_names (x y : Decl) (a b : String) (hx : x.GetName = some a)
    (hy : y.GetName = some b) : declLess x y = strLess a b := by
  simp [declLess, hx, hy]

theorem declLess_eq_true (x y : Decl) (h : declLess x y = true) :
    ∃ a b, x.GetName = some a ∧ y.GetName = some b ∧ a < b := by
  unfold declLess at h
  split at h
  · rename_i a ha
    split at h
    · rename_i b hb
      exact ⟨a, b, ha, hb, (strLess_iff a b).1 h⟩
    · cases h
  · cases h

/-- On declarations that implement `Named` the comparison of `Generate` is a
strict weak ordering. -/
theorem declLess_weakOrder : GoSort.WeakOrderOn declLess (fun d => d.GetName ≠ none) where
  irrefl := by
    intro x hx
    obtain ⟨a, ha⟩ := Option.ne_none_iff_exists'.1 hx
    rw [declLess_of_names x x a a ha ha, strLess_eq_false_iff]
  trans := by
    intro x y z _ _ _ h1 h2
    obtain ⟨a, b, ha, hb, hab⟩ := declLess_eq_true x y h1
    obtain ⟨b', c, hb', hc, hbc⟩ := declLess_eq_true y z h2
    rw [hb] at hb'
    cases hb'
    rw [declLess_of_names x z a c ha hc, strLess_iff]
    exact lt_trans hab hbc
  negTrans := by
    intro x y z hx hy hz h1 h2
    obtain ⟨a, ha⟩ := Option.ne_none_iff_exists'.1 hx
    obtain ⟨b, hb⟩ := Option.ne_none_iff_exists'.1 hy
    obtain ⟨c, hc⟩ := Option.ne_none_iff_exists'.1 hz
    rw [declLess_of_names x y a b ha hb, strLess_eq_false_iff] at h1
    rw [declLess_of_names y z b c hb hc, strLess_eq_false_iff] at h2
    rw [declLess_of_names x z a c ha hc, strLess_eq_false_iff]
    exact le_trans h2 h1

theorem sorted_ascending (l : List Decl) (hnamed : ∀ d ∈ l, d.GetName ≠ none)
    (hdistinct : (l.map Decl.GetName).Nodup) :
    (GoSort.Slice l declLess).Perm l ∧
      (GoSort.Slice l declLess).Pairwise
        (fun x y => ∃ a b, x.GetName = some a ∧ y.GetName = some b ∧ a < b) := by
  obtain ⟨hp, hs⟩ := GoSort.Slice_perm_sorted declLess_weakOrder l hnamed
  refine ⟨hp, ?_⟩
  have hnd : ((GoSort.Slice l declLess).map Decl.GetName).Nodup :=
    (hp.map Decl.GetName).nodup_iff.2 hdistinct
  rw [List.Nodup, List.pairwise_map] at hnd
  have hall : ∀ d ∈ GoSort.Slice l declLess, d.GetName ≠ none :=
    fun d hd => hnamed d (hp.mem_iff.1 hd)
  have hboth := hs.and hnd
  refine hboth.imp_of_mem ?_
  intro x y hx hy h
  obtain ⟨hle, hne⟩ := h
  obtain ⟨a, ha⟩ := Option.ne_none_iff_exists'.1 (hall x hx)
  obtain ⟨b, hb⟩ := Option.ne_none_iff_exists'.1 (hall y hy)
  refine ⟨a, b, ha, hb, ?_⟩
  rw [declLess_of_names y x b a hb ha, strLess_eq_false_iff] at hle
  rcases lt_or_eq_of_le hle with h | h
  · exact h
  · exact absurd (by rw [ha, hb, h]) hne

/-- C1: when all declarations of a package implement `Named` and their names
are pairwise distinct, `Generate` runs, after the package clause and
the imports, `Generate` of each declaration once, with a newline between
them, in a sequence that holds the declarations of the package and is strictly
ascending by `GetName()`; a package with the same declarations added in
another order runs the same sequence. -/
theorem rendered_ascending_by_name (p : Package)
    (hnamed : ∀ d ∈ p.Decls, d.GetName ≠ none)
    (hdistinct : (p.Decls.map Decl.GetName).Nodup) :
    (∀ e : Emitter, p.Generate e = runSteps (renderSteps p.sorted)
      (p.Imports.foldl (fun o i => i.Generate o)
        ((e.Comment p.Comment).Println ("package " ++ p.Name))).Newline) ∧
    ((renderSteps p.sorted).filterMap RenderStep.decl?).Perm p.Decls ∧
    ((renderSteps p.sorted).filterMap RenderStep.decl?).Pairwise
      (fun x y => ∃ a b, x.GetName = some a ∧ y.GetName = some b ∧ a < b) ∧
    p.sorted.Perm p.Decls ∧
    p.sorted.Pairwise (fun x y => ∃ a b, x.GetName = some a ∧ y.GetName = some b ∧ a < b) ∧
    ∀ q : Package, q.Decls.Perm p.Decls →
      q.sorted = p.sorted ∧
      q.sorted.map Decl.GetName = p.sorted.map Decl.GetName ∧
      ∀ e : Emitter, q.Generate e = runSteps (renderSteps p.sorted)
        (q.Imports.foldl (fun o i => i.Generate o)
          ((e.Comment q.Comment).Println ("package " ++ q.Name))).Newline := by
  obtain ⟨hp, hs⟩ := sorted_ascending p.Decls hnamed hdistinct
  have hq : ∀ q : Package, q.Decls.Perm p.Decls → q.sorted = p.sorted := by
    intro q hq
    obtain ⟨hp', hs'⟩ := sorted_ascending q.Decls (fun d hd => hnamed d (hq.mem_iff.1 hd))
      ((hq.map Decl.GetName).nodup_iff.2 hdistinct)
    have hperm : q.sorted.Perm p.sorted := (hp'.trans hq).trans hp.symm
    haveI : IsAntisymm Decl (fun x y => ∃ a b, x.GetName = some a ∧ y.GetName = some b ∧ a < b) :=
      ⟨fun u v h1 h2 => by
        obtain ⟨a, b, ha, hb, hab⟩ := h1
        obtain ⟨b', a', hb', ha', hba⟩ := h2
        rw [ha] at ha'
        rw [hb] at hb'
        cases ha'
        cases hb'
        exact absurd hab (lt_asymm hba)⟩
    exact List.eq_of_perm_of_sorted hperm hs' hs
  refine ⟨Package_Generate_eq_runSteps p, ?_, ?_, hp, hs, fun q h => ⟨hq q h, ?_, fun e => ?_⟩⟩
  · rw [renderSteps_decls]
    exact hp
  · rw [renderSteps_decls]
    exact hs
  · rw [hq q h]
  · rw [← hq q h]
    exact Package_Generate_eq_runSteps q e

/-- Witness of C1: the type declarations `B` and `A`, added in this order,
are rendered `A` before `B`. -/
theorem rendered_ascending_by_name_witness :
    (∀ d ∈ packageBA.Decls, d.GetName ≠ none) ∧
    (packageBA.Decls.map Decl.GetName).Nodup ∧
    packageBA.Decls.map Decl.GetName = [some "B", some "A"] ∧
    packageBA.sorted.map Decl.GetName = [some "A", some "B"] ∧
    (packageBA.Generate {}).map Emitter.out =
      some "package pkg\n\ntype A int\n\ntype B int\n".toList ∧
    ((renderSteps packageBA.sorted).filterMap RenderStep.decl?).Pairwise
      (fun x y => ∃ a b, x.GetName = some a ∧ y.GetName = some b ∧ a < b) :=
  ⟨by decide, by decide, by decide, by decide, by decide,
    (rendered_ascending_by_name packageBA (by decide) (by decide)).2.2.1⟩

/-- C2 fails on the code: for the type declaration `B`, a fragment and the
type declaration `A`, added in this order, the comparison is false in both
directions between the fragment and each type declaration, `sort.Slice` swaps
nothing, and `B` is rendered before `A`. -/
theorem named_not_sorted_across_fragment :
    packageBFragmentA.Decls.map Decl.GetName = [some "B", none, some "A"] ∧
    packageBFragmentA.sorted.map Decl.GetName = [some "B", none, some "A"] ∧
    (packageBFragmentA.Generate {}).map Emitter.out =
      some "package pkg\n\ntype B int\n\n// f\n\ntype A int\n".toList := by
  decide

/-- C3: when no declaration of a package implements `Named`, whatever the
length of the list, `Generate` runs, after the package clause and
the imports, `Generate` of each declaration once, with a newline between
them, in the order in which the declarations were added. -/
theorem unnamed_keep_insertion_order (p : Package) (h : ∀ d ∈ p.Decls, d.GetName = none) :
    p.sorted = p.Decls ∧
    (∀ e : Emitter, p.Generate e = runSteps (renderSteps p.Decls)
      (p.Imports.foldl (fun o i => i.Generate o)
        ((e.Comment p.Comment).Println ("package " ++ p.Name))).Newline) ∧
    (renderSteps p.Decls).filterMap RenderStep.decl? = p.Decls := by
  have hs : p.sorted = p.Decls := by
    apply GoSort.Slice_of_never
    intro u hu v _
    simp [declLess, h u hu]
  refine ⟨hs, fun e => ?_, renderSteps_decls _⟩
  rw [← hs]
  exact Package_Generate_eq_runSteps p e

/-- Witness of C3: two fragments, added `f1` then `f2`, are rendered `f1`
then `f2`. -/
theorem unnamed_keep_insertion_order_witness :
    (∀ d ∈ packageTwoFragments.Decls, d.GetName = none) ∧
    packageTwoFragments.sorted = packageTwoFragments.Decls ∧
    (packageTwoFragments.Generate {}).map Emitter.out =
      some "package pkg\n\n// f1\n\n// f2\n".toList :=
  ⟨by decide, (unnamed_keep_insertion_order packageTwoFragments (by decide)).1, by decide⟩

/-- C4 fails on the code: in a package of thirteen declarations, a fragment
followed by the type declarations `L` down to `A`, the fragment is added
first and rendered eighth. -/
theorem unnamed_moved_in_long_package :
    packageThirteen.Decls.map Decl.GetName =
      [none, some "L", some "K", some "J", some "I", some "H", some "G", some "F", some "E",
        some "D", some "C", some "B", some "A"] ∧
    packageThirteen.sorted.map Decl.GetName =
      [some "A", some "B", some "C", some "D", some "E", some "F", some "G", none, some "H",
        some "I", some "J", some "K", some "L"] := by
  decide

end Codegen

namespace Codegen

namespace GoSort

variable {α : Type} {less : α → α → Bool}

/-! ## `sort.Slice` permutes, whatever the comparison

For a comparison that is no ordering the swaps of the loops need not stay
inside the range they work on, but each of them is still a swap of two
elements of the slice. -/

theorem insertionInner_perm (a : Nat) : ∀ (j : Nat) (d : List α),
    (insertionInner less a j d).Perm d
  | 0, d => List.Perm.refl _
  | j + 1, d => by
    unfold insertionInner
    split
    · exact (insertionInner_perm a j _).trans (swap_perm d _ _)
    · exact List.Perm.refl _

theorem insertionOuter_perm (a : Nat) : ∀ (n i : Nat) (d : List α),
    (insertionOuter less a n i d).Perm d
  | 0, _, d => List.Perm.refl _
  | n + 1, i, d => by
    unfold insertionOuter
    exact (insertionOuter_perm a n (i + 1) _).trans (insertionInner_perm a i d)

theorem insertionSort_func_perm (d : List α) (a b : Nat) :
    (insertionSort_func less d a b).Perm d :=
  insertionOuter_perm a _ _ d

theorem siftDown_func_perm (hi first : Nat) : ∀ (fuel root : Nat) (d : List α),
    (siftDown_func less hi first fuel root d).Perm d
  | 0, _, d => List.Perm.refl _
  | fuel + 1, root, d => by
    unfold siftDown_func
    simp only
    by_cases h1 : 2 * root + 1 ≥ hi
    · rw [if_pos h1]
    · rw [if_neg h1]
      generalize (if 2 * root + 1 + 1 < hi ∧
        lessAt less d (first + (2 * root + 1)) (first + (2 * root + 1) + 1) = true
        then 2 * root + 1 + 1 else 2 * root + 1) = c1
      by_cases h2 : (!lessAt less d (first + root) (first + c1)) = true
      · rw [if_pos h2]
      · rw [if_neg h2]
        exact (siftDown_func_perm hi first fuel _ _).trans (swap_perm d _ _)

theorem heapBuild_perm (hi first : Nat) : ∀ (m : Nat) (d : List α),
    (heapBuild less hi first m d).Perm d
  | 0, d => List.Perm.refl _
  | i + 1, d => by
    unfold heapBuild
    exact (heapBuild_perm hi first i _).trans (siftDown_func_perm hi first hi i d)

theorem heapPop_perm (first : Nat) : ∀ (m : Nat) (d : List α),
    (heapPop less first m d).Perm d
  | 0, d => List.Perm.refl _
  | i + 1, d => by
    unfold heapPop
    exact ((heapPop_perm first i _).trans (siftDown_func_perm i first i 0 _)).trans
      (swap_perm d _ _)

theorem heapSort_func_perm (d : List α) (a b : Nat) : (heapSort_func less d a b).Perm d :=
  (heapPop_perm a _ _).trans (heapBuild_perm _ a _ d)

theorem reverseLoop_perm : ∀ (n i j : Nat) (d : List α), (reverseLoop n i j d).Perm d
  | 0, _, _, d => List.Perm.refl _
  | n + 1, i, j, d => by
    unfold reverseLoop
    split
    · exact (reverseLoop_perm n _ _ _).trans (swap_perm d _ _)
    · exact List.Perm.refl _

theorem reverseRange_func_perm (d : List α) (a b : Nat) : (reverseRange_func d a b).Perm d :=
  reverseLoop_perm _ _ _ d

theorem breakLoop_perm (a length modulus idx : Nat) : ∀ (n i random : Nat) (d : List α),
    (breakLoop a length modulus idx n i random d).Perm d
  | 0, _, _, d => List.Perm.refl _
  | n + 1, i, random, d => by
    unfold breakLoop
    exact (breakLoop_perm a length modulus idx n _ _ _).trans (swap_perm d _ _)

theorem breakPatterns_func_perm (d : List α) (a b : Nat) :
    (breakPatterns_func d a b).Perm d := by
  unfold breakPatterns_func
  simp only
  split
  · exact breakLoop_perm _ _ _ _ _ _ _ d
  · exact List.Perm.refl _

theorem shiftGreater_perm : ∀ (n j : Nat) (d : List α), (shiftGreater less n j d).Perm d
  | 0, _, d => List.Perm.refl _
  | n + 1, j, d => by
    unfold shiftGreater
    split
    · exact List.Perm.refl _
    · exact (shiftGreater_perm n _ _).trans (swap_perm d _ _)

theorem partialInsertionLoop_perm (a b : Nat) : ∀ (steps i : Nat) (d : List α),
    (partialInsertionLoop less a b steps i d).1.Perm d
  | 0, _, d => List.Perm.refl _
  | steps + 1, i, d => by
    unfold partialInsertionLoop
    simp only
    split
    · exact List.Perm.refl _
    · split
      · exact List.Perm.refl _
      · refine (partialInsertionLoop_perm a b steps _ _).trans ?_
        have h1 : ∀ (c : Prop) [Decidable c] (x : List α),
            (if c then insertionInner less 0 (scanUp (fun k => !lessAt less d k (k - 1))
              (b - i) i - 1) x else x).Perm x := by
          intro c _ x
          split
          · exact insertionInner_perm 0 _ x
          · exact List.Perm.refl _
        have h2 : ∀ (c : Prop) [Decidable c] (n j : Nat) (x : List α),
            (if c then shiftGreater less n j x else x).Perm x := by
          intro c _ n j x
          split
          · exact shiftGreater_perm n j x
          · exact List.Perm.refl _
        exact ((h2 _ _ _ _).trans (h1 _ _)).trans (swap_perm d _ _)

theorem partialInsertionSort_func_perm (d : List α) (a b : Nat) :
    (partialInsertionSort_func less d a b).1.Perm d :=
  partialInsertionLoop_perm a b 5 (a + 1) d

theorem partitionLoop_perm (a : Nat) : ∀ (n i j : Nat) (d : List α),
    (partitionLoop less a n i j d).1.Perm d
  | 0, _, _, d => List.Perm.refl _
  | n + 1, i, j, d => by
    unfold partitionLoop
    simp only
    split
    · exact List.Perm.refl _
    · exact (partitionLoop_perm a n _ _ _).trans (swap_perm d _ _)

theorem partition_func_perm (d : List α) (a b pivot : Nat) :
    (partition_func less d a b pivot).1.Perm d := by
  unfold partition_func
  simp only
  split
  · exact (swap_perm _ _ _).trans (swap_perm d _ _)
  · exact ((swap_perm _ _ _).trans (partitionLoop_perm a _ _ _ _)).trans
      ((swap_perm _ _ _).trans (swap_perm d _ _))

theorem partitionEqualLoop_perm (a : Nat) : ∀ (n i j : Nat) (d : List α),
    (partitionEqualLoop less a n i j d).1.Perm d
  | 0, _, _, d => List.Perm.refl _
  | n + 1, i, j, d => by
    unfold partitionEqualLoop
    simp only
    split
    · exact List.Perm.refl _
    · exact (partitionEqualLoop_perm a n _ _ _).trans (swap_perm d _ _)

theorem partitionEqual_func_perm (d : List α) (a b pivot : Nat) :
    (partitionEqual_func less d a b pivot).1.Perm d :=
  (partitionEqualLoop_perm a _ _ _ _).trans (swap_perm d _ _)

theorem pdqsort_func_perm : ∀ (fuel : Nat) (d : List α) (a b limit : Nat) (wb wp : Bool),
    (pdqsort_func less fuel d a b limit wb wp).Perm d
  | 0, d, _, _, _, _, _ => List.Perm.refl _
  | fuel + 1, d, a, b, limit, wb, wp => by
    unfold pdqsort_func
    simp only
    by_cases h12 : b - a ≤ 12
    · rw [if_pos h12]
      exact insertionSort_func_perm d a b
    rw [if_neg h12]
    by_cases hl : limit = 0
    · rw [if_pos hl]
      exact heapSort_func_perm d a b
    rw [if_neg hl]
    have hd1 : (if (!wb) = true then breakPatterns_func d a b else d).Perm d := by
      split
      · exact breakPatterns_func_perm d a b
      · exact List.Perm.refl _
    generalize (if (!wb) = true then breakPatterns_func d a b else d) = d1 at hd1 ⊢
    generalize (if (!wb) = true then limit - 1 else limit) = limit1
    generalize choosePivot_func less d1 a b = ph
    have hd2 : (if ph.2 = SortedHint.decreasingHint then reverseRange_func d1 a b
        else d1).Perm d1 := by
      split
      · exact reverseRange_func_perm d1 a b
      · exact List.Perm.refl _
    generalize (if ph.2 = SortedHint.decreasingHint then reverseRange_func d1 a b else d1)
      = d2 at hd2 ⊢
    generalize (if ph.2 = SortedHint.decreasingHint then b - 1 - (ph.1 - a) else ph.1) = pivot
    generalize (if ph.2 = SortedHint.decreasingHint then SortedHint.increasingHint else ph.2)
      = hint
    have hpr : (if wb = true ∧ wp = true ∧ hint = SortedHint.increasingHint then
        partialInsertionSort_func less d2 a b else (d2, false)).1.Perm d2 := by
      split
      · exact partialInsertionSort_func_perm d2 a b
      · exact List.Perm.refl _
    generalize (if wb = true ∧ wp = true ∧ hint = SortedHint.increasingHint then
      partialInsertionSort_func less d2 a b else (d2, false)) = pr at hpr ⊢
    have h0 : pr.1.Perm d := (hpr.trans hd2).trans hd1
    by_cases hdone : pr.2 = true
    · rw [if_pos hdone]
      exact h0
    rw [if_neg hdone]
    by_cases heq : a > 0 ∧ (!lessAt less pr.1 (a - 1) pivot) = true
    · rw [if_pos heq]
      exact (pdqsort_func_perm fuel _ _ _ _ _ _).trans
        ((partitionEqual_func_perm pr.1 a b pivot).trans h0)
    rw [if_neg heq]
    have hpt := (@partition_func_perm α less pr.1 a b pivot).trans h0
    generalize partition_func less pr.1 a b pivot = pt at hpt ⊢
    by_cases hside : pt.2.1 - a < b - pt.2.1
    · rw [if_pos hside]
      exact ((pdqsort_func_perm fuel _ _ _ _ _ _).trans
        (pdqsort_func_perm fuel _ _ _ _ _ _)).trans hpt
    · rw [if_neg hside]
      exact ((pdqsort_func_perm fuel _ _ _ _ _ _).trans
        (pdqsort_func_perm fuel _ _ _ _ _ _)).trans hpt

/-- Whatever the comparison, `sort.Slice` returns a permutation of the
slice. -/
theorem Slice_perm (x : List α) (less : α → α → Bool) : (Slice x less).Perm x :=
  pdqsort_func_perm _ x _ _ _ _ _

/-! ## Elements that compare with nothing, in short slices -/

theorem insertionInner_fixed (a : Nat) (k : Nat) (x : α)
    (hx : ∀ y, less x y = false ∧ less y x = false) : ∀ (j : Nat) (d : List α),
    d[k]? = some x → (insertionInner less a j d)[k]? = some x
  | 0, d, h => h
  | j + 1, d, h => by
    unfold insertionInner
    split
    · rename_i hc
      have hlt := hc.2
      have h1 := lessAt_lt_left less d _ _ hlt
      have h2 := lessAt_lt_right less d _ _ hlt
      rw [lessAt_eq less d _ _ h1 h2] at hlt
      have hk1 : k ≠ j + 1 := by
        intro e
        subst e
        rw [List.getElem?_eq_getElem h1] at h
        cases h
        rw [(hx _).1] at hlt
        cases hlt
      have hk2 : k ≠ j := by
        intro e
        subst e
        rw [List.getElem?_eq_getElem h2] at h
        cases h
        rw [(hx _).2] at hlt
        cases hlt
      apply insertionInner_fixed a k x hx j
      rw [getElem?_swap_of_ne d _ _ k hk1 hk2]
      exact h
    · exact h

theorem insertionOuter_fixed (a : Nat) (k : Nat) (x : α)
    (hx : ∀ y, less x y = false ∧ less y x = false) : ∀ (n i : Nat) (d : List α),
    d[k]? = some x → (insertionOuter less a n i d)[k]? = some x
  | 0, _, d, h => h
  | n + 1, i, d, h => by
    unfold insertionOuter
    exact insertionOuter_fixed a k x hx n (i + 1) _ (insertionInner_fixed a k x hx i d h)

/-- In a slice of at most 12 elements, which `sort.Slice` hands to insertion
sort, an element that is neither less nor greater than anything stays at its
index. -/
theorem Slice_fixed_of_short (l : List α) (hl : l.length ≤ 12) (k : Nat) (x : α)
    (hx : ∀ y, less x y = false ∧ less y x = false) (h : l[k]? = some x) :
    (Slice l less)[k]? = some x := by
  unfold Slice pdqsort_func
  simp only
  rw [if_pos (by omega)]
  exact insertionOuter_fixed 0 k x hx _ _ l h

end GoSort

/-- In a package of at most 12 declarations every declaration that does not
implement `Named` is rendered at the index at which it was added: it has that
index in the sequence of declarations whose `Generate` the package runs. -/
theorem unnamed_fixed_in_short_package (p : Package) (hlen : p.Decls.length ≤ 12) (k : Nat)
    (d : Decl) (hk : p.Decls[k]? = some d) (hd : d.GetName = none) :
    p.sorted[k]? = some d ∧
    ((renderSteps p.sorted).filterMap RenderStep.decl?)[k]? = some d ∧
    ∀ e : Emitter, p.Generate e = runSteps (renderSteps p.sorted)
      (p.Imports.foldl (fun o i => i.Generate o)
        ((e.Comment p.Comment).Println ("package " ++ p.Name))).Newline := by
  have hs : p.sorted[k]? = some d := by
    apply GoSort.Slice_fixed_of_short p.Decls hlen k d _ hk
    intro y
    constructor
    · simp [declLess, hd]
    · unfold declLess
      split
      · rw [hd]
      · rfl
  refine ⟨hs, ?_, Package_Generate_eq_runSteps p⟩
  rw [renderSteps_decls]
  exact hs

/-- The fragment between the type declarations `B` and `A` stays second. -/
theorem unnamed_fixed_in_short_package_witness :
    packageBFragmentA.Decls.length ≤ 12 ∧
    (packageBFragmentA.Decls[1]?).map Decl.GetName = some none ∧
    (packageBFragmentA.sorted[1]?).map Decl.GetName = some none :=
  ⟨by decide, by decide, by
    rw [(unnamed_fixed_in_short_package packageBFragmentA (by decide) 1 (noteFragment "f")
      rfl rfl).1]
    rfl⟩

end Codegen

namespace Codegen

/-! ## Formats without a verb -/

theorem doPrintf_of_no_percent : ∀ (s : List Char) (n : Nat), s.length ≤ n → '%' ∉ s →
    Fmt.doPrintf n s = s
  | [], 0, _, _ => rfl
  | [], _ + 1, _, _ => rfl
  | c :: cs, 0, h, _ => by simp at h
  | c :: cs, n + 1, h, hc => by
    have hne : c ≠ '%' := fun e => hc (by simp [e])
    simp only [Fmt.doPrintf, if_neg hne]
    rw [doPrintf_of_no_percent cs n (by simpa using h) (fun e => hc (by simp [e]))]

/-- A format without `%` is written as it is. -/
theorem Sprintf_of_no_percent (s : String) (h : '%' ∉ s.toList) : Fmt.Sprintf s = s := by
  unfold Fmt.Sprintf
  rw [doPrintf_of_no_percent s.toList s.length (le_refl _) h]
  rfl

/-! ## The turns of `doPrintf` -/

theorem parsenumLoop_length : ∀ (s : List Char) (num : Nat) (isnum : Bool)
    (r : Nat × Bool × List Char), Fmt.parsenumLoop s num isnum = some r →
    r.2.2.length ≤ s.length
  | [], num, isnum, r, h => by
    simp only [Fmt.parsenumLoop, Option.some.injEq] at h
    subst h
    simp
  | c :: cs, num, isnum, r, h => by
    unfold Fmt.parsenumLoop at h
    by_cases hd : 48 ≤ c.toNat ∧ c.toNat ≤ 57
    · rw [if_pos hd] at h
      by_cases ht : Fmt.tooLarge num = true
      · rw [if_pos ht] at h
        cases h
      · rw [if_neg ht] at h
        have := parsenumLoop_length cs _ _ r h
        simp only [List.length_cons]
        omega
    · rw [if_neg hd, Option.some.injEq] at h
      subst h
      simp

theorem parsenum_length (s : List Char) : (Fmt.parsenum s).2.2.length ≤ s.length := by
  unfold Fmt.parsenum
  cases h : Fmt.parsenumLoop s 0 false with
  | none => simp
  | some r => exact parsenumLoop_length s 0 false r h

theorem parseArgNumber_length (s : List Char) : (Fmt.parseArgNumber s).1.length ≤ s.length := by
  unfold Fmt.parseArgNumber
  simp only
  split
  · simp
  · split
    · simp
    · split <;> simp

theorem argNumber_length (s : List Char) : (Fmt.argNumber s).1.length ≤ s.length := by
  unfold Fmt.argNumber
  split
  · exact parseArgNumber_length _
  · exact le_refl _

theorem verbWidth_length (s : List Char) (a b : Bool) :
    (Fmt.verbWidth s a b).2.1.length ≤ s.length := by
  unfold Fmt.verbWidth
  split
  · simp
  · exact parsenum_length _

theorem verbPrecision_length (s : List Char) (a b : Bool) :
    (Fmt.verbPrecision s a b).2.1.length ≤ s.length := by
  unfold Fmt.verbPrecision
  split
  · rename_i r
    have h1 := argNumber_length r
    split
    · rename_i r2 h2
      rw [h2] at h1
      simp only [List.length_cons] at h1 ⊢
      omega
    · have h3 := parsenum_length (Fmt.argNumber r).1
      simp only [List.length_cons]
      omega
  · exact le_refl _

theorem verbChar_length (s : List Char) (a b : Bool) :
    (Fmt.verbChar s a b).2.length ≤ s.length := by
  unfold Fmt.verbChar
  simp only
  have h1 : (if a = true then s else (Fmt.argNumber s).1).length ≤ s.length := by
    split
    · exact le_refl _
    · exact argNumber_length s
  generalize (if a = true then s else (Fmt.argNumber s).1) = s1 at h1 ⊢
  generalize (if a = true then b else b || (Fmt.argNumber s).2.2) = b1
  cases s1 with
  | nil => simp
  | cons c rest =>
    simp only [List.length_cons] at h1
    simp only
    by_cases hc : c = '%'
    · rw [if_pos hc]
      simp only
      omega
    · rw [if_neg hc]
      by_cases hb : b1 = true
      · rw [if_pos hb]
        simp only
        omega
      · rw [if_neg hb]
        simp only
        omega

/-- A verb takes nothing back: what is left of the format after it is not
longer than what was there before it. -/
theorem verb_length (s : List Char) : (Fmt.verb s).2.length ≤ s.length := by
  unfold Fmt.verb
  simp only
  have h0 : (s.dropWhile Fmt.isFlag).length ≤ s.length :=
    (List.dropWhile_sublist _).length_le
  have h1 := argNumber_length (s.dropWhile Fmt.isFlag)
  generalize Fmt.argNumber (s.dropWhile Fmt.isFlag) = a at h1 ⊢
  have h2 := verbWidth_length a.1 a.2.1 a.2.2
  generalize Fmt.verbWidth a.1 a.2.1 a.2.2 = w at h2 ⊢
  have h3 := verbPrecision_length w.2.1 w.2.2.1 w.2.2.2
  generalize Fmt.verbPrecision w.2.1 w.2.2.1 w.2.2.2 = p at h3 ⊢
  have h4 := verbChar_length p.2.1 p.2.2.1 p.2.2.2
  omega

/-- The length of the format is enough turns for `doPrintf`: with more
turns the result is the same. -/
theorem doPrintf_fuel : ∀ (n : Nat) (s : List Char) (m : Nat), s.length ≤ n → s.length ≤ m →
    Fmt.doPrintf n s = Fmt.doPrintf m s
  | 0, [], 0, _, _ => rfl
  | 0, [], _ + 1, _, _ => rfl
  | _ + 1, [], 0, _, _ => rfl
  | _ + 1, [], _ + 1, _, _ => rfl
  | 0, c :: cs, _, h, _ => by simp at h
  | _ + 1, c :: cs, 0, _, h => by simp at h
  | n + 1, c :: cs, m + 1, hn, hm => by
    simp only [List.length_cons] at hn hm
    simp only [Fmt.doPrintf]
    have hv := verb_length cs
    rw [doPrintf_fuel n (Fmt.verb cs).2 m (by omega) (by omega),
      doPrintf_fuel n cs m (by omega) (by omega)]

/-! ## The lines of the imports -/

theorem quoteChar_plain (c : Char) (h : plainChar c = true) : quoteChar c = [c] := by
  simp only [plainChar, decide_eq_true_eq] at h
  obtain ⟨h1, h2, h3, h4⟩ := h
  unfold quoteChar
  rw [if_neg h3, if_neg h4]
  have hn : c ≠ '\n' := fun e => by rw [e] at h1; revert h1; decide
  have ht : c ≠ '\t' := fun e => by rw [e] at h1; revert h1; decide
  have hr : c ≠ '\r' := fun e => by rw [e] at h1; revert h1; decide
  rw [if_neg hn, if_neg ht, if_neg hr, if_neg (by omega), if_neg (by omega), if_neg (by omega),
    if_neg (by omega), if_neg (by omega), if_neg (by omega)]

theorem quote_plain : ∀ (s : List Char), (∀ c ∈ s, plainChar c = true) →
    (s.map quoteChar).flatten = s
  | [], _ => rfl
  | c :: cs, h => by
    simp only [List.map_cons, List.flatten_cons]
    rw [quoteChar_plain c (h c (by simp)), quote_plain cs (fun x hx => h x (by simp [hx]))]
    rfl

/-- A path of printable ASCII characters without quote and backslash is
written between double quotes as it is. -/
theorem goQuote_plain (s : String) (h : ∀ c ∈ s.toList, plainChar c = true) :
    (goQuote s).toList = ['"'] ++ s.toList ++ ['"'] := by
  unfold goQuote
  rw [quote_plain s.toList h]
  rfl

theorem Import_Generate_eq (i : Import) (e : Emitter) (h : e.start = true) :
    i.Generate e =
      { out := e.out ++ (List.replicate e.indent.toNat '\t' ++ i.line), indent := e.indent,
        start := true } := by
  unfold Import.Generate Import.line
  split
  · simp [Emitter.Println, Emitter.Print, Emitter.Newline, Emitter.pad, h]
  · simp [Emitter.Println, Emitter.Print, Emitter.Newline, Emitter.pad, h]

theorem imports_foldl_eq (l : List Import) (e : Emitter) (h : e.start = true) :
    l.foldl (fun o i => i.Generate o) e =
      { out := e.out ++ (l.map (fun i => List.replicate e.indent.toNat '\t' ++ i.line)).flatten,
        indent := e.indent, start := true } := by
  induction l generalizing e with
  | nil =>
    cases e
    simp only at h
    simp [h]
  | cons i l ih =>
    simp only [List.foldl_cons, List.map_cons, List.flatten_cons]
    rw [Import_Generate_eq i e h, ih _ rfl]
    simp

/-- The emitter at the start of the loop over the declarations: after the
comment, the package clause, the lines of the imports and a newline. -/
theorem Package_header_eq (p : Package) (e : Emitter) :
    (p.Imports.foldl (fun o i => i.Generate o)
        ((e.Comment p.Comment).Println ("package " ++ p.Name))).Newline =
      { out := ((e.Comment p.Comment).Println ("package " ++ p.Name)).out ++
          (p.Imports.map (fun i => List.replicate e.indent.toNat '\t' ++ i.line)).flatten ++
          ['\n'],
        indent := e.indent, start := true } := by
  rw [imports_foldl_eq _ _ (Println_start _ _)]
  simp [Emitter.Newline, Println_indent, Comment_indent]

theorem Package_header_indent (p : Package) (e : Emitter) :
    ((p.Imports.foldl (fun o i => i.Generate o)
        ((e.Comment p.Comment).Println ("package " ++ p.Name))).Newline).indent = e.indent := by
  rw [Package_header_eq]

theorem Package_Generate_header (p : Package) (e : Emitter) :
    p.Generate e = generateDecls p.sorted 0
      { out := ((e.Comment p.Comment).Println ("package " ++ p.Name)).out ++
          (p.Imports.map (fun i => List.replicate e.indent.toNat '\t' ++ i.line)).flatten ++
          ['\n'],
        indent := e.indent, start := true } := by
  rw [← Package_header_eq]
  rfl

/-- The line of an import whose path is printable ASCII without quote and
backslash. -/
theorem Import_line_plain (i : Import) (hi : ∀ c ∈ i.QualifiedName.toList, plainChar c = true) :
    i.line = "import ".toList ++ (if i.Name ≠ "" then i.Name.toList ++ [' '] else []) ++
      ['"'] ++ i.QualifiedName.toList ++ ['"'] ++ ['\n'] := by
  unfold Import.line
  rw [goQuote_plain _ hi]
  simp

end Codegen

namespace Codegen

/-! ## Imports of a package -/

/-- C5: `AddImport(q, a)` leaves the imports as they are when an entry with
path `q` is already there, and otherwise appends the import with alias `a` and
path `q` at the end. After `AddImport("a/b", "")` and `AddImport("a/b", "x")`
on a package without that path there is one entry for it, with the empty
alias, and it is rendered as the one line `import "a/b"`. -/
theorem AddImport_first_alias_kept (p : Package) (q a : String) :
    ((∃ i ∈ p.Imports, i.QualifiedName = q) → (p.AddImport q a).Imports = p.Imports) ∧
    ((∀ i ∈ p.Imports, i.QualifiedName ≠ q) →
      (p.AddImport q a).Imports = p.Imports ++ [{ Name := a, QualifiedName := q }]) ∧
    ((∀ i ∈ p.Imports, i.QualifiedName ≠ "a/b") →
      ((p.AddImport "a/b" "").AddImport "a/b" "x").Imports =
          p.Imports ++ [{ Name := "", QualifiedName := "a/b" }] ∧
      ((p.AddImport "a/b" "").AddImport "a/b" "x").Imports.filter
          (fun i => i.QualifiedName = "a/b") = [{ Name := "", QualifiedName := "a/b" }] ∧
      ∀ out : Emitter,
        ((p.AddImport "a/b" "").AddImport "a/b" "x").Imports.foldl (fun o i => i.Generate o) out =
          (p.Imports.foldl (fun o i => i.Generate o) out).Println "import \"a/b\"") ∧
    (Package.Generate
        ((({ QualifiedName := "pkg", Comment := "", Decls := [], Imports := [] } :
          Package).AddImport "a/b" "").AddImport "a/b" "x") {}).map Emitter.out =
      some "package pkg\nimport \"a/b\"\n\n".toList := by
  refine ⟨fun h => by rw [AddImport_of_mem p q a h],
    fun h => by rw [AddImport_of_not_mem p q a h], fun h => ?_, by decide⟩
  have h1 : (p.AddImport "a/b" "").AddImport "a/b" "x" =
      { p with Imports := p.Imports ++ [{ Name := "", QualifiedName := "a/b" }] } := by
    rw [AddImport_of_not_mem p "a/b" "" h]
    apply AddImport_of_mem
    exact ⟨{ Name := "", QualifiedName := "a/b" }, by simp, rfl⟩
  rw [h1]
  refine ⟨rfl, ?_, ?_⟩
  · simp only [List.filter_append]
    have : p.Imports.filter (fun i => decide (i.QualifiedName = "a/b")) = [] := by
      rw [List.filter_eq_nil_iff]
      intro i hi
      simpa using h i hi
    rw [this]
    simp
  · intro out
    simp only [List.foldl_append, List.foldl_cons, List.foldl_nil]
    rfl

/-- C6: when the paths of the imports of a package are pairwise distinct,
they are still pairwise distinct after any sequence of `AddImport` and
`AddDecl` calls, and every path given to `AddImport` is then among
the imports exactly once. When the paths are printable ASCII without quote
and backslash, `Generate` of the package writes, between the package clause
and the newline before the declarations, one line for each import in order
and nothing else: the word `import`, the alias when there is one, and the
path between double quotes. So every path is written exactly once. -/
theorem imports_stay_deduplicated (p : Package) (ops : List BuildOp)
    (h : (p.Imports.map Import.QualifiedName).Nodup) :
    ((p.build ops).Imports.map Import.QualifiedName).Nodup ∧
    (∀ q a, BuildOp.addImport q a ∈ ops →
      ((p.build ops).Imports.map Import.QualifiedName).count q = 1) ∧
    ((∀ i ∈ (p.build ops).Imports, ∀ c ∈ i.QualifiedName.toList, plainChar c = true) →
      ∀ e : Emitter, (p.build ops).Generate e = generateDecls (p.build ops).sorted 0
        { out := ((e.Comment (p.build ops).Comment).Println
              ("package " ++ (p.build ops).Name)).out ++
            ((p.build ops).Imports.map (fun i =>
              List.replicate e.indent.toNat '\t' ++ "import ".toList ++
                (if i.Name ≠ "" then i.Name.toList ++ [' '] else []) ++
                ['"'] ++ i.QualifiedName.toList ++ ['"'] ++ ['\n'])).flatten ++ ['\n'],
          indent := e.indent, start := true }) ∧
    (∀ out : Emitter, out.start = true →
      ((p.build ops).Imports.foldl (fun o i => i.Generate o) out).out =
        out.out ++ ((p.build ops).Imports.map (fun i =>
          (i.Generate { out := [], indent := out.indent, start := true }).out)).flatten) := by
  have hn := build_paths_nodup ops p h
  refine ⟨hn, fun q a hq => ?_, fun hplain e => ?_,
    fun out hout => imports_foldl_out _ out hout⟩
  · exact List.count_eq_one_of_mem hn (build_mem_paths ops p q a hq)
  · rw [Package_Generate_header]
    have hmap : (p.build ops).Imports.map
        (fun i => List.replicate e.indent.toNat '\t' ++ i.line) =
        (p.build ops).Imports.map (fun i =>
          List.replicate e.indent.toNat '\t' ++ "import ".toList ++
            (if i.Name ≠ "" then i.Name.toList ++ [' '] else []) ++
            ['"'] ++ i.QualifiedName.toList ++ ['"'] ++ ['\n']) := by
      apply List.map_congr_left
      intro i hi
      rw [Import_line_plain i (hplain i hi)]
      simp only [List.append_assoc]
    rw [hmap]

/-- Witness of C6: an empty package after `AddImport("a/b", "")`, an
`AddDecl`, `AddImport("a/b", "x")` and `AddImport("c", "")` has the imports
`a/b` and `c`, and `Generate` writes one line for each. -/
theorem imports_stay_deduplicated_witness :
    (([] : List Import).map Import.QualifiedName).Nodup ∧
    (((({ QualifiedName := "pkg", Comment := "", Decls := [], Imports := [] } : Package).build
      [BuildOp.addImport "a/b" "", BuildOp.addDecl ⟨none, fun o => some o⟩,
        BuildOp.addImport "a/b" "x", BuildOp.addImport "c" ""]).Imports.map
          Import.QualifiedName).Nodup) ∧
    ((({ QualifiedName := "pkg", Comment := "", Decls := [], Imports := [] } : Package).build
      [BuildOp.addImport "a/b" "", BuildOp.addDecl ⟨none, fun o => some o⟩,
        BuildOp.addImport "a/b" "x", BuildOp.addImport "c" ""]).Generate {}).map Emitter.out =
      some "package pkg\nimport \"a/b\"\nimport \"c\"\n\n".toList :=
  ⟨List.nodup_nil, (imports_stay_deduplicated
    { QualifiedName := "pkg", Comment := "", Decls := [], Imports := [] }
    [BuildOp.addImport "a/b" "", BuildOp.addDecl ⟨none, fun o => some o⟩,
      BuildOp.addImport "a/b" "x", BuildOp.addImport "c" ""] List.nodup_nil).1, by decide⟩

/-! ## The short name of a package -/

/-- C7, as the claim states it, fails: for the qualified name `a/` the text
after the last `/` is empty, and `Name()` returns `a/`. -/
theorem Name_not_always_after_last_slash :
    ¬ (∀ (p : Package) (pre suf : List Char),
        p.QualifiedName.toList = pre ++ '/' :: suf → '/' ∉ suf → p.Name = String.mk suf) := by
  intro h
  have := h { QualifiedName := "a/", Comment := "", Decls := [], Imports := [] } ['a'] []
    (by decide) (by decide)
  revert this
  decide

/-- C7, amended: `Name()` returns the text after the last `/` of
`QualifiedName` when that `/` is not its last character, and the whole
`QualifiedName` when it holds no `/` or ends in `/`. -/
theorem Name_after_last_slash (p : Package) :
    ('/' ∉ p.QualifiedName.toList → p.Name = p.QualifiedName) ∧
    (∀ pre suf : List Char, p.QualifiedName.toList = pre ++ '/' :: suf → '/' ∉ suf →
      suf ≠ [] → p.Name = String.mk suf) ∧
    (∀ pre : List Char, p.QualifiedName.toList = pre ++ ['/'] → p.Name = p.QualifiedName) := by
  refine ⟨Name_of_no_slash p, fun pre suf hs h hne => ?_, fun pre hs => ?_⟩
  · rw [Name_of_split p pre suf hs h, if_neg hne]
  · rw [Name_of_split p pre [] hs (by simp), if_pos rfl]

/-- Witness of C7: `github.com/a/b` gives `b`, `pkg` gives `pkg` and `a/`
gives `a/`. -/
theorem Name_after_last_slash_witness :
    ({ QualifiedName := "github.com/a/b", Comment := "", Decls := [], Imports := [] } :
      Package).Name = "b" ∧
    ({ QualifiedName := "pkg", Comment := "", Decls := [], Imports := [] } : Package).Name
      = "pkg" ∧
    ({ QualifiedName := "a/", Comment := "", Decls := [], Imports := [] } : Package).Name
      = "a/" :=
  ⟨(Name_after_last_slash _).2.1 "github.com/a".toList "b".toList (by decide) (by decide)
      (by decide),
    (Name_after_last_slash _).1 (by decide),
    (Name_after_last_slash _).2.2 "a".toList (by decide)⟩

/-! ## Types -/

/-- C8 fails on the code: a `PrimitiveType`, a `CustomNameType` and a
`NamedType` pass their name to `Print` as the format, so a name that holds a
`%` is not written as it is: `%d` is written `%!d(MISSING)`, `100%` is
written `100%!(NOVERB)` and `a%%b` is written `a%b`. -/
theorem name_with_percent_not_verbatim :
    (GoType.PrimitiveType "%d").rendering 0 = "%!d(MISSING)".toList ∧
    (GoType.CustomNameType "100%").rendering 0 = "100%!(NOVERB)".toList ∧
    (GoType.NamedType none (TypeDecl.mk "a%%b" none "")).rendering 0 = "a%b".toList ∧
    (GoType.ArrayType (GoType.PrimitiveType "%d")).rendering 0 = "[]%!d(MISSING)".toList := by
  decide

/-- Whatever was written before, an `ArrayType` writes `[]` and then what
its element type writes, a `PointerType` writes `*` and then what its element
type writes, a `MapType` writes `map[`, its key type, `]` and its value type,
an `EmptyInterfaceType` and a `NullType` write `interface{}`; a
`PrimitiveType` and a `CustomNameType` write what `fmt.Sprintf` makes of
their string, and a `NamedType` what it makes of the name of its declaration,
after what it makes of the short name of its package and a dot when the
package is set; for a string without `%` that is the string itself. An array
of maps from `string` to pointers to `int` is written `[]map[string]*int`. -/
theorem type_rendering_compositional (e : Emitter) :
    (∀ t : GoType, ((GoType.ArrayType t).Generate e).out =
      e.out ++ e.pad ++ "[]".toList ++ t.rendering e.indent) ∧
    (∀ t : GoType, ((GoType.PointerType t).Generate e).out =
      e.out ++ e.pad ++ "*".toList ++ t.rendering e.indent) ∧
    (∀ k v : GoType, ((GoType.MapType k v).Generate e).out =
      e.out ++ e.pad ++ "map[".toList ++ k.rendering e.indent ++ "]".toList ++
        v.rendering e.indent) ∧
    (∀ s : String, ((GoType.PrimitiveType s).Generate e).out =
      e.out ++ e.pad ++ (Fmt.Sprintf s).toList) ∧
    (∀ s : String, ((GoType.CustomNameType s).Generate e).out =
      e.out ++ e.pad ++ (Fmt.Sprintf s).toList) ∧
    (GoType.EmptyInterfaceType.Generate e).out = e.out ++ e.pad ++ "interface\x7b\x7d".toList ∧
    (GoType.NullType.Generate e).out = e.out ++ e.pad ++ "interface\x7b\x7d".toList ∧
    (∀ d : TypeDecl, ((GoType.NamedType none d).Generate e).out =
      e.out ++ e.pad ++ (Fmt.Sprintf d.Name).toList) ∧
    (∀ (p : Package) (d : TypeDecl), ((GoType.NamedType (some p) d).Generate e).out =
      e.out ++ e.pad ++ (Fmt.Sprintf p.Name).toList ++ ".".toList ++
        (Fmt.Sprintf d.Name).toList) ∧
    (∀ s : String, '%' ∉ s.toList → Fmt.Sprintf s = s) ∧
    (GoType.ArrayType (.MapType (.PrimitiveType "string")
      (.PointerType (.PrimitiveType "int")))).rendering 0 = "[]map[string]*int".toList := by
  refine ⟨fun t => ?_, fun t => ?_, fun k v => ?_, fun s => rfl, fun s => rfl, rfl, rfl,
    fun d => rfl, fun p d => ?_, Sprintf_of_no_percent, by decide⟩
  · simp only [GoType.Generate]
    rw [GoType_Generate_out]
    simp [Emitter.Print, Emitter.pad]
  · simp only [GoType.Generate]
    rw [GoType_Generate_out]
    simp [Emitter.Print, Emitter.pad]
  · simp only [GoType.Generate]
    rw [GoType_Generate_out, Print_out, GoType_Generate_out]
    simp [Emitter.Print, Emitter.pad, GoType_Generate_indent, GoType_Generate_start_false]
  · simp [GoType.Generate, Emitter.Print, Emitter.pad]

/-- C9: `IsNillable` is true for every pointer, array, map, empty interface
and null type and false for every primitive, custom name and struct type,
whatever they hold; in an array of maps from `string` to pointers to `int`
it is true at the array, the map and the pointer and false at the two
primitives. -/
theorem IsNillable_by_variant :
    (∀ t, (GoType.PointerType t).IsNillable = true) ∧
    (∀ t, (GoType.ArrayType t).IsNillable = true) ∧
    (∀ k v, (GoType.MapType k v).IsNillable = true) ∧
    GoType.EmptyInterfaceType.IsNillable = true ∧
    GoType.NullType.IsNillable = true ∧
    (∀ s, (GoType.PrimitiveType s).IsNillable = false) ∧
    (∀ s, (GoType.CustomNameType s).IsNillable = false) ∧
    (∀ fs r, (GoType.StructType fs r).IsNillable = false) ∧
    ((GoType.ArrayType (.MapType (.PrimitiveType "string")
        (.PointerType (.PrimitiveType "int")))).IsNillable = true ∧
      (GoType.MapType (.PrimitiveType "string")
        (.PointerType (.PrimitiveType "int"))).IsNillable = true ∧
      (GoType.PointerType (.PrimitiveType "int")).IsNillable = true ∧
      (GoType.PrimitiveType "string").IsNillable = false ∧
      (GoType.PrimitiveType "int").IsNillable = false) := by
  simp [GoType.IsNillable]

/-- C10: a `NamedType` is nillable exactly when the type of its declaration
is set and nillable, and it is not nillable when that type is `nil`; so it is
nillable over a pointer, array or map type, not over a primitive or struct
type, and a chain of `NamedType`s has the nillability of the type at its
end. -/
theorem NamedType_IsNillable (pkg : Option Package) (d : TypeDecl) :
    ((GoType.NamedType pkg d).IsNillable = true ↔
      ∃ t, d.Type = some t ∧ t.IsNillable = true) ∧
    (d.Type = none → (GoType.NamedType pkg d).IsNillable = false) ∧
    (∀ n c t, (GoType.NamedType pkg (.mk n (some (.PointerType t)) c)).IsNillable = true) ∧
    (∀ n c t, (GoType.NamedType pkg (.mk n (some (.ArrayType t)) c)).IsNillable = true) ∧
    (∀ n c k v, (GoType.NamedType pkg (.mk n (some (.MapType k v)) c)).IsNillable = true) ∧
    (∀ n c s, (GoType.NamedType pkg (.mk n (some (.PrimitiveType s)) c)).IsNillable = false) ∧
    (∀ n c fs r,
      (GoType.NamedType pkg (.mk n (some (.StructType fs r)) c)).IsNillable = false) ∧
    (∀ links t, (namedChain links t).IsNillable = t.IsNillable) := by
  refine ⟨NamedType_IsNillable_iff pkg d, fun h => ?_, ?_, ?_, ?_, ?_, ?_,
    namedChain_IsNillable⟩
  · obtain ⟨n, t, c⟩ := d
    cases t with
    | none => rfl
    | some t => simp [TypeDecl.Type] at h
  all_goals intros; simp [GoType.IsNillable, TypeDecl.typeIsNillable]

end Codegen

namespace Codegen

/-! ## The text of a struct type -/

theorem StructField_Generate_start_false : ∀ (f : StructField) (e : Emitter),
    (f.Generate e).start = false
  | .mk name type comment tags j d, e => by
    simp only [StructField.Generate]
    split
    · rfl
    · exact GoType_Generate_start_false _ _

theorem StructField_Generate_out (f : StructField) (e : Emitter) (h : e.start = true) :
    (f.Generate e).out = e.out ++ f.rendering e.indent := by
  have he : e = Emitter.prepend e.out { out := [], indent := e.indent, start := true } := by
    cases e
    simp only [Emitter.prepend, List.append_nil] at h ⊢
    rw [h]
  conv_lhs => rw [he]
  rw [StructField_Generate_prepend]
  rfl

theorem Comment_empty (e : Emitter) : e.Comment "" = e := by
  simp [Emitter.Comment]

/-- A field without a comment is written as its name, a space, its type and,
when it has tags, a space and the tags between backquotes. -/
theorem StructField_rendering_plain (name : String) (type : GoType) (tags j d : String)
    (lvl : Int) :
    (StructField.mk name type "" tags j d).rendering lvl =
      List.replicate lvl.toNat '\t' ++ (name ++ " ").toList ++ type.rendering lvl ++
        (if tags ≠ "" then (" " ++ "`" ++ tags ++ "`").toList else []) := by
  unfold StructField.rendering
  simp only [StructField.Generate, Comment_empty]
  split
  · rw [Print_out, GoType_Generate_out]
    simp [Emitter.Print, Emitter.pad, GoType_Generate_start_false]
  · rw [GoType_Generate_out]
    simp [Emitter.Print, Emitter.pad]

theorem StructField_generateAll_start : ∀ (fs : List StructField) (i : Nat) (e : Emitter),
    e.start = true → (StructField.generateAll fs i e).start = true
  | [], _, e, h => by simpa only [StructField.generateAll] using h
  | f :: fs, i, e, _ => by
    simp only [StructField.generateAll]
    exact StructField_generateAll_start fs (i + 1) _ rfl

theorem intercalate_cons_cons (sep x y : List Char) (l : List (List Char)) :
    sep.intercalate (x :: y :: l) = x ++ sep ++ sep.intercalate (y :: l) := by
  simp [List.intercalate, List.intersperse]

theorem intercalate_singleton (sep x : List Char) : sep.intercalate [x] = x := by
  simp [List.intercalate, List.intersperse]

/-- What the loop over the fields writes: the fields in order, each followed
by a newline, with one more newline before every field but the first of the
struct. -/
theorem StructField_generateAll_out : ∀ (fs : List StructField) (i : Nat) (e : Emitter),
    e.start = true →
    (StructField.generateAll fs i e).out =
      e.out ++ (if i > 0 ∧ 0 < fs.length then ['\n'] else []) ++
        ['\n'].intercalate (fs.map (fun f => f.rendering e.indent ++ ['\n']))
  | [], i, e, _ => by simp [StructField.generateAll, List.intercalate]
  | f :: fs, i, e, h => by
    simp only [StructField.generateAll]
    have hstart : (if i > 0 then e.Newline else e).start = true := by
      split
      · rfl
      · exact h
    have hind : (if i > 0 then e.Newline else e).indent = e.indent := by
      split <;> rfl
    have hout : (if i > 0 then e.Newline else e).out =
        e.out ++ (if i > 0 then ['\n'] else []) := by
      split
      · rfl
      · simp
    rw [StructField_generateAll_out fs (i + 1) _ rfl]
    simp only [Newline_indent, StructField_Generate_indent, hind]
    have h1 : ((f.Generate (if i > 0 then e.Newline else e)).Newline).out =
        e.out ++ (if i > 0 then ['\n'] else []) ++ f.rendering e.indent ++ ['\n'] := by
      show (f.Generate (if i > 0 then e.Newline else e)).out ++ ['\n'] = _
      rw [StructField_Generate_out f _ hstart, hout, hind]
    rw [h1]
    cases fs with
    | nil =>
      simp [intercalate_singleton, List.intercalate]
    | cons g gs =>
      rw [List.map_cons (fun f => f.rendering e.indent ++ ['\n']) f (g :: gs), List.map_cons,
        intercalate_cons_cons]
      simp

/-- What `(*StructType).Generate` writes: the line `struct {`, the fields in
order, each followed by a newline and separated from the next by one more
newline, and `}` at the indent level of the start. -/
theorem StructType_Generate_out (fs : List StructField) (r : List String) (e : Emitter) :
    ((GoType.StructType fs r).Generate e).out =
      e.out ++ e.pad ++ "struct \x7b\n".toList ++
        ['\n'].intercalate (fs.map (fun f => f.rendering (e.indent + 1) ++ ['\n'])) ++
        List.replicate e.indent.toNat '\t' ++ "\x7d".toList := by
  simp only [GoType.Generate]
  have h1 : ((e.Println "struct \x7b").Indent 1).start = true := rfl
  have h2 : ((e.Println "struct \x7b").Indent 1).indent = e.indent + 1 := rfl
  have h3 : ((e.Println "struct \x7b").Indent 1).out =
      e.out ++ e.pad ++ "struct \x7b\n".toList := by
    show e.out ++ e.pad ++ "struct \x7b".toList ++ ['\n'] = _
    simp
  rw [Print_out]
  have hs := StructField_generateAll_start fs 0 _ h1
  have hi := StructField_generateAll_indent fs 0 ((e.Println "struct \x7b").Indent 1)
  have hpad : ((StructField.generateAll fs 0 ((e.Println "struct \x7b").Indent 1)).Indent
      (-1)).pad = List.replicate e.indent.toNat '\t' := by
    unfold Emitter.pad
    have : ((StructField.generateAll fs 0 ((e.Println "struct \x7b").Indent 1)).Indent
        (-1)).start = true := hs
    rw [if_pos this]
    have : ((StructField.generateAll fs 0 ((e.Println "struct \x7b").Indent 1)).Indent
        (-1)).indent = e.indent := by
      show (StructField.generateAll fs 0 ((e.Println "struct \x7b").Indent 1)).indent + -1 = _
      rw [hi, h2]
      omega
    rw [this]
  rw [hpad]
  show (StructField.generateAll fs 0 ((e.Println "struct \x7b").Indent 1)).out ++ _ ++ _ = _
  rw [StructField_generateAll_out fs 0 _ h1, h2, h3]
  simp

theorem AddField_foldl (fs : List StructField) (s : StructType) :
    (fs.foldl StructType.AddField s).Fields = s.Fields ++ fs ∧
      (fs.foldl StructType.AddField s).RequiredJSONFields = s.RequiredJSONFields := by
  induction fs generalizing s with
  | nil => simp
  | cons f fs ih =>
    simp only [List.foldl_cons]
    obtain ⟨h1, h2⟩ := ih (s.AddField f)
    rw [h1, h2]
    simp [StructType.AddField]

end Codegen

namespace Codegen

/-! ## The calls a type makes on the emitter -/

theorem runOps_append (a b : List EmitOp) (e : Emitter) :
    runOps (a ++ b) e = runOps b (runOps a e) := by
  simp [runOps, List.foldl_append]

theorem runOps_cons (a : EmitOp) (b : List EmitOp) (e : Emitter) :
    runOps (a :: b) e = runOps b (a.run e) := rfl

theorem runOps_nil (e : Emitter) : runOps [] e = e := rfl

mutual
theorem GoType_Generate_eq_runOps : ∀ (t : GoType) (e : Emitter),
    t.Generate e = runOps t.ops e
  | .PointerType t, e => by
    simp only [GoType.Generate, GoType.ops, runOps_cons, EmitOp.run]
    exact GoType_Generate_eq_runOps t _
  | .ArrayType t, e => by
    simp only [GoType.Generate, GoType.ops, runOps_cons, EmitOp.run]
    exact GoType_Generate_eq_runOps t _
  | .NamedType (some p) d, e => rfl
  | .NamedType none d, e => rfl
  | .PrimitiveType s, e => rfl
  | .CustomNameType s, e => rfl
  | .MapType k v, e => by
    simp only [GoType.Generate, GoType.ops, runOps_cons, runOps_append, EmitOp.run]
    rw [GoType_Generate_eq_runOps v, GoType_Generate_eq_runOps k]
  | .EmptyInterfaceType, e => rfl
  | .NullType, e => rfl
  | .StructType fs r, e => by
    simp only [GoType.Generate, GoType.ops, runOps_cons, runOps_append, EmitOp.run,
      List.cons_append, List.nil_append, runOps_nil]
    rw [StructField_generateAll_eq_runOps fs 0]
    rfl
theorem StructField_generateAll_eq_runOps : ∀ (fs : List StructField) (i : Nat) (e : Emitter),
    StructField.generateAll fs i e = runOps (StructField.opsAll fs i) e
  | [], i, e => rfl
  | f :: fs, i, e => by
    simp only [StructField.generateAll, StructField.opsAll, runOps_append, runOps_cons,
      EmitOp.run]
    rw [StructField_generateAll_eq_runOps fs (i + 1), StructField_Generate_eq_runOps f]
    by_cases h : i > 0
    · simp only [if_pos h, runOps_cons, runOps_nil, EmitOp.run]
    · simp only [if_neg h, runOps_nil]
theorem StructField_Generate_eq_runOps : ∀ (f : StructField) (e : Emitter),
    f.Generate e = runOps f.ops e
  | .mk name type comment tags j d, e => by
    simp only [StructField.Generate, StructField.ops, runOps_append, runOps_cons, EmitOp.run,
      List.cons_append, List.nil_append, runOps_nil]
    rw [GoType_Generate_eq_runOps type]
    by_cases h : tags ≠ ""
    · simp only [if_pos h, runOps_cons, runOps_nil, EmitOp.run]
    · simp only [if_neg h, runOps_nil]
end

theorem EmitOp_run_indent (op : EmitOp) (e : Emitter) :
    (op.run e).indent = e.indent + op.delta := by
  cases op with
  | print s => simp [EmitOp.run, EmitOp.delta, Print_indent]
  | newline => simp [EmitOp.run, EmitOp.delta, Newline_indent]
  | indent d => simp [EmitOp.run, EmitOp.delta, Indent_indent]
  | comment s => simp [EmitOp.run, EmitOp.delta, Comment_indent]

theorem runOps_indent (ops : List EmitOp) (e : Emitter) :
    (runOps ops e).indent = e.indent + (ops.map EmitOp.delta).sum := by
  induction ops generalizing e with
  | nil => simp [runOps]
  | cons op ops ih =>
    rw [runOps_cons, ih, EmitOp_run_indent]
    simp only [List.map_cons, List.sum_cons]
    omega

theorem Balanced_nil : Balanced [] := by
  constructor
  · rfl
  · intro k
    simp

theorem Balanced_append {a b : List EmitOp} (ha : Balanced a) (hb : Balanced b) :
    Balanced (a ++ b) := by
  constructor
  · rw [List.map_append, List.sum_append, ha.1, hb.1]
    rfl
  · intro k
    rw [List.take_append_eq_append_take, List.map_append, List.sum_append]
    have h1 := ha.2 k
    have h2 := hb.2 (k - a.length)
    omega

theorem Balanced_cons_zero {op : EmitOp} {a : List EmitOp} (h : op.delta = 0)
    (ha : Balanced a) : Balanced (op :: a) := by
  constructor
  · rw [List.map_cons, List.sum_cons, h, ha.1]
    rfl
  · intro k
    cases k with
    | zero => simp
    | succ k =>
      rw [List.take_succ_cons, List.map_cons, List.sum_cons, h]
      have := ha.2 k
      omega

/-- One level deeper around balanced calls is balanced. -/
theorem Balanced_bracket {a : List EmitOp} (ha : Balanced a) :
    Balanced (EmitOp.indent 1 :: (a ++ [EmitOp.indent (-1)])) := by
  constructor
  · rw [List.map_cons, List.sum_cons, List.map_append, List.sum_append, ha.1]
    rfl
  · intro k
    cases k with
    | zero => simp
    | succ k =>
      rw [List.take_succ_cons, List.map_cons, List.sum_cons, List.take_append_eq_append_take,
        List.map_append, List.sum_append]
      have h1 := ha.2 k
      by_cases hk : k ≤ a.length
      · have : k - a.length = 0 := by omega
        rw [this]
        simp only [List.take_zero, List.map_nil, List.sum_nil, EmitOp.delta]
        omega
      · have h2 : List.take k a = a := List.take_of_length_le (by omega)
        rw [h2, ha.1]
        cases hj : k - a.length with
        | zero => omega
        | succ j =>
          simp [EmitOp.delta]

mutual
theorem GoType_ops_balanced : ∀ t : GoType, Balanced t.ops
  | .PointerType t => by
    simp only [GoType.ops]
    exact Balanced_cons_zero rfl (GoType_ops_balanced t)
  | .ArrayType t => by
    simp only [GoType.ops]
    exact Balanced_cons_zero rfl (GoType_ops_balanced t)
  | .NamedType (some p) d => by
    simp only [GoType.ops]
    exact Balanced_cons_zero rfl (Balanced_cons_zero rfl (Balanced_cons_zero rfl Balanced_nil))
  | .NamedType none d => by
    simp only [GoType.ops]
    exact Balanced_cons_zero rfl Balanced_nil
  | .PrimitiveType s => by
    simp only [GoType.ops]
    exact Balanced_cons_zero rfl Balanced_nil
  | .CustomNameType s => by
    simp only [GoType.ops]
    exact Balanced_cons_zero rfl Balanced_nil
  | .MapType k v => by
    simp only [GoType.ops]
    exact Balanced_cons_zero rfl
      (Balanced_append (GoType_ops_balanced k) (Balanced_cons_zero rfl (GoType_ops_balanced v)))
  | .EmptyInterfaceType => by
    simp only [GoType.ops]
    exact Balanced_cons_zero rfl Balanced_nil
  | .NullType => by
    simp only [GoType.ops]
    exact Balanced_cons_zero rfl Balanced_nil
  | .StructType fs r => by
    simp only [GoType.ops]
    have h := Balanced_bracket (StructField_opsAll_balanced fs 0)
    have h2 : Balanced [EmitOp.print "\x7d"] := Balanced_cons_zero rfl Balanced_nil
    have h3 := Balanced_cons_zero (@rfl _ (EmitOp.print "struct \x7b").delta)
      (Balanced_cons_zero (@rfl _ EmitOp.newline.delta) (Balanced_append h h2))
    simpa using h3
theorem StructField_opsAll_balanced : ∀ (fs : List StructField) (i : Nat),
    Balanced (StructField.opsAll fs i)
  | [], i => by
    simp only [StructField.opsAll]
    exact Balanced_nil
  | f :: fs, i => by
    simp only [StructField.opsAll]
    refine Balanced_append ?_ (Balanced_append (StructField_ops_balanced f)
      (Balanced_cons_zero rfl (StructField_opsAll_balanced fs (i + 1))))
    split
    · exact Balanced_cons_zero rfl Balanced_nil
    · exact Balanced_nil
theorem StructField_ops_balanced : ∀ f : StructField, Balanced f.ops
  | .mk name type comment tags j d => by
    simp only [StructField.ops]
    refine Balanced_append (Balanced_cons_zero rfl (Balanced_cons_zero rfl Balanced_nil))
      (Balanced_append (GoType_ops_balanced type) ?_)
    split
    · exact Balanced_cons_zero rfl Balanced_nil
    · exact Balanced_nil
end

/-! ## The characters of a type without a struct type -/

theorem rendering_Print (s : String) (lvl : Int) :
    (({ out := [], indent := lvl, start := false } : Emitter).Print s).out = s.toList := by
  simp [Emitter.Print, Emitter.pad]

theorem rendering_after (t : GoType) (e : Emitter) (h : e.start = false) :
    (t.Generate e).out = e.out ++ t.rendering e.indent := by
  rw [GoType_Generate_out]
  simp [Emitter.pad, h]

theorem typeSyntaxChars_of_mem (s : List Char) (h : ∀ c ∈ s, c ∈ typeSyntaxChars) (c : Char)
    (hc : c ∈ s) : c ∈ typeSyntaxChars := h c hc

theorem structFree_chars : ∀ (t : GoType) (lvl : Int), t.structFree = true →
    (∀ s ∈ t.names, '%' ∉ s.toList) →
    ∀ c ∈ t.rendering lvl, c ∈ typeSyntaxChars ∨ ∃ s ∈ t.names, c ∈ s.toList
  | .PointerType t, lvl, h, hp, c, hc => by
    simp only [GoType.structFree] at h
    simp only [GoType.rendering, GoType.Generate] at hc
    rw [rendering_after t _ (Print_start_false _ _), rendering_Print, Print_indent] at hc
    rcases List.mem_append.1 hc with hc | hc
    · left
      exact typeSyntaxChars_of_mem _ (by decide) c hc
    · exact structFree_chars t lvl h hp c hc
  | .ArrayType t, lvl, h, hp, c, hc => by
    simp only [GoType.structFree] at h
    simp only [GoType.rendering, GoType.Generate] at hc
    rw [rendering_after t _ (Print_start_false _ _), rendering_Print, Print_indent] at hc
    rcases List.mem_append.1 hc with hc | hc
    · left
      exact typeSyntaxChars_of_mem _ (by decide) c hc
    · exact structFree_chars t lvl h hp c hc
  | .NamedType (some p) d, lvl, h, hp, c, hc => by
    have h1 := Sprintf_of_no_percent p.Name (hp _ (by simp [GoType.names]))
    have h2 := Sprintf_of_no_percent d.Name (hp _ (by simp [GoType.names]))
    simp only [GoType.rendering, GoType.Generate, Print_out, Emitter.pad, Print_start_false,
      h1, h2] at hc
    simp only [Bool.false_eq_true, if_false, List.append_nil, List.nil_append,
      List.mem_append] at hc
    simp only [GoType.names, List.mem_cons, List.mem_singleton, exists_eq_or_imp, exists_eq_left,
      List.not_mem_nil, or_false]
    rcases hc with (hc | hc) | hc
    · exact Or.inr (Or.inl hc)
    · left
      exact typeSyntaxChars_of_mem _ (by decide) c hc
    · exact Or.inr (Or.inr hc)
  | .NamedType none d, lvl, h, hp, c, hc => by
    have h2 := Sprintf_of_no_percent d.Name (hp _ (by simp [GoType.names]))
    simp only [GoType.rendering, GoType.Generate, rendering_Print, h2] at hc
    right
    exact ⟨d.Name, by simp [GoType.names], hc⟩
  | .PrimitiveType s, lvl, h, hp, c, hc => by
    have h2 := Sprintf_of_no_percent s (hp _ (by simp [GoType.names]))
    simp only [GoType.rendering, GoType.Generate, rendering_Print, h2] at hc
    right
    exact ⟨s, by simp [GoType.names], hc⟩
  | .CustomNameType s, lvl, h, hp, c, hc => by
    have h2 := Sprintf_of_no_percent s (hp _ (by simp [GoType.names]))
    simp only [GoType.rendering, GoType.Generate, rendering_Print, h2] at hc
    right
    exact ⟨s, by simp [GoType.names], hc⟩
  | .MapType k v, lvl, h, hp, c, hc => by
    simp only [GoType.structFree, Bool.and_eq_true] at h
    simp only [GoType.rendering, GoType.Generate] at hc
    rw [rendering_after v _ (Print_start_false _ _), Print_out, Print_indent,
      GoType_Generate_indent, Print_indent,
      rendering_after k _ (Print_start_false _ _), rendering_Print, Print_indent] at hc
    simp only [Emitter.pad, GoType_Generate_start_false, Bool.false_eq_true, if_false,
      List.append_nil, List.mem_append] at hc
    rcases hc with ((hc | hc) | hc) | hc
    · left
      exact typeSyntaxChars_of_mem _ (by decide) c hc
    · rcases structFree_chars k lvl h.1 (fun s hs => hp s (by simp [GoType.names, hs])) c hc
        with h1 | ⟨s, hs, h1⟩
      · exact Or.inl h1
      · exact Or.inr ⟨s, by simp [GoType.names, hs], h1⟩
    · left
      exact typeSyntaxChars_of_mem _ (by decide) c hc
    · rcases structFree_chars v lvl h.2 (fun s hs => hp s (by simp [GoType.names, hs])) c hc
        with h1 | ⟨s, hs, h1⟩
      · exact Or.inl h1
      · exact Or.inr ⟨s, by simp [GoType.names, hs], h1⟩
  | .EmptyInterfaceType, lvl, h, hp, c, hc => by
    simp only [GoType.rendering, GoType.Generate, rendering_Print] at hc
    left
    exact typeSyntaxChars_of_mem _ (by decide) c hc
  | .NullType, lvl, h, hp, c, hc => by
    simp only [GoType.rendering, GoType.Generate, rendering_Print] at hc
    left
    exact typeSyntaxChars_of_mem _ (by decide) c hc
  | .StructType fs r, lvl, h, hp, c, hc => by
    simp [GoType.structFree] at h

/-- Every struct type writes a newline, the one after `struct {`. -/
theorem StructType_rendering_newline (fs : List StructField) (r : List String) (lvl : Int) :
    '\n' ∈ (GoType.StructType fs r).rendering lvl := by
  unfold GoType.rendering
  rw [StructType_Generate_out]
  simp

end Codegen

namespace Codegen

/-! ## Slices in memory -/

theorem getD_append_left (m : List (List Decl)) (x : List (List Decl)) (i : Nat)
    (h : i < m.length) : (m ++ x).getD i [] = m.getD i [] := by
  simp [List.getD, List.getElem?_append_left h]

theorem set_last (m : List (List Decl)) (a b : List Decl) :
    (m ++ [a]).set m.length b = m ++ [b] := by
  rw [List.set_append_right _ _ (le_refl _)]
  simp

theorem getD_last (m : List (List Decl)) (a : List Decl) :
    (m ++ [a]).getD m.length [] = a := by
  simp [List.getD]

theorem Slice_length (x : List Decl) (less : Decl → Decl → Bool) :
    (GoSort.Slice x less).length = x.length :=
  (GoSort.Slice_perm x less).length_eq

/-- The memory after `(*Package).Generate`: a new array with the sorted copy
at the end, every array that was there unchanged. -/
theorem PackageRef_Generate_memory (p : PackageRef) (m : List (List Decl)) (out : Emitter) :
    ∃ a, (p.Generate m out).1 = m ++ [a] := by
  simp only [PackageRef.Generate, sortSliceInPlace, copySlice, makeSlice, set_last]
  exact ⟨_, rfl⟩

theorem loadSlice_append (m : List (List Decl)) (a : List Decl) (s : DeclSlice)
    (h : s.array < m.length) : loadSlice (m ++ [a]) s = loadSlice m s := by
  simp only [loadSlice, getD_append_left m [a] s.array h]

theorem loadSlice_last (m : List (List Decl)) (a : List Decl) (n : Nat) :
    loadSlice (m ++ [a]) { array := m.length, len := n } = a.take n := by
  simp only [loadSlice, getD_last]

/-- The slice `sorted` of `(*Package).Generate` holds, after the copy and the
sort, the sorted declarations of the package. -/
theorem PackageRef_Generate_sorted (p : PackageRef) (m : List (List Decl))
    (hv : p.Decls.ValidIn m) :
    loadSlice (sortSliceInPlace (copySlice (makeSlice m p.Decls.len).1
        (makeSlice m p.Decls.len).2 p.Decls) (makeSlice m p.Decls.len).2 declLess)
        (makeSlice m p.Decls.len).2 = (p.load m).sorted := by
  obtain ⟨h1, h2⟩ := hv
  have hlen : (loadSlice m p.Decls).length = p.Decls.len := by
    simp only [loadSlice, List.length_take]
    omega
  have hcopy : (List.replicate p.Decls.len nilDecl).drop p.Decls.len = [] := by
    simp
  have htake : (loadSlice m p.Decls).take p.Decls.len = loadSlice m p.Decls :=
    List.take_of_length_le (by omega)
  have hdrop : (loadSlice m p.Decls).drop p.Decls.len = [] :=
    List.drop_of_length_le (by omega)
  simp only [makeSlice, copySlice, sortSliceInPlace, Nat.min_self, set_last, getD_last,
    loadSlice_last, loadSlice_append m _ _ h1, hcopy, htake, hdrop, List.append_nil]
  rw [List.take_of_length_le (by rw [Slice_length]; omega)]
  rfl

/-- Generating from the package in memory writes what generating from its
value writes. -/
theorem PackageRef_Generate_eq (p : PackageRef) (m : List (List Decl)) (out : Emitter)
    (hv : p.Decls.ValidIn m) : (p.Generate m out).2 = (p.load m).Generate out := by
  simp only [PackageRef.Generate, Package.Generate]
  rw [PackageRef_Generate_sorted p m hv]
  rfl

/-- Generating leaves the package in memory as it was. -/
theorem PackageRef_Generate_load (p : PackageRef) (m : List (List Decl)) (out : Emitter)
    (hv : p.Decls.ValidIn m) : p.load (p.Generate m out).1 = p.load m := by
  obtain ⟨a, ha⟩ := PackageRef_Generate_memory p m out
  rw [ha]
  simp only [PackageRef.load, loadSlice_append m a p.Decls hv.1]

theorem PackageRef_Generate_valid (p : PackageRef) (m : List (List Decl)) (out : Emitter)
    (hv : p.Decls.ValidIn m) : p.Decls.ValidIn (p.Generate m out).1 := by
  obtain ⟨a, ha⟩ := PackageRef_Generate_memory p m out
  rw [ha]
  constructor
  · simp only [List.length_append, List.length_singleton]
    have := hv.1
    omega
  · rw [getD_append_left m [a] _ hv.1]
    exact hv.2

end Codegen

namespace Codegen

/-! ## The text of the loop over the declarations -/

theorem intercalate_cons_eq (x : List Char) : ∀ xs : List (List Char),
    ['\n'].intercalate (x :: xs) = x ++ (xs.map (fun y => '\n' :: y)).flatten
  | [] => by simp [intercalate_singleton]
  | y :: ys => by
    rw [intercalate_cons_cons, intercalate_cons_eq y ys]
    simp

theorem generateRest_text (text : Decl → List Char) (lvl : Int) : ∀ (ds : List Decl)
    (e : Emitter), e.indent = lvl →
    (∀ d ∈ ds, ∀ e1 : Emitter, e1.indent = lvl → e1.start = true →
      ∃ e2, d.Generate e1 = some e2 ∧ e2.indent = lvl ∧ e2.out = e1.out ++ text d) →
    ∃ e2, generateRest ds e = some e2 ∧ e2.indent = lvl ∧
      e2.out = e.out ++ (ds.map (fun d => '\n' :: text d)).flatten
  | [], e, he, _ => ⟨e, rfl, he, by simp⟩
  | d :: ds, e, he, h => by
    obtain ⟨e1, h1, h2, h3⟩ := h d (by simp) e.Newline he rfl
    obtain ⟨e2, h4, h5, h6⟩ := generateRest_text text lvl ds e1 h2
      (fun x hx => h x (by simp [hx]))
    refine ⟨e2, ?_, h5, ?_⟩
    · simp only [generateRest, h1, Option.some_bind]
      exact h4
    · rw [h6, h3]
      simp [Emitter.Newline]

/-- The loop over the declarations writes their texts with one newline
between them. -/
theorem generateDecls_text (text : Decl → List Char) (ds : List Decl) (e : Emitter)
    (hs : e.start = true)
    (h : ∀ d ∈ ds, ∀ e1 : Emitter, e1.indent = e.indent → e1.start = true →
      ∃ e2, d.Generate e1 = some e2 ∧ e2.indent = e.indent ∧ e2.out = e1.out ++ text d) :
    ∃ e2, generateDecls ds 0 e = some e2 ∧
      e2.out = e.out ++ ['\n'].intercalate (ds.map text) := by
  cases ds with
  | nil => exact ⟨e, rfl, by simp [List.intercalate]⟩
  | cons d ds =>
    obtain ⟨e1, h1, h2, h3⟩ := h d (by simp) e rfl hs
    obtain ⟨e2, h4, _, h6⟩ := generateRest_text text e.indent ds e1 h2
      (fun x hx => h x (by simp [hx]))
    refine ⟨e2, ?_, ?_⟩
    · rw [generateDecls_cons, h1]
      exact h4
    · rw [h6, h3, List.map_cons, intercalate_cons_eq, List.map_map]
      simp only [List.append_assoc]
      rfl

theorem Emitter_eq_prepend (e : Emitter) (h : e.start = true) :
    e = Emitter.prepend e.out { out := [], indent := e.indent, start := true } := by
  cases e
  simp only [Emitter.prepend, List.append_nil] at h ⊢
  rw [h]

theorem Var_Generate_prepend (v : Var) (pre : List Char) (e : Emitter) :
    v.Generate (e.prepend pre) = (v.Generate e).prepend pre := by
  unfold Var.Generate
  cases v.Typ with
  | none => simp only [Print_prepend]
  | some t => simp only [Print_prepend, GoType_Generate_prepend]

theorem Var_Generate_indent (v : Var) (e : Emitter) : (v.Generate e).indent = e.indent := by
  unfold Var.Generate
  cases v.Typ with
  | none => simp only [Print_indent]
  | some t => simp only [Print_indent, GoType_Generate_indent]

/-- The text of a variable: `var`, the name, the type when there is one, and
` = ` with the dumped value at the end. -/
theorem Var_Generate_out (v : Var) (e : Emitter) :
    (v.Generate e).out = e.out ++ e.pad ++ ("var " ++ v.Name ++ " ").toList ++
      (match v.Typ with
        | some t => t.rendering e.indent
        | none => []) ++ (" = " ++ v.Value).toList := by
  unfold Var.Generate
  cases v.Typ with
  | none => simp [Emitter.Print, Emitter.pad]
  | some t =>
    simp only [Print_out]
    rw [GoType_Generate_out]
    simp [Emitter.Print, Emitter.pad, GoType_Generate_start_false]

/-- The text of a constant, as that of a variable. -/
theorem Constant_Generate_out (c : Constant) (e : Emitter) :
    (c.Generate e).out = e.out ++ e.pad ++ ("const " ++ c.Name ++ " ").toList ++
      (match c.Typ with
        | some t => t.rendering e.indent
        | none => []) ++ (" = " ++ c.Value).toList := by
  unfold Constant.Generate
  cases c.Typ with
  | none => simp [Emitter.Print, Emitter.pad]
  | some t =>
    simp only [Print_out]
    rw [GoType_Generate_out]
    simp [Emitter.Print, Emitter.pad, GoType_Generate_start_false]

end Codegen

namespace Codegen

/-! ## The claims on struct types, type texts and indentation -/

/-- C11, counterexample: the struct type with the fields `Name string` and
`Age *int` (the second with a tag) is written with an empty line between the
two fields; its text is not the one without that line. -/
theorem struct_blank_line_between_fields :
    structNameAge.rendering 0 =
        "struct \x7b\n\tName string\n\n\tAge *int `json:\"age\"`\n\x7d".toList ∧
      structNameAge.rendering 0 ≠
        "struct \x7b\n\tName string\n\tAge *int `json:\"age\"`\n\x7d".toList ∧
      (splitLines (structNameAge.rendering 0)).map String.mk =
        ["struct \x7b", "\tName string", "", "\tAge *int `json:\"age\"`", "\x7d"] := by
  decide

/-- C11 (amended): `StructType.Generate` writes the line `struct {`, then the
fields in order, each followed by one newline and each but the first preceded
by one more newline, then `}` at the indent level of the start, with no
newline after it; a field without a comment is written as its name, a space,
its type and, when it has tags, a space and the tags between backquotes. So
two fields are written with exactly one empty line between them. -/
theorem struct_fields_one_blank_line (fs : List StructField) (r : List String) (e : Emitter)
    (f g : StructField) (name : String) (type : GoType) (tags j d : String) (lvl : Int) :
    ((GoType.StructType fs r).Generate e).out =
        e.out ++ e.pad ++ "struct \x7b\n".toList ++
          ['\n'].intercalate (fs.map (fun f => f.rendering (e.indent + 1) ++ ['\n'])) ++
          List.replicate e.indent.toNat '\t' ++ "\x7d".toList ∧
      (GoType.StructType [f, g] r).rendering lvl =
        "struct \x7b\n".toList ++ f.rendering (lvl + 1) ++ ['\n'] ++ ['\n'] ++
          g.rendering (lvl + 1) ++ ['\n'] ++ List.replicate lvl.toNat '\t' ++ "\x7d".toList ∧
      (StructField.mk name type "" tags j d).rendering lvl =
        List.replicate lvl.toNat '\t' ++ (name ++ " ").toList ++ type.rendering lvl ++
          (if tags ≠ "" then (" " ++ "`" ++ tags ++ "`").toList else []) := by
  refine ⟨StructType_Generate_out fs r e, ?_, StructField_rendering_plain name type tags j d lvl⟩
  unfold GoType.rendering
  rw [StructType_Generate_out]
  simp [Emitter.pad, List.intercalate, List.intersperse]

/-- C15, counterexample: the text of a struct type has newline characters,
and the comment of a field that has one. -/
theorem struct_type_writes_newlines_and_comments :
    '\n' ∈ structNameAge.rendering 0 ∧
      structWithComment.rendering 0 =
        "struct \x7b\n\t// the name\n\tName string\n\x7d".toList ∧
      ¬ ∀ (t : GoType) (lvl : Int), '\n' ∉ t.rendering lvl := by
  refine ⟨by decide, by decide, ?_⟩
  intro h
  exact h structNameAge 0 (by decide)

/-- C15 (amended): the text of a type that contains no struct type, of any
other variants in any nesting, and whose names hold no `%`, consists of
characters of the type syntax (`[]`, `*`, `map`, `.`, `interface{}`) and of
characters of the names in the type; it has no newline and no `/` when no
name in the type has one. Every struct type writes a newline. -/
theorem struct_free_type_text (t : GoType) (lvl : Int) (h : t.structFree = true)
    (hp : ∀ s ∈ t.names, '%' ∉ s.toList) :
    (∀ c ∈ t.rendering lvl, c ∈ typeSyntaxChars ∨ ∃ s ∈ t.names, c ∈ s.toList) ∧
      ((∀ s ∈ t.names, '\n' ∉ s.toList ∧ '/' ∉ s.toList) →
        '\n' ∉ t.rendering lvl ∧ '/' ∉ t.rendering lvl) ∧
      (∀ (fs : List StructField) (r : List String),
        '\n' ∈ (GoType.StructType fs r).rendering lvl) := by
  refine ⟨structFree_chars t lvl h hp, fun hn => ⟨fun hc => ?_, fun hc => ?_⟩,
    fun fs r => StructType_rendering_newline fs r lvl⟩
  · rcases structFree_chars t lvl h hp _ hc with h1 | ⟨s, hs, h1⟩
    · revert h1
      decide
    · exact (hn s hs).1 h1
  · rcases structFree_chars t lvl h hp _ hc with h1 | ⟨s, hs, h1⟩
    · revert h1
      decide
    · exact (hn s hs).2 h1

/-- C15 (amended), at the type `map[string]*int`: its text has no newline
and no `/`. -/
theorem struct_free_type_text_witness :
    (GoType.MapType (GoType.PrimitiveType "string")
        (GoType.PointerType (GoType.PrimitiveType "int"))).structFree = true ∧
      (∀ s ∈ (GoType.MapType (GoType.PrimitiveType "string")
        (GoType.PointerType (GoType.PrimitiveType "int"))).names, '%' ∉ s.toList) ∧
      '\n' ∉ (GoType.MapType (GoType.PrimitiveType "string")
          (GoType.PointerType (GoType.PrimitiveType "int"))).rendering 0 ∧
      '/' ∉ (GoType.MapType (GoType.PrimitiveType "string")
          (GoType.PointerType (GoType.PrimitiveType "int"))).rendering 0 :=
  ⟨rfl, by decide,
    (struct_free_type_text (GoType.MapType (GoType.PrimitiveType "string")
      (GoType.PointerType (GoType.PrimitiveType "int"))) 0 rfl (by decide)).2.1 (by decide)⟩

/-- C16: after `AddField` of `f1`, ..., `fn` the fields of the struct are the
previous fields followed by `f1`, ..., `fn`, and `StructType.Generate` writes
the fields in the order of `Fields`, each one once: the text between the
line `struct {` and the closing `}` is the texts of the fields of `Fields`,
first to last, each followed by a newline, with a newline between them. -/
theorem fields_rendered_in_call_order (s : StructType) (fs : List StructField) (e : Emitter) :
    (fs.foldl StructType.AddField s).Fields = s.Fields ++ fs ∧
      (fs.foldl StructType.AddField s).RequiredJSONFields = s.RequiredJSONFields ∧
      (s.Generate e).out =
        e.out ++ e.pad ++ "struct \x7b\n".toList ++
          ['\n'].intercalate (s.Fields.map (fun f => f.rendering (e.indent + 1) ++ ['\n'])) ++
          List.replicate e.indent.toNat '\t' ++ "\x7d".toList ∧
      ((fs.foldl StructType.AddField s).Generate e).out =
        e.out ++ e.pad ++ "struct \x7b\n".toList ++
          ['\n'].intercalate
            ((s.Fields ++ fs).map (fun f => f.rendering (e.indent + 1) ++ ['\n'])) ++
          List.replicate e.indent.toNat '\t' ++ "\x7d".toList := by
  refine ⟨(AddField_foldl fs s).1, (AddField_foldl fs s).2, ?_, ?_⟩
  · exact StructType_Generate_out s.Fields s.RequiredJSONFields e
  · rw [← (AddField_foldl fs s).1]
    exact StructType_Generate_out _ _ e

/-- C18: `StructType.Generate` is a sequence of calls on the emitter (those
of its fields, struct types of any depth among them, included); after the
sequence the indent level is the one of the start, and after the first `k`
calls of it, whatever `k`, the level is not below the one of the start. -/
theorem struct_indent_balanced (fs : List StructField) (r : List String) (e : Emitter)
    (k : Nat) :
    (GoType.StructType fs r).Generate e = runOps (GoType.StructType fs r).ops e ∧
      ((GoType.StructType fs r).Generate e).indent = e.indent ∧
      e.indent ≤ (runOps ((GoType.StructType fs r).ops.take k) e).indent := by
  refine ⟨GoType_Generate_eq_runOps _ e, GoType_Generate_indent _ e, ?_⟩
  rw [runOps_indent]
  have := (GoType_ops_balanced (GoType.StructType fs r)).2 k
  omega

/-! ## The claims on packages and files -/

/-- C12, counterexample: two variables are written on two lines with no empty
line between them, and a type declaration follows a fragment that does not
end its line on the next line. -/
theorem no_blank_line_after_var_or_fragment :
    (packageTwoVars.Generate {}).map Emitter.out =
        some "package pkg\n\nvar a int = 1\nvar b int = 2".toList ∧
      (packageTwoVars.Generate {}).map (fun e => (splitLines e.out).map String.mk) =
        some ["package pkg", "", "var a int = 1", "var b int = 2"] ∧
      (packageOpenFragment.Generate {}).map Emitter.out =
        some "package pkg\n\n// f\ntype A int\n".toList := by
  decide

/-- C12 (amended): when every declaration of a package, started at the start
of a line, appends a text of its own and leaves the indent level as it was,
`Package.Generate` writes, after the package clause, the imports and the
newline that follows them, the texts of the declarations in sorted order with
exactly one newline between the texts of consecutive declarations and nothing
else. The text of a `TypeDecl` and of a `Method` ends with a newline, so an
empty line follows it; the text of a `Var` and of a `Constant` ends with
` = ` and the dumped value, and a `Fragment` writes what its callback
writes. -/
theorem one_newline_between_decls (p : Package) (text : Decl → List Char) (e : Emitter)
    (h : ∀ d ∈ p.Decls, ∀ e1 : Emitter, e1.indent = e.indent → e1.start = true →
      ∃ e2, d.Generate e1 = some e2 ∧ e2.indent = e.indent ∧ e2.out = e1.out ++ text d) :
    (∃ e2, p.Generate e = some e2 ∧
      e2.out = ((p.Imports.foldl (fun o i => i.Generate o)
          ((e.Comment p.Comment).Println ("package " ++ p.Name))).Newline).out ++
        ['\n'].intercalate (p.sorted.map text)) ∧
    (∀ (td : TypeDecl) (e1 e2 : Emitter), td.Generate e1 = some e2 →
      ∃ w, e2.out = w ++ ['\n']) ∧
    (∀ (m : Method) (e1 : Emitter), ∃ w, (m.Generate e1).out = w ++ ['\n']) ∧
    (∀ (v : Var) (e1 : Emitter), (v.Generate e1).out =
      e1.out ++ e1.pad ++ ("var " ++ v.Name ++ " ").toList ++
        (match v.Typ with
          | some t => t.rendering e1.indent
          | none => []) ++ (" = " ++ v.Value).toList) ∧
    (∀ (c : Constant) (e1 : Emitter), (c.Generate e1).out =
      e1.out ++ e1.pad ++ ("const " ++ c.Name ++ " ").toList ++
        (match c.Typ with
          | some t => t.rendering e1.indent
          | none => []) ++ (" = " ++ c.Value).toList) ∧
    (∀ (f : Fragment) (e1 : Emitter), (Fragment.toDecl f).Generate e1 = some (f e1)) := by
  refine ⟨?_, ?_, fun m e1 => ⟨_, rfl⟩, Var_Generate_out, Constant_Generate_out,
    fun f e1 => rfl⟩
  · have hperm : p.sorted.Perm p.Decls := GoSort.Slice_perm p.Decls declLess
    have hi := Package_header_indent p e
    exact generateDecls_text text p.sorted _ rfl
      (fun d hd e1 h1 h2 => by
        rw [hi] at h1 ⊢
        exact h d (hperm.mem_iff.1 hd) e1 h1 h2)
  · intro td e1 e2 h
    unfold TypeDecl.Generate at h
    cases hT : td.Type with
    | none => simp [hT] at h
    | some t =>
      simp only [hT, Option.some.injEq] at h
      subst h
      exact ⟨_, rfl⟩

/-- C12 (amended), at the package with the variables `a` and `b`: the text
is the package clause, an empty line and the two variables with one newline
between them. -/
theorem one_newline_between_decls_witness :
    (∀ d ∈ packageTwoVars.Decls, ∀ e1 : Emitter, e1.indent = ({} : Emitter).indent →
      e1.start = true →
      ∃ e2, d.Generate e1 = some e2 ∧ e2.indent = ({} : Emitter).indent ∧
        e2.out = e1.out ++ declText d) ∧
    packageTwoVars.sorted.map declText = ["var a int = 1".toList, "var b int = 2".toList] ∧
    ∃ e2, packageTwoVars.Generate {} = some e2 ∧
      e2.out = ((packageTwoVars.Imports.foldl (fun o i => i.Generate o)
          ((({} : Emitter).Comment packageTwoVars.Comment).Println
            ("package " ++ packageTwoVars.Name))).Newline).out ++
        ['\n'].intercalate (packageTwoVars.sorted.map declText) :=
  have h : ∀ d ∈ packageTwoVars.Decls, ∀ e1 : Emitter, e1.indent = ({} : Emitter).indent →
      e1.start = true →
      ∃ e2, d.Generate e1 = some e2 ∧ e2.indent = ({} : Emitter).indent ∧
        e2.out = e1.out ++ declText d := by
    intro d hd e1 hi hs
    have he1 : e1 = Emitter.prepend e1.out {} := by
      have := Emitter_eq_prepend e1 hs
      rw [hi] at this
      exact this
    simp only [packageTwoVars, emptyPackage, Package.AddDecl, List.nil_append, List.cons_append,
      List.mem_cons, List.mem_singleton, List.not_mem_nil, or_false] at hd
    rcases hd with hd | hd
    · subst hd
      refine ⟨_, rfl, ?_, ?_⟩
      · rw [Var_Generate_indent]
        exact hi
      · conv_lhs => rw [he1]
        rw [Var_Generate_prepend]
        rfl
    · subst hd
      refine ⟨_, rfl, ?_, ?_⟩
      · rw [Var_Generate_indent]
        exact hi
      · conv_lhs => rw [he1]
        rw [Var_Generate_prepend]
        rfl
  ⟨h, by decide, (one_newline_between_decls packageTwoVars declText {} h).1⟩

set_option maxRecDepth 100000 in
/-- C13: the file `out` with the package `pkg`, the import `fmt` and the type
declaration `Foo` of type `string` is written, on a fresh emitter, as the
comment line of the generator, an empty line, `package pkg`, `import "fmt"`,
an empty line and `type Foo string`, ending with a newline; the text is the
same whatever the file name, and `out` is not in it. -/
theorem File_Generate_end_to_end :
    (fileFoo.Generate {}).map Emitter.out =
        some ("// Code generated by github.com/max-hontar/go-jsonschema, DO NOT EDIT.\n" ++
          "\npackage pkg\nimport \"fmt\"\n\ntype Foo string\n").toList ∧
      (fileFoo.Generate {}).map (fun e => (splitLines e.out).map String.mk) =
        some ["// Code generated by github.com/max-hontar/go-jsonschema, DO NOT EDIT.", "",
          "package pkg", "import \"fmt\"", "", "type Foo string", ""] ∧
      (∀ (name : String) (e : Emitter),
        File.Generate { FileName := name, Package := fileFoo.Package } e = fileFoo.Generate e) ∧
      (fileFoo.Generate {}).map (fun e => decide ("out".toList <:+: e.out)) = some false := by
  refine ⟨by decide, by decide, fun _ _ => rfl, by decide⟩

/-- C14: on a package or file whose declarations are a slice in memory,
`Generate` writes what it writes for the value of the tree, leaves the tree
as it was (the declarations in their order, the imports), and a second call,
on the memory the first one left, writes what the first one writes from the
same emitter. -/
theorem Generate_twice_identical (f : FileRef) (m : List (List Decl)) (out out2 : Emitter)
    (hv : f.Package.Decls.ValidIn m) :
    (f.Generate m out).2 = (f.load m).Generate out ∧
      f.load (f.Generate m out).1 = f.load m ∧
      (f.Generate (f.Generate m out).1 out2).2 = (f.Generate m out2).2 ∧
      (f.Package.Generate m out).2 = (f.Package.load m).Generate out ∧
      f.Package.load (f.Package.Generate m out).1 = f.Package.load m ∧
      (f.Package.Generate (f.Package.Generate m out).1 out2).2 =
        (f.Package.Generate m out2).2 := by
  have key : ∀ (o o2 : Emitter),
      (f.Package.Generate (f.Package.Generate m o).1 o2).2 = (f.Package.Generate m o2).2 := by
    intro o o2
    rw [PackageRef_Generate_eq _ _ _ (PackageRef_Generate_valid _ m o hv),
      PackageRef_Generate_load _ m o hv, PackageRef_Generate_eq _ m o2 hv]
  refine ⟨PackageRef_Generate_eq _ m _ hv, ?_, key _ _, PackageRef_Generate_eq _ m _ hv,
    PackageRef_Generate_load _ m _ hv, key _ _⟩
  unfold FileRef.load FileRef.Generate
  rw [PackageRef_Generate_load _ m _ hv]

/-- C14, at the file with the type declarations `B` and `A`: the second call
writes the text of the first, and the declarations are still `B`, `A`. -/
theorem Generate_twice_identical_witness :
    fileRefBA.Package.Decls.ValidIn memoryBA ∧
      (fileRefBA.Generate (fileRefBA.Generate memoryBA {}).1 {}).2 =
        (fileRefBA.Generate memoryBA {}).2 ∧
      fileRefBA.load (fileRefBA.Generate memoryBA {}).1 = fileRefBA.load memoryBA :=
  ⟨⟨by decide, by decide⟩,
    (Generate_twice_identical fileRefBA memoryBA {} {} ⟨by decide, by decide⟩).2.2.1,
    (Generate_twice_identical fileRefBA memoryBA {} {} ⟨by decide, by decide⟩).2.1⟩

/-- C17: `AddDecl` appends the declaration, whatever the list holds: the list
is the previous one followed by `d`, one longer, and the imports, the
qualified name and the comment are the previous ones. -/
theorem AddDecl_appends (p : Package) (d : Decl) :
    (p.AddDecl d).Decls = p.Decls ++ [d] ∧
      (p.AddDecl d).Decls.length = p.Decls.length + 1 ∧
      ((p.AddDecl d).AddDecl d).Decls = p.Decls ++ [d, d] ∧
      (p.AddDecl d).Imports = p.Imports ∧
      (p.AddDecl d).QualifiedName = p.QualifiedName ∧
      (p.AddDecl d).Comment = p.Comment := by
  refine ⟨rfl, ?_, ?_, rfl, rfl, rfl⟩
  · simp [Package.AddDecl]
  · simp [Package.AddDecl]

/-- C19: the declarations that `Package.Generate` renders are a permutation
of `p.Decls`; the loop runs `Generate` of each of them once, in the sorted
order, and writes `len(p.Decls) - 1` newlines between them (none for an empty
list). -/
theorem decls_rendered_once_each (p : Package) (e : Emitter) :
    p.sorted.Perm p.Decls ∧
      p.sorted.length = p.Decls.length ∧
      p.Generate e = runSteps (renderSteps p.sorted)
        (p.Imports.foldl (fun o i => i.Generate o)
          ((e.Comment p.Comment).Println ("package " ++ p.Name))).Newline ∧
      (renderSteps p.sorted).filterMap RenderStep.decl? = p.sorted ∧
      (renderSteps p.sorted).countP RenderStep.isNewline = p.Decls.length - 1 := by
  have hperm : p.sorted.Perm p.Decls := GoSort.Slice_perm p.Decls declLess
  refine ⟨hperm, hperm.length_eq, ?_, renderSteps_decls _, ?_⟩
  · rw [← generateDecls_eq_runSteps]
    rfl
  · rw [renderSteps_newlines, hperm.length_eq]

end Codegen

namespace Schemas

/-- C20: `IsPrimitiveType(t)` is true exactly when `t` is one of `string`,
`number`, `integer`, `boolean`, `null` and `parent`; it is false for `array`,
`object` and `nested`, for the empty string and for `String`. -/
theorem IsPrimitiveType_exactly (t : String) :
    (IsPrimitiveType t = true ↔
        t ∈ ["string", "number", "integer", "boolean", "null", "parent"]) ∧
      IsPrimitiveType TypeNameArray = false ∧
      IsPrimitiveType TypeNameObject = false ∧
      IsPrimitiveType TypeNameNested = false ∧
      IsPrimitiveType "" = false ∧
      IsPrimitiveType "String" = false := by
  refine ⟨?_, by decide, by decide, by decide, by decide, by decide⟩
  unfold IsPrimitiveType
  simp [TypeNameString, TypeNameNumber, TypeNameInteger, TypeNameBoolean, TypeNameNull,
    TypeNameParent]

end Schemas
